import Mathlib

/-!
# xv6 physical page allocator and LRU ring (`kalloc.c`, `kalloc_ys.c`)

A shallow embedding of the allocator of `kalloc.c`: the intrusive free list
(`kfree`, `kalloc`, `freerange`), the circular doubly linked LRU ring threaded
through the `pages[]` descriptor array (`add_page_to_lru_list`,
`del_page_from_lru`, `kalloc_to_lru_list`, `kfree_from_lru_list`) and the
clock scan `select_victim`.

Modelling conventions.
* The machine is 32-bit little-endian x86: a pointer is a natural number below
  `2^32`, `0` is `NULL`, a `uint`/pointer occupies four consecutive bytes.
* Heap memory is a byte map `Mem`.  The globals of `kalloc.c` (`kmem`,
  `pages[]`, `page_lru_head`, the two counters) are fields of `State`; they
  live in the kernel image, below `end`, and are not aliased by `Mem`.
* A `struct page *` is `Option Nat`: `some i` is `&pages[i]`, `none` is `NULL`.
* The C `int` counters are unbounded integers (signed overflow is undefined).
* Everything that comes from headers that are not part of the sources
  (`memlayout.h`, `mmu.h`, the linker script) is a field of `Layout`.
* Pointer arithmetic is 32-bit: the sum `p + PGSIZE` of `freerange` wraps
  modulo `2^32`.
* `swap_out` is external: it is a parameter of `kalloc`.  For concrete runs
  `evict` models it from the specification.
* `panic` ends a run with `Outcome.panic`; dereferencing `NULL` or indexing
  `pages[]` out of bounds ends it with `Outcome.fault`; a loop that exhausts its
  fuel ends with `Outcome.timeout`.
* Each run produces a ghost trace of lock operations, `swap_out` calls,
  console writes and visited ring nodes.
-/

namespace Kalloc

/-! ## Definitions -/

/-- Byte-addressed memory: the byte stored at an address is `m a % 256`. -/
abbrev Mem := Nat → Nat

/-- The page size: `kalloc.c` allocates 4096-byte pages. -/
def PGSIZE : Nat := 4096

/-- Two to the 32: the modulus of `uint` arithmetic. -/
def WORD : Nat := 4294967296

/-- The constants and macros `kalloc.c` takes from `memlayout.h`, `mmu.h` and
the linker script, none of which is among the sources. -/
structure Layout where
  /-- `end`: first address after the kernel image. -/
  kend : Nat
  /-- `PHYSTOP`: top of usable physical memory. -/
  PHYSTOP : Nat
  /-- `V2P(a)`: kernel virtual address to physical address. -/
  V2P : Nat → Nat
  /-- `P2V(a)`: physical address to kernel virtual address. -/
  P2V : Nat → Nat
  /-- `PGROUNDUP(sz)`. -/
  PGROUNDUP : Nat → Nat
  /-- `PDX(va)`: page directory index of a virtual address. -/
  PDX : Nat → Nat
  /-- `PTX(va)`: page table index of a virtual address. -/
  PTX : Nat → Nat
  /-- `PTE_ADDR(pte)`: the physical address stored in an entry. -/
  PTE_ADDR : Nat → Nat
  /-- `PTE_A`: the accessed flag of an entry. -/
  PTE_A : Nat
  /-- `PTE_P`: the present flag of an entry. -/
  PTE_P : Nat

/-- The stock xv6 values (`KERNBASE = 0x80000000`, `PHYSTOP = 0xE000000`,
two-level x86 paging), with the kernel image ending at `0x80116000`.
Used for concrete runs only. -/
def xv6Layout : Layout where
  kend := 0x80116000
  PHYSTOP := 0xE000000
  V2P a := (a % WORD + WORD - 0x80000000) % WORD
  P2V a := (a + 0x80000000) % WORD
  PGROUNDUP sz := ((sz + (PGSIZE - 1)) % WORD) &&& 0xFFFFF000
  PDX va := (va >>> 22) &&& 0x3FF
  PTX va := (va >>> 12) &&& 0x3FF
  PTE_ADDR pte := pte &&& 0xFFFFF000
  PTE_A := 0x020
  PTE_P := 0x001

/-- The descriptor `struct page`. -/
structure Page where
  next : Option Nat
  prev : Option Nat
  pgdir : Nat
  vaddr : Nat
deriving DecidableEq

/-- The globals of `kalloc.c` together with heap memory. -/
structure State where
  mem : Mem
  /-- `kmem.use_lock` -/
  use_lock : Int
  /-- `kmem.freelist` -/
  freelist : Nat
  pages : Nat → Page
  page_lru_head : Option Nat
  num_free_pages : Int
  num_lru_pages : Int

/-- The two spinlocks. -/
inductive Lock
  | kmem
  | lru
deriving DecidableEq

/-- Ghost events of a run. -/
inductive Event
  | acquire (l : Lock)
  | release (l : Lock)
  | swap_out
  | cprintf (msg : String)
  | visit (page : Nat)
deriving DecidableEq

/-- How a run ends. -/
inductive Outcome (α : Type)
  | ok (v : α)
  | panic (msg : String)
  | fault
  | timeout
deriving DecidableEq

/-- The result of a run: how it ended, the state it ended in, and its trace. -/
structure Result (α : Type) where
  out : Outcome α
  s : State
  trace : List Event

/-- Read the little-endian 32-bit word at address `a`. -/
def read32 (m : Mem) (a : Nat) : Nat :=
  m a % 256 + 256 * (m (a + 1) % 256) + 65536 * (m (a + 2) % 256)
    + 16777216 * (m (a + 3) % 256)

/-- Store the low 32 bits of `v` at address `a`, little-endian. -/
def write32 (m : Mem) (a v : Nat) : Mem := fun x =>
  if x = a then v % 256
  else if x = a + 1 then v / 256 % 256
  else if x = a + 2 then v / 65536 % 256
  else if x = a + 3 then v / 16777216 % 256
  else m x

/-- The libc `memset(v, c, n)`. -/
def memset (m : Mem) (v c n : Nat) : Mem := fun x =>
  if v ≤ x ∧ x < v + n then c % 256 else m x

/-- Trace of `if(kmem.use_lock) acquire(&kmem.lock)`. -/
def kmemAcquire (s : State) : List Event :=
  if s.use_lock ≠ 0 then [Event.acquire Lock.kmem] else []

/-- Trace of `if(kmem.use_lock) release(&kmem.lock)`. -/
def kmemRelease (s : State) : List Event :=
  if s.use_lock ≠ 0 then [Event.release Lock.kmem] else []

/-- The `panic` test of `kfree`:
`(uint)v % PGSIZE || v < end || V2P(v) >= PHYSTOP`. -/
def kfreeBad (L : Layout) (v : Nat) : Prop :=
  (v % WORD) % PGSIZE ≠ 0 ∨ v < L.kend ∨ L.V2P v ≥ L.PHYSTOP

instance (L : Layout) (v : Nat) : Decidable (kfreeBad L v) := by
  unfold kfreeBad; infer_instance

/-- The function `kfree` of `kalloc.c`. -/
def kfree (L : Layout) (s : State) (v : Nat) : Result Unit :=
  if kfreeBad L v then
    ⟨Outcome.panic "kfree", s, []⟩
  else
    -- memset(v, 1, PGSIZE)
    let s1 : State := { s with mem := memset s.mem v 1 PGSIZE }
    -- r->next = kmem.freelist; num_free_pages++; kmem.freelist = r
    let s2 : State := { s1 with mem := write32 s1.mem v s1.freelist }
    let s3 : State := { s2 with num_free_pages := s2.num_free_pages + 1 }
    let s4 : State := { s3 with freelist := v }
    ⟨Outcome.ok (), s4, kmemAcquire s ++ kmemRelease s⟩

/-- The body of `kalloc` of `kalloc.c`; one unit of fuel per pass through
`try_again`. -/
def kalloc_loop (swap_out : State → Int × State) :
    Nat → State → List Event → Result Nat
  | 0, s, tr => ⟨Outcome.timeout, s, tr⟩
  | fuel + 1, s, tr =>
    let tr1 := tr ++ kmemAcquire s
    let r := s.freelist
    if r ≠ 0 then
      -- kmem.freelist = r->next; num_free_pages--
      let s1 : State := { s with freelist := read32 s.mem r }
      let s2 : State := { s1 with num_free_pages := s1.num_free_pages - 1 }
      ⟨Outcome.ok r, s2, tr1 ++ kmemRelease s⟩
    else
      let tr2 := tr1 ++ kmemRelease s ++ [Event.swap_out]
      let res := swap_out s
      if res.1 = 0 then
        ⟨Outcome.ok 0, res.2, tr2 ++ [Event.cprintf "kalloc: out of memory\n"]⟩
      else
        kalloc_loop swap_out fuel res.2 tr2

/-- The function `kalloc` of `kalloc.c`. -/
def kalloc (swap_out : State → Int × State) (fuel : Nat) (s : State) : Result Nat :=
  kalloc_loop swap_out fuel s []

/-- The `for` loop of `freerange`.  The pointer `p` is 32 bits wide: the sum
`p + PGSIZE` of the loop test and of the increment wraps modulo `2^32`. -/
def freerange_loop (L : Layout) : Nat → State → Nat → Nat → List Event → Result Unit
  | 0, s, _, _, tr => ⟨Outcome.timeout, s, tr⟩
  | fuel + 1, s, p, vend, tr =>
    if (p + PGSIZE) % WORD ≤ vend then
      match kfree L s p with
      | ⟨Outcome.ok _, s1, t⟩ =>
        freerange_loop L fuel s1 ((p + PGSIZE) % WORD) vend (tr ++ t)
      | ⟨Outcome.panic msg, s1, t⟩ => ⟨Outcome.panic msg, s1, tr ++ t⟩
      | ⟨Outcome.fault, s1, t⟩ => ⟨Outcome.fault, s1, tr ++ t⟩
      | ⟨Outcome.timeout, s1, t⟩ => ⟨Outcome.timeout, s1, tr ++ t⟩
    else
      ⟨Outcome.ok (), s, tr⟩

/-- The function `freerange` of `kalloc.c`.  Both `(char*)` casts give 32-bit
pointers.  Whether the loop goes on depends on `p` alone, and `p` takes at most
`2^32 / PGSIZE` values, so a loop that has not ended after that many passes
never ends (`freerange_timeout_forever`): with the fuel given here
`Outcome.timeout` stands for a loop that does not terminate. -/
def freerange (L : Layout) (s : State) (vstart vend : Nat) : Result Unit :=
  freerange_loop L (WORD / PGSIZE + 1) s (L.PGROUNDUP (vstart % WORD) % WORD) (vend % WORD) []

/-- The function `kinit1` of `kalloc.c`. -/
def kinit1 (L : Layout) (s : State) (vstart vend : Nat) : Result Unit :=
  freerange L { s with use_lock := 0 } vstart vend

/-- The function `kinit2` of `kalloc.c`. -/
def kinit2 (L : Layout) (s : State) (vstart vend : Nat) : Result Unit :=
  match freerange L s vstart vend with
  | ⟨Outcome.ok _, s1, t⟩ => ⟨Outcome.ok (), { s1 with use_lock := 1 }, t⟩
  | r => r

/-- The free list as a list of frames: following `r->next` from `h` visits
exactly the frames of the list, in order, and ends at `NULL`. -/
def FreeList (m : Mem) : Nat → List Nat → Prop
  | h, [] => h = 0
  | h, a :: rest => h = a ∧ a ≠ 0 ∧ FreeList m (read32 m a) rest

instance FreeList.decide (m : Mem) : ∀ (h : Nat) (l : List Nat), Decidable (FreeList m h l)
  | h, [] => by unfold FreeList; infer_instance
  | h, a :: rest => by
    unfold FreeList
    have := FreeList.decide m (read32 m a) rest
    infer_instance

/-- Call `kalloc` `n` times in a row, collecting the returned frames; `none`
as soon as one call does not return. -/
def kallocN (swap_out : State → Int × State) (fuel : Nat) : Nat → State → Option (List Nat × State)
  | 0, s => some ([], s)
  | n + 1, s =>
    match kalloc swap_out fuel s with
    | ⟨Outcome.ok r, s1, _⟩ =>
      match kallocN swap_out fuel n s1 with
      | some (rs, s2) => some (r :: rs, s2)
      | none => none
    | _ => none

/-- The frames `p, p + PGSIZE, ..., p + (n-1) * PGSIZE`, last one first. -/
def framesDesc (p : Nat) : Nat → List Nat
  | 0 => []
  | n + 1 => (p + n * PGSIZE) :: framesDesc p n

/-! ### The LRU ring -/

/-- The assignment `pages[p].next = v`. -/
def setNext (s : State) (p : Nat) (v : Option Nat) : State :=
  { s with pages := fun i => if i = p then { s.pages p with next := v } else s.pages i }

/-- The assignment `pages[p].prev = v`. -/
def setPrev (s : State) (p : Nat) (v : Option Nat) : State :=
  { s with pages := fun i => if i = p then { s.pages p with prev := v } else s.pages i }

/-- The assignment `pages[p].pgdir = v`. -/
def setPgdir (s : State) (p : Nat) (v : Nat) : State :=
  { s with pages := fun i => if i = p then { s.pages p with pgdir := v } else s.pages i }

/-- The assignment `pages[p].vaddr = v`. -/
def setVaddr (s : State) (p : Nat) (v : Nat) : State :=
  { s with pages := fun i => if i = p then { s.pages p with vaddr := v } else s.pages i }

/-- The function `add_page_to_lru_list` of `kalloc.c`; `none` when it
dereferences `NULL`. -/
def add_page_to_lru_list (s : State) (page : Nat) : Option State :=
  let linked : Option State :=
    if s.num_lru_pages = 0 then
      -- page->prev = page; page->next = page
      some (setNext (setPrev s page (some page)) page (some page))
    else if s.num_lru_pages = 1 then
      -- page->prev = page_lru_head; page_lru_head->next = page
      let s1 := setPrev s page s.page_lru_head
      match s1.page_lru_head with
      | none => none
      | some h =>
        let s2 := setNext s1 h (some page)
        -- page_lru_head->prev = page; page->next = page_lru_head
        let s3 := setPrev s2 h (some page)
        some (setNext s3 page (some h))
    else
      -- page_lru_head->prev->next = page
      match s.page_lru_head with
      | none => none
      | some h =>
        match (s.pages h).prev with
        | none => none
        | some t =>
          let s1 := setNext s t (some page)
          -- page->prev = page_lru_head->prev
          let s2 := setPrev s1 page (s1.pages h).prev
          -- page_lru_head->prev = page; page->next = page_lru_head
          let s3 := setPrev s2 h (some page)
          some (setNext s3 page (some h))
  -- page_lru_head = page; num_lru_pages++
  linked.map fun s4 =>
    { s4 with page_lru_head := some page, num_lru_pages := s4.num_lru_pages + 1 }

/-- The function `del_page_from_lru` of `kalloc.c`; `none` when it
dereferences `NULL`. -/
def del_page_from_lru (s : State) (page : Nat) : Option State :=
  -- if(page == page_lru_head) page_lru_head = page->next
  let s1 : State :=
    if some page = s.page_lru_head then { s with page_lru_head := (s.pages page).next } else s
  let unlinked : Option State :=
    if (s1.pages page).next = some page ∨ s1.num_lru_pages = 1 then
      some { s1 with page_lru_head := none }
    else
      -- page->next->prev = page->prev
      match (s1.pages page).next with
      | none => none
      | some n =>
        let s2 := setPrev s1 n (s1.pages page).prev
        -- page->prev->next = page->next
        match (s2.pages page).prev with
        | none => none
        | some p => some (setNext s2 p (s2.pages page).next)
  -- page->next = NULL; page->prev = NULL; num_lru_pages--
  unlinked.map fun s3 =>
    let s4 := setPrev (setNext s3 page none) page none
    { s4 with num_lru_pages := s4.num_lru_pages - 1 }

/-- The index `V2P(pa)/PGSIZE` of the descriptor of the frame at `pa`. -/
def pageIndex (L : Layout) (pa : Nat) : Nat := L.V2P pa / PGSIZE

/-- The number of descriptors, `PHYSTOP/PGSIZE`. -/
def NPAGES (L : Layout) : Nat := L.PHYSTOP / PGSIZE

/-- The function `kalloc_to_lru_list` of `kalloc.c`. -/
def kalloc_to_lru_list (L : Layout) (s : State) (pgdir pa va : Nat) : Result Unit :=
  let page := pageIndex L pa
  if NPAGES L ≤ page then ⟨Outcome.fault, s, [Event.acquire Lock.lru]⟩
  else
    let s1 := setVaddr (setPgdir s page pgdir) page va
    match add_page_to_lru_list s1 page with
    | none => ⟨Outcome.fault, s, [Event.acquire Lock.lru]⟩
    | some s2 => ⟨Outcome.ok (), s2, [Event.acquire Lock.lru, Event.release Lock.lru]⟩

/-- The function `kfree_from_lru_list` of `kalloc.c`. -/
def kfree_from_lru_list (L : Layout) (s : State) (v : Nat) : Result Unit :=
  let page := pageIndex L v
  if NPAGES L ≤ page then ⟨Outcome.fault, s, [Event.acquire Lock.lru]⟩
  else
    let s1 := setVaddr (setPgdir s page 0) page 0
    match del_page_from_lru s1 page with
    | none => ⟨Outcome.fault, s, [Event.acquire Lock.lru]⟩
    | some s2 => ⟨Outcome.ok (), s2, [Event.acquire Lock.lru, Event.release Lock.lru]⟩

/-- The address `&curr->pgdir[PDX(curr->vaddr)]`. -/
def pdeAddr (L : Layout) (pg : Page) : Nat := (pg.pgdir + 4 * L.PDX pg.vaddr) % WORD

/-- The address `&pgtab[PTX(curr->vaddr)]` with
`pgtab = P2V(PTE_ADDR(*pde))`. -/
def pteAddr (L : Layout) (m : Mem) (pg : Page) : Nat :=
  (L.P2V (L.PTE_ADDR (read32 m (pdeAddr L pg))) + 4 * L.PTX pg.vaddr) % WORD

/-- The mask `~PTE_A` as a `uint`. -/
def notA (L : Layout) : Nat := (WORD - 1) ^^^ L.PTE_A

/-- The relink in the `else` branch of `select_victim`: detach `curr` and
splice it in before the head; `none` when it dereferences `NULL`. -/
def moveToTail (s : State) (curr : Nat) : Option State :=
  -- curr->prev->next = curr->next
  match (s.pages curr).prev with
  | none => none
  | some p =>
    let s1 := setNext s p (s.pages curr).next
    -- curr->next->prev = curr->prev
    match (s1.pages curr).next with
    | none => none
    | some n =>
      let s2 := setPrev s1 n (s1.pages curr).prev
      -- page_lru_head->prev->next = curr
      match s2.page_lru_head with
      | none => none
      | some h =>
        match (s2.pages h).prev with
        | none => none
        | some t =>
          let s3 := setNext s2 t (some curr)
          -- curr->prev = page_lru_head->prev
          let s4 := setPrev s3 curr (s3.pages h).prev
          -- page_lru_head->prev = curr; curr->next = page_lru_head
          let s5 := setPrev s4 h (some curr)
          some (setNext s5 curr (some h))

/-- The `while(1)` loop of `select_victim` of `kalloc.c`; one unit of fuel per
visited node. -/
def select_victim_loop (L : Layout) :
    Nat → State → Option Nat → List Event → Result (Option Nat)
  | 0, s, _, tr => ⟨Outcome.timeout, s, tr⟩
  | _ + 1, s, none, tr => ⟨Outcome.fault, s, tr⟩
  | fuel + 1, s, some c, tr =>
    let nxt := (s.pages c).next
    let pte := pteAddr L s.mem (s.pages c)
    let tr1 := tr ++ [Event.visit c]
    if read32 s.mem pte &&& L.PTE_A ≠ 0 then
      -- *pte &= (~PTE_A)
      let s1 : State := { s with mem := write32 s.mem pte (read32 s.mem pte &&& notA L) }
      if some c = s1.page_lru_head then
        select_victim_loop L fuel { s1 with page_lru_head := (s1.pages c).next } nxt tr1
      else
        match moveToTail s1 c with
        | none => ⟨Outcome.fault, s1, tr1⟩
        | some s2 => select_victim_loop L fuel s2 nxt tr1
    else
      ⟨Outcome.ok (some c), s, tr1 ++ [Event.release Lock.lru]⟩

/-- The function `select_victim` of `kalloc.c`. -/
def select_victim (L : Layout) (fuel : Nat) (s : State) : Result (Option Nat) :=
  match s.page_lru_head with
  | none => ⟨Outcome.ok none, s, [Event.acquire Lock.lru, Event.release Lock.lru]⟩
  | some c => select_victim_loop L fuel s (some c) [Event.acquire Lock.lru]

/-! ### The variant `kalloc_ys.c` -/

namespace ys

/-- The function `kalloc_to_lru_list` of `kalloc_ys.c`. -/
def kalloc_to_lru_list (L : Layout) (s : State) (pgdir pa va : Nat) : Result Unit :=
  let page := pageIndex L pa
  if NPAGES L ≤ page then ⟨Outcome.fault, s, [Event.acquire Lock.lru]⟩
  else
    let s1 := setVaddr (setPgdir s page pgdir) page va
    let linked : Option State :=
      if s1.num_lru_pages = 0 then
        some (setNext (setPrev s1 page (some page)) page (some page))
      else
        let pre : Option State :=
          if s1.num_lru_pages = 1 then
            -- page->prev = page_lru_head; page_lru_head->next = page
            let s2 := setPrev s1 page s1.page_lru_head
            match s2.page_lru_head with
            | none => none
            | some h => some (setNext s2 h (some page))
          else
            -- page_lru_head->prev->next = page; page->prev = page_lru_head->prev
            match s1.page_lru_head with
            | none => none
            | some h =>
              match (s1.pages h).prev with
              | none => none
              | some t =>
                let s2 := setNext s1 t (some page)
                some (setPrev s2 page (s2.pages h).prev)
        -- page_lru_head->prev = page; page->next = page_lru_head
        match pre with
        | none => none
        | some s3 =>
          match s3.page_lru_head with
          | none => none
          | some h => some (setNext (setPrev s3 h (some page)) page (some h))
    match linked with
    | none => ⟨Outcome.fault, s, [Event.acquire Lock.lru]⟩
    | some s4 =>
      ⟨Outcome.ok (), { s4 with page_lru_head := some page, num_lru_pages := s4.num_lru_pages + 1 },
        [Event.acquire Lock.lru, Event.release Lock.lru]⟩

/-- The function `kfree_from_lru_list` of `kalloc_ys.c`. -/
def kfree_from_lru_list (L : Layout) (s : State) (v : Nat) : Result Unit :=
  let page := pageIndex L v
  if NPAGES L ≤ page then ⟨Outcome.fault, s, [Event.acquire Lock.lru]⟩
  else
    let s1 := setVaddr (setPgdir s page 0) page 0
    -- if(page == page_lru_head) page_lru_head = page->next
    let s2 : State :=
      if some page = s1.page_lru_head then { s1 with page_lru_head := (s1.pages page).next }
      else s1
    let unlinked : Option State :=
      if s2.num_lru_pages > 1 then
        -- page->prev->next = page->next
        match (s2.pages page).prev with
        | none => none
        | some p =>
          let s3 := setNext s2 p (s2.pages page).next
          -- page->next->prev = page->prev
          match (s3.pages page).next with
          | none => none
          | some n => some (setPrev s3 n (s3.pages page).prev)
      else
        some { s2 with page_lru_head := none }
    match unlinked with
    | none => ⟨Outcome.fault, s, [Event.acquire Lock.lru]⟩
    | some s4 =>
      let s5 := setPrev (setNext s4 page none) page none
      ⟨Outcome.ok (), { s5 with num_lru_pages := s5.num_lru_pages - 1 },
        [Event.acquire Lock.lru, Event.release Lock.lru]⟩

/-- The `while(1)` loop of `select_victim` of `kalloc_ys.c`: as in `kalloc.c`,
but it panics when the page directory entry is not present. -/
def select_victim_loop (L : Layout) :
    Nat → State → Option Nat → List Event → Result (Option Nat)
  | 0, s, _, tr => ⟨Outcome.timeout, s, tr⟩
  | _ + 1, s, none, tr => ⟨Outcome.fault, s, tr⟩
  | fuel + 1, s, some c, tr =>
    let nxt := (s.pages c).next
    let tr1 := tr ++ [Event.visit c]
    if read32 s.mem (pdeAddr L (s.pages c)) &&& L.PTE_P ≠ 0 then
      let pte := pteAddr L s.mem (s.pages c)
      if read32 s.mem pte &&& L.PTE_A ≠ 0 then
        let s1 : State := { s with mem := write32 s.mem pte (read32 s.mem pte &&& notA L) }
        if some c = s1.page_lru_head then
          select_victim_loop L fuel { s1 with page_lru_head := (s1.pages c).next } nxt tr1
        else
          match moveToTail s1 c with
          | none => ⟨Outcome.fault, s1, tr1⟩
          | some s2 => select_victim_loop L fuel s2 nxt tr1
      else
        ⟨Outcome.ok (some c), s, tr1 ++ [Event.release Lock.lru]⟩
    else
      ⟨Outcome.panic "find_victim: pde must have PTE_P bits in lru_list", s, tr1⟩

/-- The function `select_victim` of `kalloc_ys.c`. -/
def select_victim (L : Layout) (fuel : Nat) (s : State) : Result (Option Nat) :=
  match s.page_lru_head with
  | none => ⟨Outcome.ok none, s, [Event.acquire Lock.lru, Event.release Lock.lru]⟩
  | some c => select_victim_loop L fuel s (some c) [Event.acquire Lock.lru]

end ys

/-! ### Ring well-formedness -/

/-- A doubly linked path: `next` leads from `x` through the nodes of the list
to `y`, and `prev` leads back. -/
def Linked (pg : Nat → Page) : Nat → List Nat → Nat → Prop
  | x, [], y => (pg x).next = some y ∧ (pg y).prev = some x
  | x, z :: zs, y => (pg x).next = some z ∧ (pg z).prev = some x ∧ Linked pg z zs y

instance Linked.decide (pg : Nat → Page) :
    ∀ (x : Nat) (l : List Nat) (y : Nat), Decidable (Linked pg x l y)
  | x, [], y => by unfold Linked; infer_instance
  | x, z :: zs, y => by
    unfold Linked
    have := Linked.decide pg z zs y
    infer_instance

/-- The descriptors of the list form a circular doubly linked list in list
order: each node's `next` is its successor, the last node's `next` is the
first, and `prev` is the inverse. -/
def LinkRing (pg : Nat → Page) : List Nat → Prop
  | [] => True
  | a :: rest => Linked pg a rest a

instance LinkRing.decide (pg : Nat → Page) : ∀ l : List Nat, Decidable (LinkRing pg l)
  | [] => by unfold LinkRing; infer_instance
  | a :: rest => by unfold LinkRing; infer_instance

/-- The state holds a well-formed LRU ring whose `next` traversal from the head
is `l`: the head is the first node of `l` (`NULL` for the empty ring), the
count is the length of `l`, no frame occurs twice, and the links are circular. -/
structure Ring (s : State) (l : List Nat) : Prop where
  head : s.page_lru_head = l.head?
  count : s.num_lru_pages = l.length
  nodup : l.Nodup
  links : LinkRing s.pages l

/-- The LRU ring of the state is well formed. -/
def WellFormed (s : State) : Prop := ∃ l, Ring s l

/-- The access bit of the page-table entry of ring node `c` is set:
`*pte & PTE_A`. -/
def accessed (L : Layout) (s : State) (c : Nat) : Prop :=
  read32 s.mem (pteAddr L s.mem (s.pages c)) &&& L.PTE_A ≠ 0

instance (L : Layout) (s : State) (c : Nat) : Decidable (accessed L s c) := by
  unfold accessed; infer_instance

/-- The page directory entry and the page-table entry of every node of the
list are 4-byte aligned words. -/
def SlotsAligned (L : Layout) (s : State) (l : List Nat) : Prop :=
  ∀ c ∈ l, pdeAddr L (s.pages c) % 4 = 0 ∧ pteAddr L s.mem (s.pages c) % 4 = 0

/-- The nodes of the list map to pairwise distinct page-table entries. -/
def SlotsDistinct (L : Layout) (s : State) (l : List Nat) : Prop :=
  ∀ a ∈ l, ∀ b ∈ l, pteAddr L s.mem (s.pages a) = pteAddr L s.mem (s.pages b) → a = b

/-- What the clock scan needs of the paging macros: `PTE_A` is a `uint` mask,
and `PTE_ADDR` does not depend on the access bit. -/
def Layout.AccessBitOK (L : Layout) : Prop :=
  L.PTE_A < WORD ∧ ∀ w, L.PTE_ADDR (w &&& notA L) = L.PTE_ADDR w

/-- Clear the access bit of the page-table entry at address `p`. -/
def clearA (L : Layout) (m : Mem) (p : Nat) : Mem :=
  write32 m p (read32 m p &&& notA L)

/-- Clear the access bits of the entries at the given addresses, in order. -/
def clearAll (L : Layout) (m : Mem) (ps : List Nat) : Mem :=
  ps.foldl (clearA L) m

/-- The byte addresses of the four-byte entries at the given addresses. -/
def slotBytes (ps : List Nat) (x : Nat) : Prop :=
  ∃ p ∈ ps, p ≤ x ∧ x < p + 4

/-- The state after one pass of the `select_victim` loop over a head node `a`
whose access bit is set: the bit is cleared in memory and the head pointer
moves to the successor of `a`. -/
def stepSet (L : Layout) (s : State) (a : Nat) : State :=
  { s with
    mem := clearA L s.mem (pteAddr L s.mem (s.pages a)),
    page_lru_head := (s.pages a).next }

instance (L : Layout) (s : State) (l : List Nat) : Decidable (SlotsAligned L s l) := by
  unfold SlotsAligned; infer_instance

instance (L : Layout) (s : State) (l : List Nat) : Decidable (SlotsDistinct L s l) := by
  unfold SlotsDistinct; infer_instance

/-- An allocator with nothing in it: zeroed memory, empty free list, empty
ring, both counters zero, locking off. -/
def emptyState : State where
  mem := fun _ => 0
  use_lock := 0
  freelist := 0
  pages := fun _ => ⟨none, none, 0, 0⟩
  page_lru_head := none
  num_free_pages := 0
  num_lru_pages := 0

/-- An eviction operation that never finds a victim. -/
def noVictim : State → Int × State := fun s => (0, s)

/-- The empty allocator after `kfree` of the frame at `0x80400000`. -/
def oneFrameState : State := (kfree xv6Layout emptyState 0x80400000).s

/-- Demo memory: a page directory at `0x80500000` whose entry 0 points to the
page table at physical `0x501000`; the entries for the virtual addresses
`0x1000`, `0x2000`, `0x3000` map frames `0x400000`, `0x401000`, `0x402000`, the
first and third with the access bit set. -/
def demoMem : Mem :=
  write32 (write32 (write32 (write32 (fun _ => 0) 0x80500000 0x00501007)
    0x80501004 0x00400027) 0x80501008 0x00401007) 0x8050100C 0x00402027

/-- The empty allocator over the demo memory. -/
def demoState0 : State := { emptyState with mem := demoMem }

/-- The demo ring after registering frame `0x80400000` at `0x1000`. -/
def demoState1 : State :=
  (kalloc_to_lru_list xv6Layout demoState0 0x80500000 0x80400000 0x1000).s

/-- The demo ring after also registering frame `0x80401000` at `0x2000`. -/
def demoState2 : State :=
  (kalloc_to_lru_list xv6Layout demoState1 0x80500000 0x80401000 0x2000).s

/-- The demo ring after also registering frame `0x80402000` at `0x3000`:
traversal `1026, 1025, 1024`. -/
def demoState3 : State :=
  (kalloc_to_lru_list xv6Layout demoState2 0x80500000 0x80402000 0x3000).s

/-- The demo ring holding the single frame `0x80401000`, mapped at `0x2000`,
whose access bit is clear. -/
def demoClear1 : State :=
  (kalloc_to_lru_list xv6Layout demoState0 0x80500000 0x80401000 0x2000).s

/-- The three-node demo ring with all three access bits set. -/
def demoSet3 : State := { demoState3 with mem := write32 demoMem 0x80501008 0x00401027 }

/-- A ring holding the single frame `0x80401000` registered under the page
directory `0x80600000`, whose entries are all zero (not present). -/
def demoNoPde : State :=
  (kalloc_to_lru_list xv6Layout demoState0 0x80600000 0x80401000 0x2000).s

/-- Replay a trace of `kalloc` against the free-list lock, starting with the
lock held or not as `held` says, and return whether it is held at the end.
The replay fails (`none`) when the trace acquires `kmem.lock` while holding
it, releases it while not holding it, calls `swap_out` while holding it, or
touches the ring lock. -/
def kmemReplay : Bool → List Event → Option Bool
  | held, [] => some held
  | held, Event.acquire Lock.kmem :: tr => if held then none else kmemReplay true tr
  | held, Event.release Lock.kmem :: tr => if held then kmemReplay false tr else none
  | held, Event.swap_out :: tr => if held then none else kmemReplay false tr
  | _, Event.acquire Lock.lru :: _ => none
  | _, Event.release Lock.lru :: _ => none
  | held, Event.cprintf _ :: tr => kmemReplay held tr
  | held, Event.visit _ :: tr => kmemReplay held tr

/-- The trace of one pass of `kalloc` in locked mode that finds the free list
empty and calls `swap_out`. -/
def lockedPass : List Event :=
  [Event.acquire Lock.kmem, Event.release Lock.kmem, Event.swap_out]

/-- An eviction that always reports success without freeing anything. -/
def uselessEvict : State → Int × State := fun s => (1, s)

/-- The empty allocator in locked mode. -/
def lockedEmpty : State := { emptyState with use_lock := 1 }

/-! ### Well-formedness in the words of the specification -/

/-- Follow `next` `k` times from node `x`; `none` when a `NULL` link is met. -/
def iterNext (pg : Nat → Page) : Nat → Nat → Option Nat
  | 0, x => some x
  | k + 1, x =>
    match (pg x).next with
    | none => none
    | some y => iterNext pg k y

/-- The node `x` is in the ring: it is reached from the ring head by following
`next` some number of times. -/
def InRing (s : State) (x : Nat) : Prop :=
  ∃ h k, s.page_lru_head = some h ∧ iterNext s.pages k h = some x

/-- Ring well-formedness as the specification words it.  The count is the
number of nodes of the ring, so it is not negative and a ring of two or more
nodes has a head.  If the count is 0 the head is null; if it is 1 the single
node's `prev` and `next` are the node itself; if it is 2 or more, following
`next` from any node of the ring returns to it after exactly `count` steps and
not earlier, and `prev` is the exact inverse of `next` on the ring.  No frame
appears in the ring more than once: the first `count` nodes of the traversal
from the head are pairwise different. -/
structure WellFormedSpec (s : State) : Prop where
  nonneg : 0 ≤ s.num_lru_pages
  empty : s.num_lru_pages = 0 → s.page_lru_head = none
  single : s.num_lru_pages = 1 →
    ∃ a, s.page_lru_head = some a ∧ (s.pages a).next = some a ∧ (s.pages a).prev = some a
  headed : 2 ≤ s.num_lru_pages → ∃ h, s.page_lru_head = some h
  cycle : 2 ≤ s.num_lru_pages → ∀ x, InRing s x →
    iterNext s.pages s.num_lru_pages.toNat x = some x ∧
    ∀ k, 0 < k → k < s.num_lru_pages.toNat → iterNext s.pages k x ≠ some x
  inverse : 2 ≤ s.num_lru_pages → ∀ x y, InRing s x → InRing s y →
    ((s.pages x).next = some y ↔ (s.pages y).prev = some x)
  once : ∀ h, s.page_lru_head = some h → ∀ i j, i < j → j < s.num_lru_pages.toNat →
    iterNext s.pages i h ≠ iterNext s.pages j h

/-! ### Counter consistency -/

/-- The free list holds exactly the frames `fl`, the free counter is their
number, and each of them is a page-aligned 32-bit address. -/
structure FreeFrames (s : State) (fl : List Nat) : Prop where
  list : FreeList s.mem s.freelist fl
  count : s.num_free_pages = fl.length
  frames : ∀ a ∈ fl, 4096 ∣ a ∧ a < WORD

/-- The invariant of the allocator: the free list is a list of frames counted
by `num_free_pages`, and the LRU ring is well formed (so `num_lru_pages` counts
its nodes) and made of descriptors of `pages[]`. -/
def AllocInv (L : Layout) (s : State) : Prop :=
  (∃ fl, FreeFrames s fl) ∧ ∃ l, Ring s l ∧ ∀ x ∈ l, x < NPAGES L

/-- Counter consistency, as the specification states it: `num_free_pages` is
the number of frames on the free list and `num_lru_pages` is the number of
nodes reachable from the ring head. -/
def CounterConsistent (s : State) : Prop :=
  ∃ fl l, FreeList s.mem s.freelist fl ∧ s.num_free_pages = fl.length ∧
    Ring s l ∧ (∀ x, InRing s x ↔ x ∈ l) ∧ s.num_lru_pages = l.length

/-- What counter consistency needs of the paging macros: page-table entries
are word aligned, and the access flag lies below the page-frame bits, so that a
page-aligned word never has it set. -/
def Layout.EntriesOK (L : Layout) : Prop :=
  (∀ (m : Mem) (pg : Page), pteAddr L m pg % 4 = 0) ∧
  (∀ w, 4096 ∣ w → w &&& L.PTE_A = 0)

/-- The loop of `freerange` passes the page `a` to `kfree`: `a` is the value
of the 32-bit pointer `p` at some pass `i` of the loop, and the loop test
`p + PGSIZE <= vend` held at the passes `0, ..., i`. -/
def freerangeFrees (L : Layout) (vstart vend a : Nat) : Prop :=
  ∃ i, a = (L.PGROUNDUP (vstart % WORD) % WORD + i * PGSIZE) % WORD ∧
    ∀ j, j ≤ i →
      (L.PGROUNDUP (vstart % WORD) % WORD + (j + 1) * PGSIZE) % WORD ≤ vend % WORD

/-- The states reached from an initial state (empty free list, empty ring, both
counters 0) by a finite sequence of completed operations: `kfree` of a valid
frame not on the free list, `freerange` that frees no page already on the
free list, `kalloc`, `kalloc_to_lru_list` of a frame not in the ring,
`kfree_from_lru_list` of a frame in the ring, and `select_victim`. -/
inductive Reach (L : Layout) (swap_out : State → Int × State) : State → Prop
  | init (s : State) : s.freelist = 0 → s.num_free_pages = 0 → s.page_lru_head = none →
      s.num_lru_pages = 0 → Reach L swap_out s
  | kfree (s : State) (v : Nat) : Reach L swap_out s → v < WORD →
      (4096 ∣ v ∧ L.kend ≤ v ∧ L.V2P v < L.PHYSTOP) →
      (∀ fl, FreeList s.mem s.freelist fl → v ∉ fl) →
      Reach L swap_out (kfree L s v).s
  | freerange (s : State) (vstart vend : Nat) : Reach L swap_out s →
      (freerange L s vstart vend).out = Outcome.ok () →
      (∀ fl, FreeList s.mem s.freelist fl → ∀ a ∈ fl, ¬ freerangeFrees L vstart vend a) →
      Reach L swap_out (freerange L s vstart vend).s
  | kalloc (s : State) (fuel : Nat) : Reach L swap_out s →
      (∃ r, (kalloc swap_out fuel s).out = Outcome.ok r) →
      Reach L swap_out (kalloc swap_out fuel s).s
  | register (s : State) (pgdir pa va : Nat) : Reach L swap_out s →
      pageIndex L pa < NPAGES L → ¬ InRing s (pageIndex L pa) →
      Reach L swap_out (kalloc_to_lru_list L s pgdir pa va).s
  | deregister (s : State) (v : Nat) : Reach L swap_out s →
      pageIndex L v < NPAGES L → InRing s (pageIndex L v) →
      Reach L swap_out (kfree_from_lru_list L s v).s
  | select_victim (s : State) (fuel : Nat) : Reach L swap_out s →
      (∃ v, (select_victim L fuel s).out = Outcome.ok v) →
      Reach L swap_out (select_victim L fuel s).s

/-- Modelled from the spec: what the eviction operation does with the victim
`pages[v]` once its page is written to the backing store (which does not touch
the allocator).  The victim's frame, `P2V(v * PGSIZE)`, is deregistered with
`kfree_from_lru_list` and then returned to the free list with `kfree`, and 1
is reported.  A call that does not complete is reported as 0. -/
def evictFrame (L : Layout) (s : State) (v : Nat) : Int × State :=
  match kfree_from_lru_list L s (L.P2V (v * PGSIZE)) with
  | ⟨Outcome.ok _, s1, _⟩ =>
    match kfree L s1 (L.P2V (v * PGSIZE)) with
    | ⟨Outcome.ok _, s2, _⟩ => (1, s2)
    | ⟨_, s2, _⟩ => (0, s2)
  | ⟨_, s1, _⟩ => (0, s1)

/-- Modelled from the spec: the external eviction operation `swap_out`, whose
code is not among the sources.  It asks `select_victim` for a victim, reports 0
when there is none, and otherwise evicts the victim, which returns its frame to
the free list. -/
def evict (L : Layout) (fuel : Nat) (s : State) : Int × State :=
  match select_victim L fuel s with
  | ⟨Outcome.ok (some v), s1, _⟩ => evictFrame L s1 v
  | ⟨_, s1, _⟩ => (0, s1)

/-- What the eviction needs of the address macros: the frame of a descriptor
of `pages[]` is a 32-bit address that maps back to the descriptor. -/
def Layout.FramesOK (L : Layout) : Prop :=
  ∀ v, v < NPAGES L → pageIndex L (L.P2V (v * PGSIZE)) = v ∧ L.P2V (v * PGSIZE) < WORD

/-- The empty allocator after `freerange` has run twice over the one page at
`0x80400000`. -/
def doubleFreeState : State :=
  (freerange xv6Layout (freerange xv6Layout emptyState 0x80400000 0x80401000).s
    0x80400000 0x80401000).s

/-- A history, step 1: seed the free list of the demo allocator with the one
page at `0x80401000`, then allocate it. -/
def history1 : State :=
  (kalloc (evict xv6Layout 4) 1
    (freerange xv6Layout demoState0 0x80401000 0x80402000).s).s

/-- A history, step 2: register the frame `0x80401000` at `0x2000` (access bit
clear), then the frame `0x80400000` at `0x1000` (access bit set). -/
def history2 : State :=
  (kalloc_to_lru_list xv6Layout
    (kalloc_to_lru_list xv6Layout history1 0x80500000 0x80401000 0x2000).s
    0x80500000 0x80400000 0x1000).s

/-- A history, step 3: allocate with the free list empty, so that `kalloc`
calls the eviction and retries; then search a victim and free the frame
`0x80402000`. -/
def historyState : State :=
  (kfree xv6Layout
    (select_victim xv6Layout 4 (kalloc (evict xv6Layout 4) 2 history2).s).s
    0x80402000).s

end Kalloc

namespace Kalloc

/-! ## Memory lemmas -/

theorem read32_lt (m : Mem) (a : Nat) : read32 m a < WORD := by
  unfold read32 WORD; omega

theorem read32_write32_same (m : Mem) (a v : Nat) :
    read32 (write32 m a v) a = v % WORD := by
  unfold read32 write32 WORD
  simp
  omega

theorem write32_outside (m : Mem) (a v x : Nat) (h : x < a ∨ a + 4 ≤ x) :
    write32 m a v x = m x := by
  unfold write32
  have h0 : x ≠ a := by omega
  have h1 : x ≠ a + 1 := by omega
  have h2 : x ≠ a + 2 := by omega
  have h3 : x ≠ a + 3 := by omega
  simp [h0, h1, h2, h3]

theorem read32_congr (m m' : Mem) (b : Nat)
    (h : ∀ x, b ≤ x → x < b + 4 → m' x = m x) : read32 m' b = read32 m b := by
  unfold read32
  rw [h b (by omega) (by omega), h (b + 1) (by omega) (by omega),
    h (b + 2) (by omega) (by omega), h (b + 3) (by omega) (by omega)]

theorem read32_write32_disjoint (m : Mem) (a v b : Nat) (h : b + 4 ≤ a ∨ a + 4 ≤ b) :
    read32 (write32 m a v) b = read32 m b := by
  apply read32_congr
  intro x h1 h2
  exact write32_outside m a v x (by omega)

theorem memset_outside (m : Mem) (v c n x : Nat) (h : x < v ∨ v + n ≤ x) :
    memset m v c n x = m x := by
  unfold memset
  have : ¬ (v ≤ x ∧ x < v + n) := by omega
  simp [this]

theorem memset_inside (m : Mem) (v c n x : Nat) (h1 : v ≤ x) (h2 : x < v + n) :
    memset m v c n x = c % 256 := by
  unfold memset
  simp [h1, h2]

/-! ## The free list -/

theorem FreeList_congr (m m' : Mem) :
    ∀ (l : List Nat) (h : Nat), (∀ a ∈ l, read32 m' a = read32 m a) →
      FreeList m h l → FreeList m' h l
  | [], h, _, hl => by simpa [FreeList] using hl
  | a :: rest, h, hm, hl => by
    unfold FreeList at hl ⊢
    obtain ⟨h1, h2, h3⟩ := hl
    refine ⟨h1, h2, ?_⟩
    rw [hm a (by simp)]
    exact FreeList_congr m m' rest _ (fun b hb => hm b (by simp [hb])) h3

theorem kfree_ok (L : Layout) (s : State) (v : Nat) (h : ¬ kfreeBad L v) :
    kfree L s v = ⟨Outcome.ok (),
      { s with mem := write32 (memset s.mem v 1 PGSIZE) v s.freelist,
               num_free_pages := s.num_free_pages + 1, freelist := v },
      kmemAcquire s ++ kmemRelease s⟩ := by
  unfold kfree
  simp [h]

theorem kfree_panic (L : Layout) (s : State) (v : Nat) (h : kfreeBad L v) :
    kfree L s v = ⟨Outcome.panic "kfree", s, []⟩ := by
  unfold kfree
  simp [h]

theorem kfreeBad_iff (L : Layout) (v : Nat) :
    kfreeBad L v ↔ (¬ 4096 ∣ v ∨ v < L.kend ∨ L.PHYSTOP ≤ L.V2P v) := by
  unfold kfreeBad WORD PGSIZE
  constructor
  · rintro (h | h | h)
    · left; omega
    · right; left; exact h
    · right; right; exact h
  · rintro (h | h | h)
    · left; omega
    · right; left; exact h
    · right; right; exact h

theorem kalloc_loop_pop (swap_out : State → Int × State) (fuel : Nat) (s : State)
    (tr : List Event) (h : s.freelist ≠ 0) :
    kalloc_loop swap_out (fuel + 1) s tr = ⟨Outcome.ok s.freelist,
      { s with freelist := read32 s.mem s.freelist, num_free_pages := s.num_free_pages - 1 },
      tr ++ kmemAcquire s ++ kmemRelease s⟩ := by
  simp [kalloc_loop, h]

theorem kalloc_loop_oom (swap_out : State → Int × State) (fuel : Nat) (s : State)
    (tr : List Event) (h : s.freelist = 0) (h0 : (swap_out s).1 = 0) :
    kalloc_loop swap_out (fuel + 1) s tr = ⟨Outcome.ok 0, (swap_out s).2,
      tr ++ kmemAcquire s ++ kmemRelease s ++ [Event.swap_out] ++
        [Event.cprintf "kalloc: out of memory\n"]⟩ := by
  simp [kalloc_loop, h, h0]

theorem kalloc_loop_retry (swap_out : State → Int × State) (fuel : Nat) (s : State)
    (tr : List Event) (h : s.freelist = 0) (h0 : (swap_out s).1 ≠ 0) :
    kalloc_loop swap_out (fuel + 1) s tr =
      kalloc_loop swap_out fuel (swap_out s).2
        (tr ++ kmemAcquire s ++ kmemRelease s ++ [Event.swap_out]) := by
  simp [kalloc_loop, h, h0]

theorem kmem_trace_no_swap (s : State) :
    Event.swap_out ∉ kmemAcquire s ++ kmemRelease s := by
  unfold kmemAcquire kmemRelease
  split <;> simp

theorem kalloc_loop_null (swap_out : State → Int × State) :
    ∀ (fuel : Nat) (s : State) (tr : List Event),
      (kalloc_loop swap_out fuel s tr).out = Outcome.ok 0 →
      ∃ k : Nat,
        ((fun x => (swap_out x).2)^[k] s).freelist = 0 ∧
        (swap_out ((fun x => (swap_out x).2)^[k] s)).1 = 0 ∧
        (kalloc_loop swap_out fuel s tr).s = (swap_out ((fun x => (swap_out x).2)^[k] s)).2 ∧
        ∀ j < k, ((fun x => (swap_out x).2)^[j] s).freelist = 0 ∧
          (swap_out ((fun x => (swap_out x).2)^[j] s)).1 ≠ 0
  | 0, s, tr, h => by simp [kalloc_loop] at h
  | fuel + 1, s, tr, h => by
    by_cases hf : s.freelist = 0
    · by_cases h0 : (swap_out s).1 = 0
      · refine ⟨0, by simpa using hf, by simpa using h0, ?_, by simp⟩
        rw [kalloc_loop_oom swap_out fuel s tr hf h0]
        simp
      · rw [kalloc_loop_retry swap_out fuel s tr hf h0] at h ⊢
        obtain ⟨k, h1, h2, h3, h4⟩ := kalloc_loop_null swap_out fuel _ _ h
        refine ⟨k + 1, by simpa using h1, by simpa using h2, by simpa using h3, ?_⟩
        intro j hj
        cases j with
        | zero => exact ⟨by simpa using hf, by simpa using h0⟩
        | succ j => simpa using h4 j (by omega)
    · rw [kalloc_loop_pop swap_out fuel s tr hf] at h
      simp at h
      exact absurd h hf

/-! ## Claims about the free list -/

/-- C1: `kfree(v)` panics exactly when `v` is not a multiple of 4096, or lies
below `end`, or `V2P(v)` is at or above `PHYSTOP`; a panicking call leaves
the whole state (free list and counter included) as it was, and a call that
fails none of the three tests returns normally. -/
theorem kfree_panic_iff (L : Layout) (s : State) (v : Nat) :
    ((∃ msg, (kfree L s v).out = Outcome.panic msg) ↔
        (¬ 4096 ∣ v ∨ v < L.kend ∨ L.PHYSTOP ≤ L.V2P v)) ∧
    ((∃ msg, (kfree L s v).out = Outcome.panic msg) →
        (kfree L s v).s = s ∧ (kfree L s v).s.freelist = s.freelist ∧
        (kfree L s v).s.num_free_pages = s.num_free_pages) ∧
    (¬ (¬ 4096 ∣ v ∨ v < L.kend ∨ L.PHYSTOP ≤ L.V2P v) →
        (kfree L s v).out = Outcome.ok ()) := by
  rw [← kfreeBad_iff]
  by_cases h : kfreeBad L v
  · rw [kfree_panic L s v h]
    simp [h]
  · rw [kfree_ok L s v h]
    simp [h]

/-- Witness for C1: freeing the misaligned address 5 panics and changes
nothing. -/
theorem kfree_panic_iff_witness :
    (kfree xv6Layout emptyState 5).s = emptyState ∧
    (kfree xv6Layout emptyState 5).s.freelist = emptyState.freelist ∧
    (kfree xv6Layout emptyState 5).s.num_free_pages = emptyState.num_free_pages :=
  (kfree_panic_iff xv6Layout emptyState 5).2.1 ⟨"kfree", by decide⟩

/-- C2: when the free list is non-empty, holding the frames `a :: rest`,
`kalloc()` returns the head `a`, the free list becomes `rest` (same frames,
same order), the counter drops by exactly one, nothing else changes, and
`swap_out` is not called. -/
theorem kalloc_pops_head (swap_out : State → Int × State) (fuel : Nat) (s : State)
    (a : Nat) (rest : List Nat) (h : FreeList s.mem s.freelist (a :: rest)) :
    (kalloc swap_out (fuel + 1) s).out = Outcome.ok a ∧
    FreeList (kalloc swap_out (fuel + 1) s).s.mem (kalloc swap_out (fuel + 1) s).s.freelist rest ∧
    (kalloc swap_out (fuel + 1) s).s.num_free_pages = s.num_free_pages - 1 ∧
    (kalloc swap_out (fuel + 1) s).s =
      { s with freelist := read32 s.mem a, num_free_pages := s.num_free_pages - 1 } ∧
    Event.swap_out ∉ (kalloc swap_out (fuel + 1) s).trace := by
  unfold FreeList at h
  obtain ⟨h1, h2, h3⟩ := h
  have hne : s.freelist ≠ 0 := by rw [h1]; exact h2
  unfold kalloc
  rw [kalloc_loop_pop swap_out fuel s [] hne]
  subst h1
  refine ⟨rfl, h3, rfl, rfl, ?_⟩
  simpa using kmem_trace_no_swap s

/-- C3: with an empty free list and an eviction that reports no victim,
`kalloc()` returns null after exactly one `swap_out` call and ends in exactly
the state `swap_out` left; and whenever `kalloc()` returns null, the pass
that returned found the free list empty and `swap_out` reporting 0 (all
earlier passes having found the list empty and `swap_out` reporting
success). -/
theorem kalloc_null_iff_oom (swap_out : State → Int × State) :
    (∀ (fuel : Nat) (s : State), s.freelist = 0 → (swap_out s).1 = 0 →
      (kalloc swap_out (fuel + 1) s).out = Outcome.ok 0 ∧
      (kalloc swap_out (fuel + 1) s).s = (swap_out s).2 ∧
      (kalloc swap_out (fuel + 1) s).trace.count Event.swap_out = 1 ∧
      (kalloc swap_out (fuel + 1) s).trace =
        kmemAcquire s ++ kmemRelease s ++
          [Event.swap_out, Event.cprintf "kalloc: out of memory\n"]) ∧
    (∀ (fuel : Nat) (s : State), (kalloc swap_out fuel s).out = Outcome.ok 0 →
      ∃ k : Nat,
        ((fun x => (swap_out x).2)^[k] s).freelist = 0 ∧
        (swap_out ((fun x => (swap_out x).2)^[k] s)).1 = 0 ∧
        (kalloc swap_out fuel s).s = (swap_out ((fun x => (swap_out x).2)^[k] s)).2 ∧
        ∀ j < k, ((fun x => (swap_out x).2)^[j] s).freelist = 0 ∧
          (swap_out ((fun x => (swap_out x).2)^[j] s)).1 ≠ 0) := by
  constructor
  · intro fuel s hf h0
    unfold kalloc
    rw [kalloc_loop_oom swap_out fuel s [] hf h0]
    refine ⟨rfl, rfl, ?_, by simp⟩
    have := kmem_trace_no_swap s
    simp only [List.nil_append, List.append_assoc, List.count_append]
    rw [List.count_eq_zero_of_not_mem (fun hh => this (by simp [hh])),
      List.count_eq_zero_of_not_mem (fun hh => this (by simp [hh]))]
    decide
  · intro fuel s h
    exact kalloc_loop_null swap_out fuel s [] h

/-- Witness for C3: on the empty allocator with an eviction that never finds a
victim, `kalloc()` returns null after one `swap_out` call. -/
theorem kalloc_null_iff_oom_witness :
    (kalloc noVictim 1 emptyState).out = Outcome.ok 0 ∧
    (kalloc noVictim 1 emptyState).s = (noVictim emptyState).2 ∧
    (kalloc noVictim 1 emptyState).trace.count Event.swap_out = 1 ∧
    (kalloc noVictim 1 emptyState).trace =
      kmemAcquire emptyState ++ kmemRelease emptyState ++
        [Event.swap_out, Event.cprintf "kalloc: out of memory\n"] :=
  (kalloc_null_iff_oom noVictim).1 0 emptyState rfl rfl

/-- Witness for C2: with the single frame `0x80400000` on the free list,
`kalloc()` returns it and leaves the list empty. -/
theorem kalloc_pops_head_witness :
    (kalloc noVictim 1 oneFrameState).out = Outcome.ok 0x80400000 ∧
    FreeList (kalloc noVictim 1 oneFrameState).s.mem (kalloc noVictim 1 oneFrameState).s.freelist [] ∧
    (kalloc noVictim 1 oneFrameState).s.num_free_pages = oneFrameState.num_free_pages - 1 ∧
    (kalloc noVictim 1 oneFrameState).s =
      { oneFrameState with freelist := read32 oneFrameState.mem 0x80400000,
                           num_free_pages := oneFrameState.num_free_pages - 1 } ∧
    Event.swap_out ∉ (kalloc noVictim 1 oneFrameState).trace :=
  kalloc_pops_head noVictim 0 oneFrameState 0x80400000 [] (by decide)

/-- C4, refuted as stated: on the empty allocator, `kfree(0x80400000)` followed
by `kalloc()` returns the frame `0x80400000`, whose first byte is 0 (the low
byte of the stored `next` pointer), not the junk value 1. -/
theorem kfree_kalloc_not_all_junk :
    (4096 ∣ 0x80400000 ∧ xv6Layout.kend ≤ 0x80400000 ∧
      xv6Layout.V2P 0x80400000 < xv6Layout.PHYSTOP) ∧
    (kfree xv6Layout emptyState 0x80400000).out = Outcome.ok () ∧
    (kalloc noVictim 1 (kfree xv6Layout emptyState 0x80400000).s).out
      = Outcome.ok 0x80400000 ∧
    (kalloc noVictim 1 (kfree xv6Layout emptyState 0x80400000).s).s.mem 0x80400000 = 0 ∧
    ¬ (∀ i < 4096,
        (kalloc noVictim 1 (kfree xv6Layout emptyState 0x80400000).s).s.mem (0x80400000 + i)
          = 1) := by
  refine ⟨by decide, by decide, by decide, by decide, ?_⟩
  intro h
  exact absurd (h 0 (by decide)) (by decide)

/-- C4, amended: for a valid frame `f`, `kfree(f)` followed at once by
`kalloc()` returns `f`; the bytes of the page at offsets 4 to 4095 all hold the
junk value 1, and the first four bytes hold the free-list link written by
`kfree`, that is the head of the free list before the call. -/
theorem kfree_kalloc_junk (L : Layout) (swap_out : State → Int × State) (fuel : Nat)
    (s : State) (f : Nat) (hend : 0 < L.kend)
    (h1 : 4096 ∣ f) (h2 : L.kend ≤ f) (h3 : L.V2P f < L.PHYSTOP) :
    (kfree L s f).out = Outcome.ok () ∧
    (kalloc swap_out (fuel + 1) (kfree L s f).s).out = Outcome.ok f ∧
    (∀ i, 4 ≤ i → i < 4096 → (kalloc swap_out (fuel + 1) (kfree L s f).s).s.mem (f + i) = 1) ∧
    read32 (kalloc swap_out (fuel + 1) (kfree L s f).s).s.mem f = s.freelist % WORD := by
  have hb : ¬ kfreeBad L f := by
    rw [kfreeBad_iff]; omega
  have hf0 : f ≠ 0 := by omega
  rw [kfree_ok L s f hb]
  unfold kalloc
  rw [kalloc_loop_pop swap_out fuel _ [] hf0]
  refine ⟨rfl, rfl, ?_, ?_⟩
  · intro i hi1 hi2
    show write32 (memset s.mem f 1 PGSIZE) f s.freelist (f + i) = 1
    rw [write32_outside _ _ _ _ (by omega),
      memset_inside _ _ _ _ _ (by omega) (by unfold PGSIZE; omega)]
  · show read32 (write32 (memset s.mem f 1 PGSIZE) f s.freelist) f = s.freelist % WORD
    exact read32_write32_same _ _ _

/-- Witness for the amended C4 at the frame `0x80400000` of the empty
allocator. -/
theorem kfree_kalloc_junk_witness :
    (kfree xv6Layout emptyState 0x80400000).out = Outcome.ok () ∧
    (kalloc noVictim 1 (kfree xv6Layout emptyState 0x80400000).s).out
      = Outcome.ok 0x80400000 ∧
    (∀ i, 4 ≤ i → i < 4096 →
      (kalloc noVictim 1 (kfree xv6Layout emptyState 0x80400000).s).s.mem (0x80400000 + i) = 1) ∧
    read32 (kalloc noVictim 1 (kfree xv6Layout emptyState 0x80400000).s).s.mem 0x80400000
      = emptyState.freelist % WORD :=
  kfree_kalloc_junk xv6Layout noVictim 0 emptyState 0x80400000
    (by decide) (by decide) (by decide) (by decide)

/-! ## Seeding the free list -/

theorem framesDesc_succ_shift (p : Nat) :
    ∀ k, framesDesc p (k + 1) = framesDesc (p + PGSIZE) k ++ [p]
  | 0 => by simp [framesDesc]
  | k + 1 => by
    have ih := framesDesc_succ_shift p k
    have e : p + (k + 1) * PGSIZE = p + PGSIZE + k * PGSIZE := by ring
    calc framesDesc p (k + 1 + 1)
        = (p + (k + 1) * PGSIZE) :: framesDesc p (k + 1) := rfl
      _ = (p + PGSIZE + k * PGSIZE) :: (framesDesc (p + PGSIZE) k ++ [p]) := by rw [ih, e]
      _ = framesDesc (p + PGSIZE) (k + 1) ++ [p] := rfl

theorem mem_framesDesc (p : Nat) : ∀ (n a : Nat),
    a ∈ framesDesc p n ↔ ∃ i, i < n ∧ a = p + i * PGSIZE
  | 0, a => by simp [framesDesc]
  | n + 1, a => by
    simp only [framesDesc, List.mem_cons, mem_framesDesc p n a]
    constructor
    · rintro (h | ⟨i, hi, h⟩)
      · exact ⟨n, by omega, h⟩
      · exact ⟨i, by omega, h⟩
    · rintro ⟨i, hi, h⟩
      by_cases e : i = n
      · left; rw [h, e]
      · right; exact ⟨i, by omega, h⟩

theorem framesDesc_length (p : Nat) : ∀ n, (framesDesc p n).length = n
  | 0 => rfl
  | n + 1 => by simp [framesDesc, framesDesc_length p n]

theorem framesDesc_nodup (p : Nat) : ∀ n, (framesDesc p n).Nodup
  | 0 => by simp [framesDesc]
  | n + 1 => by
    simp only [framesDesc, List.nodup_cons]
    refine ⟨?_, framesDesc_nodup p n⟩
    rw [mem_framesDesc]
    rintro ⟨i, hi, h⟩
    unfold PGSIZE at h
    omega

theorem freerange_loop_spec (L : Layout) (vend : Nat) (hend : 0 < L.kend) :
    ∀ (k fuel : Nat) (s : State) (p : Nat) (tr : List Event) (l : List Nat),
      k < fuel → (∀ i, i < k → ¬ kfreeBad L (p + i * PGSIZE)) →
      p + k * PGSIZE ≤ vend → vend < p + (k + 1) * PGSIZE → p + (k + 1) * PGSIZE < WORD →
      s.freelist < WORD → FreeList s.mem s.freelist l → (∀ a ∈ l, a + 4 ≤ p) →
      (freerange_loop L fuel s p vend tr).out = Outcome.ok () ∧
      FreeList (freerange_loop L fuel s p vend tr).s.mem
        (freerange_loop L fuel s p vend tr).s.freelist (framesDesc p k ++ l) ∧
      (freerange_loop L fuel s p vend tr).s.num_free_pages = s.num_free_pages + k
  | 0, fuel, s, p, tr, l, hfuel, _, _, hhi, hw, _, hl, _ => by
    obtain ⟨f, rfl⟩ : ∃ f, fuel = f + 1 := ⟨fuel - 1, by omega⟩
    have hm : (p + PGSIZE) % WORD = p + PGSIZE := Nat.mod_eq_of_lt (by omega)
    have hc : ¬ (p + PGSIZE ≤ vend) := by omega
    simp [freerange_loop, hm, hc, framesDesc, hl]
  | k + 1, fuel, s, p, tr, l, hfuel, hval, hlo, hhi, hw, hfl, hl, hlt => by
    obtain ⟨f, rfl⟩ : ∃ f, fuel = f + 1 := ⟨fuel - 1, by omega⟩
    have e1 : p + PGSIZE + k * PGSIZE = p + (k + 1) * PGSIZE := by ring
    have e2 : p + PGSIZE + (k + 1) * PGSIZE = p + (k + 1 + 1) * PGSIZE := by ring
    have hc : p + PGSIZE ≤ vend := by omega
    have hm : (p + PGSIZE) % WORD = p + PGSIZE := Nat.mod_eq_of_lt (by omega)
    have hb : ¬ kfreeBad L p := by simpa using hval 0 (by omega)
    have hp0 : p ≠ 0 := by
      have := (kfreeBad_iff L p).not.mp hb
      omega
    have hstep : freerange_loop L (f + 1) s p vend tr =
        freerange_loop L f
          { s with mem := write32 (memset s.mem p 1 PGSIZE) p s.freelist,
                   num_free_pages := s.num_free_pages + 1, freelist := p }
          (p + PGSIZE) vend (tr ++ (kmemAcquire s ++ kmemRelease s)) := by
      simp only [freerange_loop, hm, hc, if_true]
      rw [kfree_ok L s p hb]
    rw [hstep]
    have hl' : FreeList (write32 (memset s.mem p 1 PGSIZE) p s.freelist) p (p :: l) := by
      unfold FreeList
      refine ⟨rfl, hp0, ?_⟩
      rw [read32_write32_same, Nat.mod_eq_of_lt hfl]
      refine FreeList_congr s.mem _ l _ ?_ hl
      intro a ha
      have := hlt a ha
      apply read32_congr
      intro x hx1 hx2
      rw [write32_outside _ _ _ _ (by omega), memset_outside _ _ _ _ _ (by omega)]
    have hval' : ∀ i, i < k → ¬ kfreeBad L (p + PGSIZE + i * PGSIZE) := by
      intro i hi
      have := hval (i + 1) (by omega)
      have e : p + (i + 1) * PGSIZE = p + PGSIZE + i * PGSIZE := by ring
      rwa [e] at this
    have ih := freerange_loop_spec L vend hend k f
      { s with mem := write32 (memset s.mem p 1 PGSIZE) p s.freelist,
               num_free_pages := s.num_free_pages + 1, freelist := p }
      (p + PGSIZE) (tr ++ (kmemAcquire s ++ kmemRelease s)) (p :: l)
      (by omega) hval' (by omega) (by omega) (by omega)
      (by show p < WORD; omega)
      hl' (by
        intro a ha
        rcases List.mem_cons.mp ha with h | h
        · rw [h]; unfold PGSIZE; omega
        · have := hlt a h; omega)
    obtain ⟨ih1, ih2, ih3⟩ := ih
    refine ⟨ih1, ?_, ?_⟩
    · rw [framesDesc_succ_shift, List.append_assoc]
      exact ih2
    · rw [ih3]
      show s.num_free_pages + 1 + (k : Int) = s.num_free_pages + ((k + 1 : Nat) : Int)
      push_cast
      ring

theorem kallocN_spec (swap_out : State → Int × State) (fuel : Nat) (l2 : List Nat) :
    ∀ (l1 : List Nat) (s : State), FreeList s.mem s.freelist (l1 ++ l2) →
      ∃ s2, kallocN swap_out (fuel + 1) l1.length s = some (l1, s2) ∧
        FreeList s2.mem s2.freelist l2 ∧ s2.mem = s.mem ∧
        s2.num_free_pages = s.num_free_pages - l1.length
  | [], s, h => ⟨s, by simp [kallocN], by simpa using h, rfl, by simp⟩
  | a :: l1, s, h => by
    simp only [List.cons_append, FreeList] at h
    obtain ⟨h1, h2, h3⟩ := h
    subst h1
    have hne : s.freelist ≠ 0 := h2
    obtain ⟨s2, k1, k2, k3, k4⟩ := kallocN_spec swap_out fuel l2 l1
      { s with freelist := read32 s.mem s.freelist, num_free_pages := s.num_free_pages - 1 }
      h3
    refine ⟨s2, ?_, k2, k3, ?_⟩
    · simp only [List.length_cons, kallocN, kalloc]
      rw [kalloc_loop_pop swap_out fuel s [] hne]
      simp only [k1]
    · rw [k4]
      show s.num_free_pages - 1 - (l1.length : Int) = s.num_free_pages - ((l1.length + 1 : Nat) : Int)
      push_cast
      ring

/-- C5: starting from an empty allocator, seeding with `freerange` over a valid
range that holds exactly `n` whole pages leaves the counter at `n`; the next
`n` calls of `kalloc()` all succeed and return the `n` seeded frames, last
freed first, pairwise distinct and non-null; and the call after those returns
null when `swap_out` reports no victim.  The range is valid when each of its
`n` pages passes the test of `kfree` (page-aligned, at or above `end`, below
`PHYSTOP`) and the page that follows them still ends inside the 32-bit address
space, so that the pointer sum `p + PGSIZE` of the loop test does not wrap. -/
theorem freerange_then_kalloc (L : Layout) (swap_out : State → Int × State) (fuel : Nat)
    (s : State) (vstart vend n : Nat)
    (hend : 0 < L.kend)
    (hfl : s.freelist = 0) (hcnt : s.num_free_pages = 0)
    (hvalid : ∀ i, i < n →
      4096 ∣ L.PGROUNDUP (vstart % WORD) + i * PGSIZE ∧
      L.kend ≤ L.PGROUNDUP (vstart % WORD) + i * PGSIZE ∧
      L.V2P (L.PGROUNDUP (vstart % WORD) + i * PGSIZE) < L.PHYSTOP)
    (hlo : L.PGROUNDUP (vstart % WORD) + n * PGSIZE ≤ vend)
    (hhi : vend < L.PGROUNDUP (vstart % WORD) + (n + 1) * PGSIZE)
    (hwrap : L.PGROUNDUP (vstart % WORD) + (n + 1) * PGSIZE < WORD) :
    (freerange L s vstart vend).out = Outcome.ok () ∧
    (freerange L s vstart vend).s.num_free_pages = n ∧
    (framesDesc (L.PGROUNDUP (vstart % WORD)) n).length = n ∧
    (framesDesc (L.PGROUNDUP (vstart % WORD)) n).Nodup ∧
    (∀ a ∈ framesDesc (L.PGROUNDUP (vstart % WORD)) n, a ≠ 0) ∧
    ∃ s2, kallocN swap_out (fuel + 1) n (freerange L s vstart vend).s
        = some (framesDesc (L.PGROUNDUP (vstart % WORD)) n, s2) ∧
      ((swap_out s2).1 = 0 → (kalloc swap_out (fuel + 1) s2).out = Outcome.ok 0) := by
  have hvalid : ∀ i, i < n → ¬ kfreeBad L (L.PGROUNDUP (vstart % WORD) + i * PGSIZE) := by
    intro i hi
    rw [kfreeBad_iff]
    have := hvalid i hi
    omega
  have hP : L.PGROUNDUP (vstart % WORD) % WORD = L.PGROUNDUP (vstart % WORD) :=
    Nat.mod_eq_of_lt (by omega)
  have hV : vend % WORD = vend := Nat.mod_eq_of_lt (by omega)
  have hfr : freerange L s vstart vend =
      freerange_loop L (WORD / PGSIZE + 1) s (L.PGROUNDUP (vstart % WORD)) vend [] := by
    unfold freerange
    rw [hP, hV]
  have hspec := freerange_loop_spec L vend hend n (WORD / PGSIZE + 1) s
    (L.PGROUNDUP (vstart % WORD)) [] []
    (by unfold WORD PGSIZE at *; omega)
    hvalid hlo hhi hwrap (by rw [hfl]; decide) (by rw [hfl]; simp [FreeList]) (by simp)
  rw [← hfr] at hspec
  obtain ⟨f1, f2, f3⟩ := hspec
  have f2' : FreeList (freerange L s vstart vend).s.mem (freerange L s vstart vend).s.freelist
      (framesDesc (L.PGROUNDUP (vstart % WORD)) n ++ []) := f2
  obtain ⟨s2, k1, k2, _, _⟩ := kallocN_spec swap_out fuel []
    (framesDesc (L.PGROUNDUP (vstart % WORD)) n) (freerange L s vstart vend).s f2'
  rw [framesDesc_length] at k1
  refine ⟨f1, ?_, framesDesc_length _ _, framesDesc_nodup _ _, ?_, s2, k1, ?_⟩
  · rw [f3, hcnt]; simp
  · intro a ha
    rw [mem_framesDesc] at ha
    obtain ⟨i, hi, rfl⟩ := ha
    have := (kfreeBad_iff L _).not.mp (hvalid i hi)
    omega
  · intro h0
    unfold kalloc
    rw [kalloc_loop_oom swap_out fuel s2 [] (by simpa [FreeList] using k2) h0]

/-- At the top of the address space the pointer sum of the loop test wraps:
over the range from `0xFFFFF000` to `0xFFFFFFFF`, which holds no whole page,
`freerange` calls `kfree(0xFFFFF000)`, which panics under the xv6 layout. -/
theorem freerange_top_page_panics :
    (freerange xv6Layout emptyState 0xFFFFF000 0xFFFFFFFF).out = Outcome.panic "kfree" := by
  decide

/-- Witness for C5, the instance `n = 10`: ten frames seeded from
`0x80400000`, ten successful allocations, then out of memory. -/
theorem freerange_then_kalloc_witness :
    (freerange xv6Layout emptyState 0x80400000 0x8040A000).out = Outcome.ok () ∧
    (freerange xv6Layout emptyState 0x80400000 0x8040A000).s.num_free_pages = (10 : Nat) ∧
    (framesDesc (xv6Layout.PGROUNDUP (0x80400000 % WORD)) 10).length = 10 ∧
    (framesDesc (xv6Layout.PGROUNDUP (0x80400000 % WORD)) 10).Nodup ∧
    (∀ a ∈ framesDesc (xv6Layout.PGROUNDUP (0x80400000 % WORD)) 10, a ≠ 0) ∧
    ∃ s2, kallocN noVictim 1 10 (freerange xv6Layout emptyState 0x80400000 0x8040A000).s
        = some (framesDesc (xv6Layout.PGROUNDUP (0x80400000 % WORD)) 10, s2) ∧
      ((noVictim s2).1 = 0 → (kalloc noVictim 1 s2).out = Outcome.ok 0) :=
  freerange_then_kalloc xv6Layout noVictim 0 emptyState 0x80400000 0x8040A000 10
    (by decide) rfl rfl (by decide) (by decide) (by decide) (by decide)

/-! ## Descriptor updates -/

@[simp] theorem setNext_next (s : State) (p : Nat) (v : Option Nat) (i : Nat) :
    ((setNext s p v).pages i).next = if i = p then v else (s.pages i).next := by
  unfold setNext; by_cases h : i = p <;> simp [h]

@[simp] theorem setNext_prev (s : State) (p : Nat) (v : Option Nat) (i : Nat) :
    ((setNext s p v).pages i).prev = (s.pages i).prev := by
  unfold setNext; by_cases h : i = p <;> simp [h]

@[simp] theorem setNext_pgdir (s : State) (p : Nat) (v : Option Nat) (i : Nat) :
    ((setNext s p v).pages i).pgdir = (s.pages i).pgdir := by
  unfold setNext; by_cases h : i = p <;> simp [h]

@[simp] theorem setNext_vaddr (s : State) (p : Nat) (v : Option Nat) (i : Nat) :
    ((setNext s p v).pages i).vaddr = (s.pages i).vaddr := by
  unfold setNext; by_cases h : i = p <;> simp [h]

@[simp] theorem setPrev_next (s : State) (p : Nat) (v : Option Nat) (i : Nat) :
    ((setPrev s p v).pages i).next = (s.pages i).next := by
  unfold setPrev; by_cases h : i = p <;> simp [h]

@[simp] theorem setPrev_prev (s : State) (p : Nat) (v : Option Nat) (i : Nat) :
    ((setPrev s p v).pages i).prev = if i = p then v else (s.pages i).prev := by
  unfold setPrev; by_cases h : i = p <;> simp [h]

@[simp] theorem setPrev_pgdir (s : State) (p : Nat) (v : Option Nat) (i : Nat) :
    ((setPrev s p v).pages i).pgdir = (s.pages i).pgdir := by
  unfold setPrev; by_cases h : i = p <;> simp [h]

@[simp] theorem setPrev_vaddr (s : State) (p : Nat) (v : Option Nat) (i : Nat) :
    ((setPrev s p v).pages i).vaddr = (s.pages i).vaddr := by
  unfold setPrev; by_cases h : i = p <;> simp [h]

@[simp] theorem setPgdir_next (s : State) (p v i : Nat) :
    ((setPgdir s p v).pages i).next = (s.pages i).next := by
  unfold setPgdir; by_cases h : i = p <;> simp [h]

@[simp] theorem setPgdir_prev (s : State) (p v i : Nat) :
    ((setPgdir s p v).pages i).prev = (s.pages i).prev := by
  unfold setPgdir; by_cases h : i = p <;> simp [h]

@[simp] theorem setPgdir_pgdir (s : State) (p v i : Nat) :
    ((setPgdir s p v).pages i).pgdir = if i = p then v else (s.pages i).pgdir := by
  unfold setPgdir; by_cases h : i = p <;> simp [h]

@[simp] theorem setPgdir_vaddr (s : State) (p v i : Nat) :
    ((setPgdir s p v).pages i).vaddr = (s.pages i).vaddr := by
  unfold setPgdir; by_cases h : i = p <;> simp [h]

@[simp] theorem setVaddr_next (s : State) (p v i : Nat) :
    ((setVaddr s p v).pages i).next = (s.pages i).next := by
  unfold setVaddr; by_cases h : i = p <;> simp [h]

@[simp] theorem setVaddr_prev (s : State) (p v i : Nat) :
    ((setVaddr s p v).pages i).prev = (s.pages i).prev := by
  unfold setVaddr; by_cases h : i = p <;> simp [h]

@[simp] theorem setVaddr_pgdir (s : State) (p v i : Nat) :
    ((setVaddr s p v).pages i).pgdir = (s.pages i).pgdir := by
  unfold setVaddr; by_cases h : i = p <;> simp [h]

@[simp] theorem setVaddr_vaddr (s : State) (p v i : Nat) :
    ((setVaddr s p v).pages i).vaddr = if i = p then v else (s.pages i).vaddr := by
  unfold setVaddr; by_cases h : i = p <;> simp [h]

@[simp] theorem setNext_head (s : State) (p : Nat) (v : Option Nat) :
    (setNext s p v).page_lru_head = s.page_lru_head := rfl

@[simp] theorem setPrev_head (s : State) (p : Nat) (v : Option Nat) :
    (setPrev s p v).page_lru_head = s.page_lru_head := rfl

@[simp] theorem setPgdir_head (s : State) (p v : Nat) :
    (setPgdir s p v).page_lru_head = s.page_lru_head := rfl

@[simp] theorem setVaddr_head (s : State) (p v : Nat) :
    (setVaddr s p v).page_lru_head = s.page_lru_head := rfl

@[simp] theorem setNext_count (s : State) (p : Nat) (v : Option Nat) :
    (setNext s p v).num_lru_pages = s.num_lru_pages := rfl

@[simp] theorem setPrev_count (s : State) (p : Nat) (v : Option Nat) :
    (setPrev s p v).num_lru_pages = s.num_lru_pages := rfl

@[simp] theorem setPgdir_count (s : State) (p v : Nat) :
    (setPgdir s p v).num_lru_pages = s.num_lru_pages := rfl

@[simp] theorem setVaddr_count (s : State) (p v : Nat) :
    (setVaddr s p v).num_lru_pages = s.num_lru_pages := rfl

/-! ## Linked paths and rings -/

theorem Linked_append (pg : Nat → Page) :
    ∀ (l1 : List Nat) (x m : Nat) (l2 : List Nat) (y : Nat),
      Linked pg x (l1 ++ m :: l2) y ↔ Linked pg x l1 m ∧ Linked pg m l2 y
  | [], x, m, l2, y => by simp [Linked, and_assoc]
  | z :: zs, x, m, l2, y => by
    simp [Linked, Linked_append pg zs z m l2 y, and_assoc]

theorem Linked_frame (pg pg' : Nat → Page) :
    ∀ (l : List Nat) (x y : Nat),
      (∀ u ∈ x :: l, (pg' u).next = (pg u).next) →
      (∀ u ∈ l ++ [y], (pg' u).prev = (pg u).prev) →
      Linked pg x l y → Linked pg' x l y
  | [], x, y, hn, hp, h => by
    simp only [Linked] at h ⊢
    rw [hn x (by simp), hp y (by simp)]
    exact h
  | z :: zs, x, y, hn, hp, h => by
    simp only [Linked] at h ⊢
    rw [hn x (by simp), hp z (by simp)]
    refine ⟨h.1, h.2.1, Linked_frame pg pg' zs z y ?_ ?_ h.2.2⟩
    · intro u hu; exact hn u (by simp at hu ⊢; tauto)
    · intro u hu; exact hp u (by simp at hu ⊢; tauto)

theorem LinkRing_rotate (pg : Nat → Page) (l1 l2 : List Nat) :
    LinkRing pg (l1 ++ l2) ↔ LinkRing pg (l2 ++ l1) := by
  cases l1 with
  | nil => simp
  | cons a l1 =>
    cases l2 with
    | nil => simp
    | cons b l2 =>
      simp only [List.cons_append, LinkRing, Linked_append]
      exact And.comm

theorem LinkRing_frame (pg pg' : Nat → Page) (l : List Nat)
    (hn : ∀ u ∈ l, (pg' u).next = (pg u).next) (hp : ∀ u ∈ l, (pg' u).prev = (pg u).prev)
    (h : LinkRing pg l) : LinkRing pg' l := by
  cases l with
  | nil => trivial
  | cons a rest =>
    simp only [LinkRing] at h ⊢
    refine Linked_frame pg pg' rest a a hn ?_ h
    intro u hu
    exact hp u (by simp at hu ⊢; tauto)

theorem Linked_head_next (pg : Nat → Page) (x : Nat) (l : List Nat) (y : Nat)
    (h : Linked pg x l y) : (pg x).next = (l ++ [y]).head? := by
  cases l with
  | nil => simpa using h.1
  | cons z zs => simpa using h.1

theorem Linked_last_prev (pg : Nat → Page) :
    ∀ (l : List Nat) (x y : Nat), Linked pg x l y → (pg y).prev = (x :: l).getLast?
  | [], x, y, h => by simpa using h.2
  | z :: zs, x, y, h => by
    have := Linked_last_prev pg zs z y h.2.2
    rw [this]
    simp [List.getLast?_cons_cons]

/-- In a ring, the `next` of the first node is the second node (or the first
itself in a singleton). -/
theorem Ring.next_head (s : State) (a : Nat) (rest : List Nat) (h : Ring s (a :: rest)) :
    (s.pages a).next = (rest ++ [a]).head? :=
  Linked_head_next s.pages a rest a h.links

theorem Ring.head_eq (s : State) (a : Nat) (rest : List Nat) (h : Ring s (a :: rest)) :
    s.page_lru_head = some a := by simpa using h.head

/-- Moving the head pointer along the ring rotates the traversal; heap memory
is irrelevant to the ring. -/
theorem Ring.rotate (s : State) (l1 l2 : List Nat) (m : Mem) (h : Ring s (l1 ++ l2)) :
    Ring { s with mem := m, page_lru_head := (l2 ++ l1).head? } (l2 ++ l1) := by
  refine ⟨rfl, ?_, ?_, ?_⟩
  · have := h.count
    simp only [List.length_append] at this ⊢
    rw [this]; push_cast; ring
  · exact (List.nodup_append_comm.mp h.nodup)
  · exact (LinkRing_rotate s.pages l1 l2).mp h.links

theorem list_snoc_cases (l : List Nat) (h : l ≠ []) : ∃ mid z, l = mid ++ [z] := by
  rcases List.eq_nil_or_concat l with h0 | ⟨mid, z, h1⟩
  · exact absurd h0 h
  · exact ⟨mid, z, by rw [h1, List.concat_eq_append]⟩

/-- Owner fields do not matter to the ring. -/
theorem Ring.of_links_eq (s s' : State) (l : List Nat) (h : Ring s l)
    (hh : s'.page_lru_head = s.page_lru_head) (hc : s'.num_lru_pages = s.num_lru_pages)
    (hn : ∀ u ∈ l, (s'.pages u).next = (s.pages u).next)
    (hp : ∀ u ∈ l, (s'.pages u).prev = (s.pages u).prev) : Ring s' l :=
  ⟨by rw [hh]; exact h.head, by rw [hc]; exact h.count, h.nodup,
    LinkRing_frame s.pages s'.pages l hn hp h.links⟩

/-! ## Insertion into the ring -/

theorem add_page_spec (s : State) (f : Nat) (l : List Nat) (hr : Ring s l) (hf : f ∉ l) :
    ∃ s', add_page_to_lru_list s f = some s' ∧ Ring s' (f :: l) ∧
      s'.mem = s.mem ∧ s'.freelist = s.freelist ∧ s'.use_lock = s.use_lock ∧
      s'.num_free_pages = s.num_free_pages ∧
      (∀ c, (s'.pages c).pgdir = (s.pages c).pgdir ∧ (s'.pages c).vaddr = (s.pages c).vaddr) ∧
      (∀ c, c ∉ f :: l → s'.pages c = s.pages c) := by
  have hcount := hr.count
  have hhead := hr.head
  have hnd := hr.nodup
  have hlinks := hr.links
  cases l with
  | nil =>
    simp only [List.length_nil, Nat.cast_zero] at hcount
    have hres : add_page_to_lru_list s f = some
        { setNext (setPrev s f (some f)) f (some f) with
          page_lru_head := some f, num_lru_pages := s.num_lru_pages + 1 } := by
      simp [add_page_to_lru_list, hcount]
    refine ⟨_, hres, ⟨rfl, ?_, by simp, ?_⟩, rfl, rfl, rfl, rfl, ?_, ?_⟩
    · simp [hcount]
    · simp [LinkRing, Linked]
    · intro c; simp
    · intro c hc
      have hcf : c ≠ f := by simpa using hc
      simp [setNext, setPrev, hcf]
  | cons a rest =>
    have hfa : f ≠ a := by intro e; exact hf (by simp [e])
    have haf : a ≠ f := fun e => hfa e.symm
    simp only [List.head?_cons] at hhead
    cases rest with
    | nil =>
      simp only [List.length_singleton, Nat.cast_one] at hcount
      simp only [LinkRing, Linked] at hlinks
      have hres : add_page_to_lru_list s f = some
          { setNext (setPrev (setNext (setPrev s f (some a)) a (some f)) a (some f)) f (some a) with
            page_lru_head := some f, num_lru_pages := s.num_lru_pages + 1 } := by
        simp [add_page_to_lru_list, hcount, hhead]
      refine ⟨_, hres, ⟨rfl, ?_, ?_, ?_⟩, rfl, rfl, rfl, rfl, ?_, ?_⟩
      · simp [hcount]
      · simp [hfa]
      · simp [LinkRing, Linked, hfa, haf]
      · intro c; simp
      · intro c hc
        have hcf : c ≠ f := by intro e; exact hc (by simp [e])
        have hca : c ≠ a := by intro e; exact hc (by simp [e])
        simp [setNext, setPrev, hcf, hca]
    | cons b rest =>
      obtain ⟨mid, z, hz⟩ := list_snoc_cases (b :: rest) (by simp)
      rw [hz] at hcount hnd hlinks hf ⊢
      have hc0 : s.num_lru_pages ≠ 0 := by
        rw [hcount]; simp only [List.length_cons]; push_cast; omega
      have hc1 : s.num_lru_pages ≠ 1 := by
        rw [hcount]; simp only [List.length_cons, List.length_append, List.length_singleton]
        push_cast; omega
      simp only [LinkRing] at hlinks
      rw [Linked_append] at hlinks
      obtain ⟨hl1, hl2⟩ := hlinks
      simp only [Linked] at hl2
      have hfz : f ≠ z := by intro e; exact hf (by simp [e])
      have hzf : z ≠ f := fun e => hfz e.symm
      have haz : a ≠ z := by
        intro e
        have := (List.nodup_cons.mp hnd).1
        exact this (by simp [e])
      have hza : z ≠ a := fun e => haz e.symm
      have hfmid : f ∉ mid := by intro e; exact hf (by simp [e])
      have hamid : a ∉ mid := by
        intro e
        exact (List.nodup_cons.mp hnd).1 (by simp [e])
      have hzmid : z ∉ mid := by
        have := (List.nodup_cons.mp hnd).2
        rw [List.nodup_append] at this
        intro e
        exact this.2.2 e (by simp) 
      have hres : add_page_to_lru_list s f = some
          { setNext (setPrev (setPrev (setNext s z (some f)) f (some z)) a (some f)) f (some a) with
            page_lru_head := some f, num_lru_pages := s.num_lru_pages + 1 } := by
        simp [add_page_to_lru_list, hc0, hc1, hhead, hl2.2, haz]
      refine ⟨_, hres, ⟨rfl, ?_, ?_, ?_⟩, rfl, rfl, rfl, rfl, ?_, ?_⟩
      · simp [hcount]
      · exact List.nodup_cons.mpr ⟨hf, hnd⟩
      · simp only [LinkRing, Linked]
        refine ⟨by simp, by simp [hfa], ?_⟩
        rw [Linked_append]
        refine ⟨?_, ?_⟩
        · refine Linked_frame s.pages _ mid a z ?_ ?_ hl1
          · intro u hu
            have huf : u ≠ f := by
              rintro rfl
              rcases List.mem_cons.mp hu with h | h
              · exact hfa h
              · exact hfmid h
            have huz : u ≠ z := by
              rintro rfl
              rcases List.mem_cons.mp hu with h | h
              · exact hza h
              · exact hzmid h
            simp [huf, huz]
          · intro u hu
            have huf : u ≠ f := by
              rintro rfl
              rcases List.mem_append.mp hu with h | h
              · exact hfmid h
              · exact hfz (by simpa using h)
            have hua : u ≠ a := by
              rintro rfl
              rcases List.mem_append.mp hu with h | h
              · exact hamid h
              · exact haz (by simpa using h)
            simp [huf, hua]
        · simp only [Linked]
          simp [hzf, hfa, hfz, haz, hza, haf, hl2.2]
      · intro c; simp
      · intro c hc
        have hcf : c ≠ f := by intro e; exact hc (by simp [e])
        have hca : c ≠ a := by intro e; exact hc (by simp [e])
        have hcz : c ≠ z := by intro e; exact hc (by simp [e])
        simp [setNext, setPrev, hcf, hca, hcz]

theorem Linked_last_next (pg : Nat → Page) :
    ∀ (l : List Nat) (x y t : Nat), Linked pg x l y → (x :: l).getLast? = some t →
      (pg t).next = some y
  | [], x, y, t, h, ht => by
    have : x = t := by simpa using ht
    subst this; exact h.1
  | z :: zs, x, y, t, h, ht => by
    rw [List.getLast?_cons_cons] at ht
    exact Linked_last_next pg zs z y t h.2.2 ht

theorem Linked_head_prev (pg : Nat → Page) (l : List Nat) (x y h : Nat)
    (hl : Linked pg x l y) (hh : (l ++ [y]).head? = some h) : (pg h).prev = some x := by
  cases l with
  | nil =>
    have : y = h := by simpa using hh
    subst this; exact hl.2
  | cons z zs =>
    have : z = h := by simpa using hh
    subst this; exact hl.2.1

theorem kalloc_to_lru_list_ok (L : Layout) (s : State) (pgdir pa va : Nat) (l : List Nat)
    (hr : Ring s l) (hin : pageIndex L pa < NPAGES L) (hnot : pageIndex L pa ∉ l) :
    ∃ s', kalloc_to_lru_list L s pgdir pa va =
        ⟨Outcome.ok (), s', [Event.acquire Lock.lru, Event.release Lock.lru]⟩ ∧
      Ring s' (pageIndex L pa :: l) ∧ s'.mem = s.mem ∧ s'.freelist = s.freelist ∧
      s'.use_lock = s.use_lock ∧ s'.num_free_pages = s.num_free_pages ∧
      (s'.pages (pageIndex L pa)).pgdir = pgdir ∧ (s'.pages (pageIndex L pa)).vaddr = va ∧
      (∀ c, c ≠ pageIndex L pa → (s'.pages c).pgdir = (s.pages c).pgdir ∧
        (s'.pages c).vaddr = (s.pages c).vaddr) ∧
      (∀ c, c ∉ pageIndex L pa :: l → c ≠ pageIndex L pa → s'.pages c = s.pages c) := by
  have hr1 : Ring (setVaddr (setPgdir s (pageIndex L pa) pgdir) (pageIndex L pa) va) l :=
    Ring.of_links_eq s _ l hr rfl rfl (by intro u _; simp) (by intro u _; simp)
  obtain ⟨s', h1, h2, h3, h4, h5, h6, h7, h8⟩ := add_page_spec _ _ l hr1 hnot
  refine ⟨s', ?_, h2, h3, h4, h5, h6, ?_, ?_, ?_, ?_⟩
  · unfold kalloc_to_lru_list
    simp [not_le.mpr hin, h1]
  · rw [(h7 _).1]; simp
  · rw [(h7 _).2]; simp
  · intro c hc
    rw [(h7 c).1, (h7 c).2]
    simp [hc]
  · intro c hc hcf
    rw [h8 c hc]
    simp [setVaddr, setPgdir, hcf]

/-! ## Claims about the ring operations -/

/-- C8: on an empty ring (`page_lru_head` is `NULL`) `select_victim()` returns
`NULL` at once, for any fuel: the state (head, count, every descriptor, all of
memory) is unchanged and no ring node is visited, so no page-table entry is
read.  The same holds of `select_victim` of `kalloc_ys.c`. -/
theorem select_victim_empty (L : Layout) (fuel : Nat) (s : State)
    (h : s.page_lru_head = none) :
    ((select_victim L fuel s).out = Outcome.ok none ∧
      (select_victim L fuel s).s = s ∧
      (select_victim L fuel s).trace = [Event.acquire Lock.lru, Event.release Lock.lru] ∧
      ∀ c, Event.visit c ∉ (select_victim L fuel s).trace) ∧
    ((ys.select_victim L fuel s).out = Outcome.ok none ∧
      (ys.select_victim L fuel s).s = s ∧
      (ys.select_victim L fuel s).trace = [Event.acquire Lock.lru, Event.release Lock.lru] ∧
      ∀ c, Event.visit c ∉ (ys.select_victim L fuel s).trace) := by
  unfold select_victim ys.select_victim
  simp [h]

/-- Witness for C8: the empty allocator has an empty ring. -/
theorem select_victim_empty_witness :
    ((select_victim xv6Layout 0 emptyState).out = Outcome.ok none ∧
      (select_victim xv6Layout 0 emptyState).s = emptyState ∧
      (select_victim xv6Layout 0 emptyState).trace
        = [Event.acquire Lock.lru, Event.release Lock.lru] ∧
      ∀ c, Event.visit c ∉ (select_victim xv6Layout 0 emptyState).trace) ∧
    ((ys.select_victim xv6Layout 0 emptyState).out = Outcome.ok none ∧
      (ys.select_victim xv6Layout 0 emptyState).s = emptyState ∧
      (ys.select_victim xv6Layout 0 emptyState).trace
        = [Event.acquire Lock.lru, Event.release Lock.lru] ∧
      ∀ c, Event.visit c ∉ (ys.select_victim xv6Layout 0 emptyState).trace) :=
  select_victim_empty xv6Layout 0 emptyState rfl

/-- C9: on a well-formed ring with traversal `l`, registering a frame `f` whose
descriptor is not in the ring records `pgdir` and `va` on the descriptor, makes
it the head and raises the count by one; the new traversal is `f` followed by
`l`, with `f` linked between the old tail and the old head (`f->next` is the
old head, `f->prev` the old tail, the old tail's `next` and the old head's
`prev` are `f`), and on an empty ring `f->prev` and `f->next` are `f` itself.
The owner fields of the other descriptors, descriptors outside the ring, and
the free list are untouched. -/
theorem kalloc_to_lru_list_inserts (L : Layout) (s : State) (pgdir pa va : Nat)
    (l : List Nat) (hr : Ring s l) (hin : pageIndex L pa < NPAGES L)
    (hnot : pageIndex L pa ∉ l) :
    (kalloc_to_lru_list L s pgdir pa va).out = Outcome.ok () ∧
    Ring (kalloc_to_lru_list L s pgdir pa va).s (pageIndex L pa :: l) ∧
    ((kalloc_to_lru_list L s pgdir pa va).s.pages (pageIndex L pa)).pgdir = pgdir ∧
    ((kalloc_to_lru_list L s pgdir pa va).s.pages (pageIndex L pa)).vaddr = va ∧
    (kalloc_to_lru_list L s pgdir pa va).s.page_lru_head = some (pageIndex L pa) ∧
    (kalloc_to_lru_list L s pgdir pa va).s.num_lru_pages = s.num_lru_pages + 1 ∧
    ((kalloc_to_lru_list L s pgdir pa va).s.pages (pageIndex L pa)).next
      = (l ++ [pageIndex L pa]).head? ∧
    ((kalloc_to_lru_list L s pgdir pa va).s.pages (pageIndex L pa)).prev
      = (pageIndex L pa :: l).getLast? ∧
    (l = [] →
      ((kalloc_to_lru_list L s pgdir pa va).s.pages (pageIndex L pa)).next
        = some (pageIndex L pa) ∧
      ((kalloc_to_lru_list L s pgdir pa va).s.pages (pageIndex L pa)).prev
        = some (pageIndex L pa)) ∧
    (∀ t, l.getLast? = some t →
      ((kalloc_to_lru_list L s pgdir pa va).s.pages t).next = some (pageIndex L pa)) ∧
    (∀ h, l.head? = some h →
      ((kalloc_to_lru_list L s pgdir pa va).s.pages h).prev = some (pageIndex L pa)) ∧
    (∀ c, c ≠ pageIndex L pa →
      ((kalloc_to_lru_list L s pgdir pa va).s.pages c).pgdir = (s.pages c).pgdir ∧
      ((kalloc_to_lru_list L s pgdir pa va).s.pages c).vaddr = (s.pages c).vaddr) ∧
    (∀ c, c ∉ pageIndex L pa :: l →
      (kalloc_to_lru_list L s pgdir pa va).s.pages c = s.pages c) ∧
    (kalloc_to_lru_list L s pgdir pa va).s.mem = s.mem ∧
    (kalloc_to_lru_list L s pgdir pa va).s.freelist = s.freelist ∧
    (kalloc_to_lru_list L s pgdir pa va).s.num_free_pages = s.num_free_pages := by
  obtain ⟨s', h0, h1, h2, h3, _, h5, h6, h7, h8, h9⟩ :=
    kalloc_to_lru_list_ok L s pgdir pa va l hr hin hnot
  rw [h0]
  have hlk : Linked s'.pages (pageIndex L pa) l (pageIndex L pa) := h1.links
  have hnext := Linked_head_next _ _ _ _ hlk
  have hprev := Linked_last_prev _ _ _ _ hlk
  refine ⟨rfl, h1, h6, h7, by simpa using h1.head, ?_, hnext, hprev, ?_, ?_, ?_, h8, ?_,
    h2, h3, h5⟩
  · have := h1.count
    rw [this, hr.count]; simp
  · rintro rfl
    exact ⟨by simpa using hnext, by simpa using hprev⟩
  · intro t ht
    refine Linked_last_next _ l (pageIndex L pa) _ t hlk ?_
    cases l with
    | nil => simp at ht
    | cons a rest => rw [List.getLast?_cons_cons]; exact ht
  · intro h hh
    refine Linked_head_prev _ l _ _ h hlk ?_
    cases l with
    | nil => simp at hh
    | cons a rest => simpa using hh
  · intro c hc
    exact h9 c hc (by intro e; exact hc (by simp [e]))

/-! ## Removal from the ring -/

/-- Unlinking the first node of a ring of at least two nodes: the remaining
nodes form a ring once the successor's `prev` and the predecessor's `next`
bypass the removed node. -/
theorem unlink_links (pg pg' : Nat → Page) (f : Nat) (m : List Nat) (y z : Nat)
    (hnd : (f :: m).Nodup) (hl : Linked pg f m f)
    (hy : m.head? = some y) (hz : m.getLast? = some z)
    (hn : ∀ u ∈ m, u ≠ z → (pg' u).next = (pg u).next)
    (hp : ∀ u ∈ m, u ≠ y → (pg' u).prev = (pg u).prev)
    (hzn : (pg' z).next = some y) (hyp : (pg' y).prev = some z) : LinkRing pg' m := by
  cases m with
  | nil => simp at hy
  | cons y' m' =>
    have : y' = y := by simpa using hy
    subst this
    simp only [LinkRing]
    rcases List.eq_nil_or_concat m' with h0 | ⟨m3, z', h1⟩
    · subst h0
      have : y' = z := by simpa using hz
      subst this
      exact ⟨hzn, hyp⟩
    · rw [List.concat_eq_append] at h1
      subst h1
      have : z' = z := by
        rw [← List.cons_append, List.getLast?_concat] at hz
        exact Option.some.inj hz
      subst this
      simp only [Linked] at hl
      obtain ⟨_, _, hl3⟩ := hl
      rw [Linked_append] at hl3 ⊢
      have hnd2 : (y' :: (m3 ++ [z'])).Nodup := (List.nodup_cons.mp hnd).2
      have hy_m3 : y' ∉ m3 := by
        intro e; exact (List.nodup_cons.mp hnd2).1 (by simp [e])
      have hyz : y' ≠ z' := by
        intro e; exact (List.nodup_cons.mp hnd2).1 (by simp [e])
      have hz_m3 : z' ∉ m3 := by
        have := (List.nodup_cons.mp hnd2).2
        rw [List.nodup_append] at this
        intro e; exact this.2.2 e (by simp)
      refine ⟨Linked_frame pg pg' m3 y' z' ?_ ?_ hl3.1, ?_⟩
      · intro u hu
        refine hn u (by simp at hu ⊢; tauto) ?_
        rintro rfl
        rcases List.mem_cons.mp hu with h | h
        · exact hyz h.symm
        · exact hz_m3 h
      · intro u hu
        refine hp u (by simp at hu ⊢; tauto) ?_
        rintro rfl
        rcases List.mem_append.mp hu with h | h
        · exact hy_m3 h
        · exact hyz (by simpa using h)
      · exact ⟨hzn, hyp⟩

theorem del_page_spec (s : State) (f : Nat) (l : List Nat) (hr : Ring s l) (hf : f ∈ l) :
    ∃ s', del_page_from_lru s f = some s' ∧ Ring s' (l.erase f) ∧
      (s'.pages f).next = none ∧ (s'.pages f).prev = none ∧
      s'.num_lru_pages = s.num_lru_pages - 1 ∧
      (s.page_lru_head ≠ some f → s'.page_lru_head = s.page_lru_head) ∧
      (s.page_lru_head = some f → l ≠ [f] → s'.page_lru_head = (s.pages f).next) ∧
      (l = [f] → s'.page_lru_head = none ∧ s'.num_lru_pages = 0) ∧
      s'.mem = s.mem ∧ s'.freelist = s.freelist ∧ s'.use_lock = s.use_lock ∧
      s'.num_free_pages = s.num_free_pages ∧
      (∀ c, (s'.pages c).pgdir = (s.pages c).pgdir ∧ (s'.pages c).vaddr = (s.pages c).vaddr) ∧
      (∀ c, c ∉ l → s'.pages c = s.pages c) := by
  obtain ⟨pre, post, rfl⟩ := List.append_of_mem hf
  have hnd := hr.nodup
  have hcount := hr.count
  have hhead := hr.head
  have hfpre : f ∉ pre := by
    intro e
    rw [List.nodup_append] at hnd
    exact hnd.2.2 e (by simp)
  have herase : (pre ++ f :: post).erase f = pre ++ post := by
    rw [List.erase_append_right _ hfpre, List.erase_cons_head]
  rw [herase]
  have hrot : LinkRing s.pages (f :: post ++ pre) :=
    (LinkRing_rotate s.pages pre (f :: post)).mp hr.links
  have hnd' : (f :: (post ++ pre)).Nodup := by
    have := List.nodup_append_comm.mp hnd
    simpa using this
  by_cases hm : post ++ pre = []
  · -- the ring holds `f` alone
    have hpost : post = [] := (List.append_eq_nil.mp hm).1
    have hpre : pre = [] := (List.append_eq_nil.mp hm).2
    subst hpost hpre
    simp only [List.nil_append, LinkRing, Linked] at hrot
    simp only [List.nil_append, List.head?_cons] at hhead
    simp only [List.nil_append, List.length_singleton, Nat.cast_one] at hcount
    have hres : del_page_from_lru s f = some
        { setPrev (setNext { s with page_lru_head := none } f none) f none with
          num_lru_pages := s.num_lru_pages - 1 } := by
      simp [del_page_from_lru, hhead, hrot.1]
    refine ⟨_, hres, ⟨rfl, ?_, by simp, trivial⟩, by simp, by simp, rfl, ?_, ?_, ?_,
      rfl, rfl, rfl, rfl, ?_, ?_⟩
    · simp [hcount]
    · intro h; exact absurd hhead h
    · intro _ h; exact absurd rfl h
    · intro _; exact ⟨rfl, by simp [hcount]⟩
    · intro c; simp
    · intro c hc
      have hcf : c ≠ f := by simpa using hc
      simp [setNext, setPrev, hcf]
  · -- at least two nodes
    obtain ⟨y, hy⟩ : ∃ y, (post ++ pre).head? = some y := by
      cases h : post ++ pre with
      | nil => exact absurd h hm
      | cons y _ => exact ⟨y, rfl⟩
    obtain ⟨z, hz⟩ : ∃ z, (post ++ pre).getLast? = some z := by
      obtain ⟨mid, z, h⟩ := list_snoc_cases _ hm
      exact ⟨z, by rw [h, List.getLast?_concat]⟩
    have hlk : Linked s.pages f (post ++ pre) f := by simpa [LinkRing] using hrot
    have hfn : (s.pages f).next = some y := by
      rw [Linked_head_next _ _ _ _ hlk, List.head?_append, hy]; rfl
    have hfp : (s.pages f).prev = some z := by
      rw [Linked_last_prev _ _ _ _ hlk]
      cases h : post ++ pre with
      | nil => exact absurd h hm
      | cons a b => rw [List.getLast?_cons_cons, ← h, hz]
    have hym : y ∈ post ++ pre := List.mem_of_mem_head? hy
    have hzm : z ∈ post ++ pre := List.mem_of_mem_getLast? hz
    have hyf : y ≠ f := by
      rintro rfl; exact (List.nodup_cons.mp hnd').1 hym
    have hzf : z ≠ f := by
      rintro rfl; exact (List.nodup_cons.mp hnd').1 hzm
    have hc1 : s.num_lru_pages ≠ 1 := by
      rw [hcount]
      have : 1 ≤ (post ++ pre).length := List.length_pos.mpr hm
      simp only [List.length_append, List.length_cons] at this ⊢
      push_cast
      omega
    have hres : del_page_from_lru s f = some
        { setPrev (setNext (setNext (setPrev
            { s with page_lru_head :=
                if some f = s.page_lru_head then some y else s.page_lru_head }
            y (some z)) z (some y)) f none) f none with
          num_lru_pages := s.num_lru_pages - 1 } := by
      by_cases hh : s.page_lru_head = some f
      · simp [del_page_from_lru, hh, hfn, hfp, hc1, hyf.symm, hyf, hzf, hzf.symm]
      · have hh' : ¬ (some f = s.page_lru_head) := fun e => hh e.symm
        simp [del_page_from_lru, hh', hfn, hfp, hc1, hyf.symm, hyf, hzf, hzf.symm]
    have hring : LinkRing
        (setPrev (setNext (setNext (setPrev
            { s with page_lru_head :=
                if some f = s.page_lru_head then some y else s.page_lru_head }
            y (some z)) z (some y)) f none) f none).pages (post ++ pre) := by
      refine unlink_links s.pages _ f (post ++ pre) y z hnd' hlk hy hz ?_ ?_ ?_ ?_
      · intro u hu huz
        have huf : u ≠ f := by rintro rfl; exact (List.nodup_cons.mp hnd').1 hu
        simp [huf, huz]
      · intro u hu huy
        have huf : u ≠ f := by rintro rfl; exact (List.nodup_cons.mp hnd').1 hu
        simp [huf, huy]
      · simp [hzf]
      · simp [hyf]
    refine ⟨_, hres, ⟨?_, ?_, ?_, ?_⟩, by simp, by simp, rfl, ?_, ?_, ?_,
      rfl, rfl, rfl, rfl, ?_, ?_⟩
    · -- head
      cases pre with
      | nil =>
        simp only [List.nil_append, List.head?_cons] at hhead
        simp only [List.append_nil] at hy
        simp [hhead, hy]
      | cons a pre' =>
        simp only [List.cons_append, List.head?_cons] at hhead
        have haf : a ≠ f := by
          rintro rfl; exact hfpre (by simp)
        have hfa : ¬ (f = a) := fun e => haf e.symm
        simp [hhead, hfa]
    · show s.num_lru_pages - 1 = ((pre ++ post).length : Int)
      rw [hcount]
      simp only [List.length_append, List.length_cons]
      push_cast
      ring
    · have := (List.nodup_cons.mp hnd').2
      exact List.nodup_append_comm.mp this
    · exact (LinkRing_rotate _ post pre).mp hring
    · intro h
      have : ¬ (some f = s.page_lru_head) := fun e => h e.symm
      simp [this]
    · intro h _
      simp [h, hfn]
    · intro h
      exfalso
      have h1 : (pre ++ f :: post).length = 1 := by rw [h]; rfl
      have h2 : 1 ≤ (post ++ pre).length := List.length_pos.mpr hm
      simp only [List.length_append, List.length_cons] at h1 h2
      omega
    · intro c; simp
    · intro c hc
      have hcf : c ≠ f := by rintro rfl; exact hc (by simp)
      have hcy : c ≠ y := by
        rintro rfl
        exact hc (by
          rcases List.mem_append.mp hym with h | h
          · simp [h]
          · simp [h])
      have hcz : c ≠ z := by
        rintro rfl
        exact hc (by
          rcases List.mem_append.mp hzm with h | h
          · simp [h]
          · simp [h])
      simp [setNext, setPrev, hcf, hcy, hcz]

theorem kfree_from_lru_list_ok (L : Layout) (s : State) (v : Nat) (l : List Nat)
    (hr : Ring s l) (hin : pageIndex L v < NPAGES L) (hmem : pageIndex L v ∈ l) :
    ∃ s', kfree_from_lru_list L s v =
        ⟨Outcome.ok (), s', [Event.acquire Lock.lru, Event.release Lock.lru]⟩ ∧
      Ring s' (l.erase (pageIndex L v)) ∧
      s'.pages (pageIndex L v) = ⟨none, none, 0, 0⟩ ∧
      s'.num_lru_pages = s.num_lru_pages - 1 ∧
      (s.page_lru_head ≠ some (pageIndex L v) → s'.page_lru_head = s.page_lru_head) ∧
      (s.page_lru_head = some (pageIndex L v) → l ≠ [pageIndex L v] →
        s'.page_lru_head = (s.pages (pageIndex L v)).next) ∧
      (l = [pageIndex L v] → s'.page_lru_head = none ∧ s'.num_lru_pages = 0) ∧
      s'.mem = s.mem ∧ s'.freelist = s.freelist ∧ s'.use_lock = s.use_lock ∧
      s'.num_free_pages = s.num_free_pages ∧
      (∀ c, c ≠ pageIndex L v → (s'.pages c).pgdir = (s.pages c).pgdir ∧
        (s'.pages c).vaddr = (s.pages c).vaddr) ∧
      (∀ c, c ∉ l → s'.pages c = s.pages c) := by
  have hr1 : Ring (setVaddr (setPgdir s (pageIndex L v) 0) (pageIndex L v) 0) l :=
    Ring.of_links_eq s _ l hr rfl rfl (by intro u _; simp) (by intro u _; simp)
  obtain ⟨s', h1, h2, h3, h4, h5, h6, h7, h8, h9, h10, h11, h12, h13, h14⟩ :=
    del_page_spec _ _ l hr1 hmem
  refine ⟨s', ?_, h2, ?_, h5, h6, ?_, h8, h9, h10, h11, h12, ?_, ?_⟩
  · unfold kfree_from_lru_list
    simp [not_le.mpr hin, h1]
  · have e1 := (h13 (pageIndex L v)).1
    have e2 := (h13 (pageIndex L v)).2
    simp only [setVaddr_pgdir, setPgdir_pgdir, setVaddr_vaddr, if_true] at e1 e2
    cases hp : s'.pages (pageIndex L v) with
    | mk n p g a =>
      rw [hp] at h3 h4 e1 e2
      simp only at h3 h4 e1 e2
      rw [h3, h4, e1, e2]
  · intro hh hne
    rw [h7 hh hne]; simp
  · intro c hc
    rw [(h13 c).1, (h13 c).2]
    simp [hc]
  · intro c hc
    have hcf : c ≠ pageIndex L v := by rintro rfl; exact hc hmem
    rw [h14 c hc]
    simp [setVaddr, setPgdir, hcf]

/-- C10: on a well-formed ring with traversal `l`, deregistering a frame `f`
that is in the ring ends normally; it sets `f`'s `pgdir`, `vaddr`, `prev` and
`next` to null, lowers the count by one and leaves a well-formed ring whose
traversal is `l` with `f` deleted, the other nodes in the same order.  The
head is unchanged unless `f` was the head; if `f` was the head of a ring of two
or more nodes the new head is `f`'s former successor; if `f` was the only node
the ring is empty (head null, count 0).  Other descriptors keep their owner
fields and the free list is untouched. -/
theorem kfree_from_lru_list_removes (L : Layout) (s : State) (v : Nat) (l : List Nat)
    (hr : Ring s l) (hin : pageIndex L v < NPAGES L) (hmem : pageIndex L v ∈ l) :
    (kfree_from_lru_list L s v).out = Outcome.ok () ∧
    ((kfree_from_lru_list L s v).s.pages (pageIndex L v)).pgdir = 0 ∧
    ((kfree_from_lru_list L s v).s.pages (pageIndex L v)).vaddr = 0 ∧
    ((kfree_from_lru_list L s v).s.pages (pageIndex L v)).prev = none ∧
    ((kfree_from_lru_list L s v).s.pages (pageIndex L v)).next = none ∧
    (kfree_from_lru_list L s v).s.num_lru_pages = s.num_lru_pages - 1 ∧
    Ring (kfree_from_lru_list L s v).s (l.erase (pageIndex L v)) ∧
    (s.page_lru_head ≠ some (pageIndex L v) →
      (kfree_from_lru_list L s v).s.page_lru_head = s.page_lru_head) ∧
    (s.page_lru_head = some (pageIndex L v) → l ≠ [pageIndex L v] →
      (kfree_from_lru_list L s v).s.page_lru_head = (s.pages (pageIndex L v)).next) ∧
    (l = [pageIndex L v] →
      (kfree_from_lru_list L s v).s.page_lru_head = none ∧
      (kfree_from_lru_list L s v).s.num_lru_pages = 0) ∧
    (∀ c, c ≠ pageIndex L v →
      ((kfree_from_lru_list L s v).s.pages c).pgdir = (s.pages c).pgdir ∧
      ((kfree_from_lru_list L s v).s.pages c).vaddr = (s.pages c).vaddr) ∧
    (∀ c, c ∉ l → (kfree_from_lru_list L s v).s.pages c = s.pages c) ∧
    (kfree_from_lru_list L s v).s.mem = s.mem ∧
    (kfree_from_lru_list L s v).s.freelist = s.freelist ∧
    (kfree_from_lru_list L s v).s.num_free_pages = s.num_free_pages := by
  obtain ⟨s', h0, h1, h2, h3, h4, h5, h6, h7, h8, _, h10, h11, h12⟩ :=
    kfree_from_lru_list_ok L s v l hr hin hmem
  rw [h0]
  refine ⟨rfl, ?_, ?_, ?_, ?_, h3, h1, h4, h5, h6, h11, h12, h7, h8, h10⟩ <;>
    simp only [h2]

/-- Witness for C9: registering the frame `0x80402000` on the two-node demo
ring. -/
theorem kalloc_to_lru_list_inserts_witness :
    (kalloc_to_lru_list xv6Layout demoState2 0x80500000 0x80402000 0x3000).s.page_lru_head
      = some (pageIndex xv6Layout 0x80402000) ∧
    Ring (kalloc_to_lru_list xv6Layout demoState2 0x80500000 0x80402000 0x3000).s
      (pageIndex xv6Layout 0x80402000 :: [1025, 1024]) :=
  have h := kalloc_to_lru_list_inserts xv6Layout demoState2 0x80500000 0x80402000 0x3000
    [1025, 1024] ⟨by decide, by decide, by decide, by decide⟩ (by decide) (by decide)
  ⟨h.2.2.2.2.1, h.2.1⟩

/-- Witness for C10: deregistering the middle frame `0x80401000` of the
three-node demo ring. -/
theorem kfree_from_lru_list_removes_witness :
    (kfree_from_lru_list xv6Layout demoState3 0x80401000).out = Outcome.ok () ∧
    Ring (kfree_from_lru_list xv6Layout demoState3 0x80401000).s
      ([1026, 1025, 1024].erase (pageIndex xv6Layout 0x80401000)) :=
  have h := kfree_from_lru_list_removes xv6Layout demoState3 0x80401000
    [1026, 1025, 1024] ⟨by decide, by decide, by decide, by decide⟩ (by decide) (by decide)
  ⟨h.1, h.2.2.2.2.2.2.1⟩


/-! ## Access bits in memory -/

theorem land_notA_A (L : Layout) (hA : L.PTE_A < WORD) (w : Nat) :
    (w &&& notA L) &&& L.PTE_A = 0 := by
  apply Nat.eq_of_testBit_eq
  intro i
  have h32 : WORD - 1 = 2 ^ 32 - 1 := by decide
  simp only [notA, h32, Nat.testBit_land, Nat.testBit_xor, Nat.testBit_two_pow_sub_one,
    Nat.zero_testBit]
  by_cases hi : i < 32
  · cases h : L.PTE_A.testBit i <;> simp [hi]
  · have : L.PTE_A.testBit i = false := by
      apply Nat.testBit_eq_false_of_lt
      have : 2 ^ 32 ≤ 2 ^ i := Nat.pow_le_pow_right (by decide) (by omega)
      have h' : WORD = 2 ^ 32 := by decide
      omega
    simp [this]

theorem land_notA_lt (L : Layout) (m : Mem) (p : Nat) : read32 m p &&& notA L < WORD :=
  lt_of_le_of_lt Nat.and_le_left (read32_lt m p)

theorem clearA_same (L : Layout) (m : Mem) (p : Nat) :
    read32 (clearA L m p) p = read32 m p &&& notA L := by
  unfold clearA
  rw [read32_write32_same, Nat.mod_eq_of_lt (land_notA_lt L m p)]

theorem clearA_other (L : Layout) (m : Mem) (p q : Nat) (hp : p % 4 = 0) (hq : q % 4 = 0)
    (hne : p ≠ q) : read32 (clearA L m p) q = read32 m q := by
  unfold clearA
  exact read32_write32_disjoint _ _ _ _ (by omega)

theorem clearA_outside (L : Layout) (m : Mem) (p x : Nat) (h : x < p ∨ p + 4 ≤ x) :
    clearA L m p x = m x := by
  unfold clearA
  exact write32_outside _ _ _ _ h

/-- Clearing an access bit does not move any aligned page-table walk. -/
theorem pteAddr_clearA (L : Layout) (hL : L.AccessBitOK) (m : Mem) (p : Nat) (pg : Page)
    (hp : p % 4 = 0) (hd : pdeAddr L pg % 4 = 0) :
    pteAddr L (clearA L m p) pg = pteAddr L m pg := by
  unfold pteAddr
  by_cases h : p = pdeAddr L pg
  · rw [← h, clearA_same, hL.2]
  · rw [clearA_other L m p _ hp hd h]

theorem clearAll_cons (L : Layout) (m : Mem) (p : Nat) (ps : List Nat) :
    clearAll L m (p :: ps) = clearAll L (clearA L m p) ps := rfl

theorem clearAll_outside (L : Layout) : ∀ (ps : List Nat) (m : Mem) (x : Nat),
    (∀ p ∈ ps, x < p ∨ p + 4 ≤ x) → clearAll L m ps x = m x
  | [], m, x, _ => rfl
  | p :: ps, m, x, h => by
    rw [clearAll_cons, clearAll_outside L ps _ x (fun q hq => h q (by simp [hq])),
      clearA_outside L m p x (h p (by simp))]

theorem clearAll_read_other (L : Layout) : ∀ (ps : List Nat) (m : Mem) (q : Nat),
    q % 4 = 0 → (∀ p ∈ ps, p % 4 = 0) → q ∉ ps → read32 (clearAll L m ps) q = read32 m q
  | [], m, q, _, _, _ => rfl
  | p :: ps, m, q, hq, hps, hnot => by
    rw [clearAll_cons, clearAll_read_other L ps _ q hq (fun r hr => hps r (by simp [hr]))
      (fun e => hnot (by simp [e])),
      clearA_other L m p q (hps p (by simp)) hq (fun e => hnot (by simp [e]))]

theorem clearAll_read_mem (L : Layout) : ∀ (ps : List Nat) (m : Mem) (q : Nat),
    (∀ p ∈ ps, p % 4 = 0) → ps.Nodup → q ∈ ps →
      read32 (clearAll L m ps) q = read32 m q &&& notA L
  | [], m, q, _, _, h => by simp at h
  | p :: ps, m, q, hps, hnd, hq => by
    rw [clearAll_cons]
    have hps' : ∀ r ∈ ps, r % 4 = 0 := fun r hr => hps r (by simp [hr])
    by_cases e : q = p
    · subst e
      rw [clearAll_read_other L ps _ q (hps q (by simp)) hps' (List.nodup_cons.mp hnd).1,
        clearA_same]
    · have hq' : q ∈ ps := by
        rcases List.mem_cons.mp hq with h | h
        · exact absurd h e
        · exact h
      rw [clearAll_read_mem L ps _ q hps' (List.nodup_cons.mp hnd).2 hq',
        clearA_other L m p q (hps p (by simp)) (hps' q hq') (fun h => e h.symm)]

theorem pteAddr_clearAll (L : Layout) (hL : L.AccessBitOK) (pg : Page)
    (hd : pdeAddr L pg % 4 = 0) : ∀ (ps : List Nat) (m : Mem),
    (∀ p ∈ ps, p % 4 = 0) → pteAddr L (clearAll L m ps) pg = pteAddr L m pg
  | [], m, _ => rfl
  | p :: ps, m, hps => by
    rw [clearAll_cons, pteAddr_clearAll L hL pg hd ps _ (fun r hr => hps r (by simp [hr])),
      pteAddr_clearA L hL m p pg (hps p (by simp)) hd]

theorem xv6Layout_accessBitOK : xv6Layout.AccessBitOK := by
  refine ⟨by decide, ?_⟩
  intro w
  show (w &&& notA xv6Layout) &&& 0xFFFFF000 = w &&& 0xFFFFF000
  rw [Nat.land_assoc]
  have : notA xv6Layout &&& 0xFFFFF000 = 0xFFFFF000 := by decide
  rw [this]

/-! ## The clock scan -/

theorem sv_step_set (L : Layout) (fuel : Nat) (s : State) (a : Nat) (tr : List Event)
    (hh : s.page_lru_head = some a) (hacc : accessed L s a) :
    select_victim_loop L (fuel + 1) s (some a) tr =
      select_victim_loop L fuel (stepSet L s a) (s.pages a).next (tr ++ [Event.visit a]) := by
  unfold accessed at hacc
  simp only [select_victim_loop, hacc, hh, if_true, ne_eq, not_false_eq_true]
  rfl

theorem sv_step_clear (L : Layout) (fuel : Nat) (s : State) (a : Nat) (tr : List Event)
    (hacc : ¬ accessed L s a) :
    select_victim_loop L (fuel + 1) s (some a) tr =
      ⟨Outcome.ok (some a), s, tr ++ [Event.visit a] ++ [Event.release Lock.lru]⟩ := by
  unfold accessed at hacc
  simp only [select_victim_loop, hacc, if_false]

theorem State.eta_mem_head (s : State) (h : Option Nat) (hh : s.page_lru_head = h) :
    { s with mem := s.mem, page_lru_head := h } = s := by
  cases s
  simp only at hh
  subst hh
  rfl

/-- After the entry at `p` is cleared, a node with aligned slots is accessed
exactly when its entry is another one and it was accessed before. -/
theorem accessed_clearA (L : Layout) (hL : L.AccessBitOK) (s : State) (p : Nat)
    (h : Option Nat) (c : Nat) (hp : p % 4 = 0)
    (hd : pdeAddr L (s.pages c) % 4 = 0) (hq : pteAddr L s.mem (s.pages c) % 4 = 0) :
    accessed L { s with mem := clearA L s.mem p, page_lru_head := h } c ↔
      (pteAddr L s.mem (s.pages c) ≠ p ∧ accessed L s c) := by
  unfold accessed
  show read32 (clearA L s.mem p) (pteAddr L (clearA L s.mem p) (s.pages c)) &&& L.PTE_A ≠ 0 ↔ _
  rw [pteAddr_clearA L hL s.mem p (s.pages c) hp hd]
  by_cases e : pteAddr L s.mem (s.pages c) = p
  · rw [e, clearA_same, land_notA_A L hL.1]
    simp
  · rw [clearA_other L s.mem p _ hp hq (fun h => e h.symm)]
    simp [e]

theorem SlotsAligned_clearA (L : Layout) (hL : L.AccessBitOK) (s : State) (p : Nat)
    (h : Option Nat) (l : List Nat) (hp : p % 4 = 0) (hal : SlotsAligned L s l) :
    SlotsAligned L { s with mem := clearA L s.mem p, page_lru_head := h } l := by
  intro c hc
  refine ⟨(hal c hc).1, ?_⟩
  show pteAddr L (clearA L s.mem p) (s.pages c) % 4 = 0
  rw [pteAddr_clearA L hL s.mem p (s.pages c) hp (hal c hc).1]
  exact (hal c hc).2

theorem accessed_stepSet (L : Layout) (hL : L.AccessBitOK) (s : State) (a c : Nat)
    (hp : pteAddr L s.mem (s.pages a) % 4 = 0)
    (hd : pdeAddr L (s.pages c) % 4 = 0) (hq : pteAddr L s.mem (s.pages c) % 4 = 0) :
    accessed L (stepSet L s a) c ↔
      (pteAddr L s.mem (s.pages c) ≠ pteAddr L s.mem (s.pages a) ∧ accessed L s c) :=
  accessed_clearA L hL s _ _ c hp hd hq

theorem SlotsAligned_stepSet (L : Layout) (hL : L.AccessBitOK) (s : State) (a : Nat)
    (l : List Nat) (hp : pteAddr L s.mem (s.pages a) % 4 = 0) (hal : SlotsAligned L s l) :
    SlotsAligned L (stepSet L s a) l :=
  SlotsAligned_clearA L hL s _ _ l hp hal

theorem Ring_stepSet (L : Layout) (s : State) (a : Nat) (l : List Nat)
    (hr : Ring s (a :: l)) : Ring (stepSet L s a) (l ++ [a]) := by
  have hnext : (s.pages a).next = (l ++ [a]).head? := Ring.next_head s a l hr
  have := Ring.rotate s [a] l (clearA L s.mem (pteAddr L s.mem (s.pages a))) hr
  rw [← hnext] at this
  exact this

/-- Every run of the loop from the head of a well-formed ring with aligned
slots returns a member of the ring, having changed only memory and the head
pointer.  `todo` are the nodes not yet visited, `done` the nodes already
visited, whose access bits are clear. -/
theorem sv_loop_general (L : Layout) (hL : L.AccessBitOK) :
    ∀ (todo done : List Nat) (fuel : Nat) (s : State) (tr : List Event),
      todo.length < fuel → todo ++ done ≠ [] → Ring s (todo ++ done) →
      SlotsAligned L s (todo ++ done) → (∀ d ∈ done, ¬ accessed L s d) →
      ∃ (as : List Nat) (v : Nat) (rs : List Nat) (m' : Mem) (tr' : List Event),
        todo ++ done = as ++ v :: rs ∧
        select_victim_loop L fuel s s.page_lru_head tr =
          ⟨Outcome.ok (some v), { s with mem := m', page_lru_head := some v }, tr'⟩
  | [], done, fuel, s, tr, hfuel, hne, hr, _, hdone => by
    obtain ⟨f, rfl⟩ : ∃ f, fuel = f + 1 := ⟨fuel - 1, by simp at hfuel; omega⟩
    cases done with
    | nil => exact absurd rfl hne
    | cons v rs =>
      have hh : s.page_lru_head = some v := by simpa using hr.head
      refine ⟨[], v, rs, s.mem, tr ++ [Event.visit v] ++ [Event.release Lock.lru], rfl, ?_⟩
      rw [hh, sv_step_clear L f s v tr (hdone v (by simp)), State.eta_mem_head s _ hh]
  | a :: todo, done, fuel, s, tr, hfuel, _, hr, hal, hdone => by
    obtain ⟨f, rfl⟩ : ∃ f, fuel = f + 1 := ⟨fuel - 1, by simp at hfuel; omega⟩
    have hh : s.page_lru_head = some a := by simpa using hr.head
    by_cases hacc : accessed L s a
    · have hp : pteAddr L s.mem (s.pages a) % 4 = 0 := (hal a (by simp)).2
      have hr1 : Ring (stepSet L s a) (todo ++ (done ++ [a])) := by
        have := Ring_stepSet L s a (todo ++ done) (by simpa using hr)
        simpa using this
      have hal1 : SlotsAligned L (stepSet L s a) (todo ++ (done ++ [a])) := by
        apply SlotsAligned_stepSet L hL s a _ hp
        intro c hc
        exact hal c (by simp at hc ⊢; tauto)
      have hdone1 : ∀ d ∈ done ++ [a], ¬ accessed L (stepSet L s a) d := by
        intro d hd
        have hdl : d ∈ a :: todo ++ done := by simp at hd ⊢; tauto
        rw [accessed_stepSet L hL s a d hp (hal d hdl).1 (hal d hdl).2]
        rcases List.mem_append.mp hd with h | h
        · exact fun hx => hdone d h hx.2
        · have : d = a := by simpa using h
          subst this
          exact fun hx => hx.1 rfl
      obtain ⟨as', v, rs', m', tr', hsplit, hrun⟩ :=
        sv_loop_general L hL todo (done ++ [a]) f _ (tr ++ [Event.visit a])
          (by simp at hfuel ⊢; omega) (by simp) hr1 hal1 hdone1
      rw [hh, sv_step_set L f s a tr hh hacc]
      rcases List.eq_nil_or_concat rs' with h0 | ⟨rs'', a', h1⟩
      · subst h0
        have e : (todo ++ done) ++ [a] = as' ++ [v] := by simpa using hsplit
        have e1 := List.append_inj' e rfl
        have hva : a = v := by simpa using e1.2
        subst hva
        exact ⟨[], a, todo ++ done, m', tr', by simp, hrun⟩
      · rw [List.concat_eq_append] at h1
        subst h1
        have e : (todo ++ done) ++ [a] = (as' ++ v :: rs'') ++ [a'] := by simpa using hsplit
        have e1 := List.append_inj' e rfl
        exact ⟨a :: as', v, rs'', m', tr', by simp [e1.1], hrun⟩
    · refine ⟨[], a, todo ++ done, s.mem, tr ++ [Event.visit a] ++ [Event.release Lock.lru],
        by simp, ?_⟩
      rw [hh, sv_step_clear L f s a tr hacc, State.eta_mem_head s _ hh]

theorem split_unique : ∀ (as as' : List Nat) (v : Nat) (rs rs' : List Nat),
    (as ++ v :: rs).Nodup → as ++ v :: rs = as' ++ v :: rs' → as = as' ∧ rs = rs'
  | [], [], v, rs, rs', _, h => by simpa using h
  | [], x :: as', v, rs, rs', hnd, h => by
    exfalso
    simp only [List.nil_append, List.cons_append, List.cons.injEq] at h
    have : v ∈ rs := by rw [h.2]; simp
    exact (List.nodup_cons.mp hnd).1 this
  | a :: as, [], v, rs, rs', hnd, h => by
    exfalso
    simp only [List.nil_append, List.cons_append, List.cons.injEq] at h
    have hav : a = v := h.1
    subst hav
    exact (List.nodup_cons.mp hnd).1 (by simp)
  | a :: as, x :: as', v, rs, rs', hnd, h => by
    simp only [List.cons_append, List.cons.injEq] at h
    have := split_unique as as' v rs rs' (List.nodup_cons.mp hnd).2 h.2
    simp [h.1, this.1, this.2]

theorem select_victim_nonempty (L : Layout) (fuel : Nat) (s : State) (a : Nat)
    (hh : s.page_lru_head = some a) :
    select_victim L fuel s =
      select_victim_loop L fuel s s.page_lru_head [Event.acquire Lock.lru] := by
  unfold select_victim
  rw [hh]

/-- Scanning a prefix `as` of accessed nodes with aligned, pairwise distinct
page-table entries: the loop clears their access bits, moves the head past
them, and continues from the rest of the ring. -/
theorem sv_scan_prefix (L : Layout) (hL : L.AccessBitOK) :
    ∀ (as rest : List Nat) (fuel : Nat) (s : State) (tr : List Event),
      Ring s (as ++ rest) → SlotsAligned L s (as ++ rest) → SlotsDistinct L s (as ++ rest) →
      (∀ a ∈ as, accessed L s a) →
      select_victim_loop L (fuel + as.length) s s.page_lru_head tr =
        select_victim_loop L fuel
          { s with mem := clearAll L s.mem (as.map fun c => pteAddr L s.mem (s.pages c)),
                   page_lru_head := (rest ++ as).head? }
          (rest ++ as).head? (tr ++ as.map Event.visit)
  | [], rest, fuel, s, tr, hr, _, _, _ => by
    have hh : s.page_lru_head = rest.head? := by simpa using hr.head
    simp only [List.length_nil, Nat.add_zero, List.map_nil, List.append_nil]
    rw [show clearAll L s.mem [] = s.mem from rfl, State.eta_mem_head s _ hh, hh]
  | a :: as, rest, fuel, s, tr, hr, hal, hdist, hacc => by
    have hh : s.page_lru_head = some a := by simpa using hr.head
    have hp : pteAddr L s.mem (s.pages a) % 4 = 0 := (hal a (by simp)).2
    have hnd : (a :: (as ++ rest)).Nodup := by simpa using hr.nodup
    have hr1 : Ring (stepSet L s a) (as ++ (rest ++ [a])) := by
      have := Ring_stepSet L s a (as ++ rest) (by simpa using hr)
      simpa using this
    have hstab : ∀ c ∈ a :: (as ++ rest),
        pteAddr L (clearA L s.mem (pteAddr L s.mem (s.pages a))) (s.pages c)
          = pteAddr L s.mem (s.pages c) := by
      intro c hc
      exact pteAddr_clearA L hL s.mem _ (s.pages c) hp (hal c (by simpa using hc)).1
    have hal1 : SlotsAligned L (stepSet L s a) (as ++ (rest ++ [a])) := by
      apply SlotsAligned_stepSet L hL s a _ hp
      intro c hc
      exact hal c (by simp at hc ⊢; tauto)
    have hdist1 : SlotsDistinct L (stepSet L s a) (as ++ (rest ++ [a])) := by
      intro x hx y hy hxy
      have hx' : x ∈ a :: (as ++ rest) := by simp at hx ⊢; tauto
      have hy' : y ∈ a :: (as ++ rest) := by simp at hy ⊢; tauto
      have e : pteAddr L (clearA L s.mem (pteAddr L s.mem (s.pages a))) (s.pages x)
          = pteAddr L (clearA L s.mem (pteAddr L s.mem (s.pages a))) (s.pages y) := hxy
      rw [hstab x hx', hstab y hy'] at e
      exact hdist x (by simpa using hx') y (by simpa using hy') e
    have hacc1 : ∀ c ∈ as, accessed L (stepSet L s a) c := by
      intro c hc
      have hcl : c ∈ a :: as ++ rest := by simp [hc]
      rw [accessed_stepSet L hL s a c hp (hal c hcl).1 (hal c hcl).2]
      refine ⟨?_, hacc c (by simp [hc])⟩
      intro e
      have hca : c = a := hdist c hcl a (by simp) e
      subst hca
      exact (List.nodup_cons.mp hnd).1 (by simp [hc])
    have ih := sv_scan_prefix L hL as (rest ++ [a]) fuel (stepSet L s a)
      (tr ++ [Event.visit a]) hr1 hal1 hdist1 hacc1
    have hmap : (as.map fun c => pteAddr L (stepSet L s a).mem ((stepSet L s a).pages c))
        = as.map fun c => pteAddr L s.mem (s.pages c) := by
      apply List.map_congr_left
      intro c hc
      exact hstab c (by simp [hc])
    have hfuel : fuel + (a :: as).length = (fuel + as.length) + 1 := by
      simp only [List.length_cons]; omega
    have hnext : (s.pages a).next = (stepSet L s a).page_lru_head := rfl
    rw [hfuel, hh, sv_step_set L (fuel + as.length) s a tr hh (hacc a (by simp)), hnext, ih,
      hmap]
    rw [show (rest ++ [a]) ++ as = rest ++ a :: as by simp]
    rw [show tr ++ [Event.visit a] ++ List.map Event.visit as
        = tr ++ List.map Event.visit (a :: as) by simp]
    rfl

theorem slots_map_aligned (L : Layout) (s : State) (l as : List Nat)
    (hal : SlotsAligned L s l) (hsub : ∀ a ∈ as, a ∈ l) :
    ∀ p ∈ as.map (fun c => pteAddr L s.mem (s.pages c)), p % 4 = 0 := by
  intro p hp
  obtain ⟨c, hc, rfl⟩ := List.mem_map.mp hp
  exact (hal c (hsub c hc)).2

theorem slots_map_nodup (L : Layout) (s : State) (l : List Nat) :
    ∀ (as : List Nat), SlotsDistinct L s l → (∀ a ∈ as, a ∈ l) → as.Nodup →
      (as.map (fun c => pteAddr L s.mem (s.pages c))).Nodup
  | [], _, _, _ => by simp
  | a :: as, hdist, hsub, hnd => by
    rw [List.map_cons, List.nodup_cons]
    refine ⟨?_, slots_map_nodup L s l as hdist (fun c hc => hsub c (by simp [hc]))
      (List.nodup_cons.mp hnd).2⟩
    intro h
    obtain ⟨c, hc, e⟩ := List.mem_map.mp h
    have : c = a := hdist c (hsub c (by simp [hc])) a (hsub a (by simp)) e
    subst this
    exact (List.nodup_cons.mp hnd).1 hc

/-- The run of `select_victim` on a ring whose first clear node is `v`, the
nodes `as` before it being accessed: the exact result. -/
theorem select_victim_run (L : Layout) (hL : L.AccessBitOK) (s : State)
    (as : List Nat) (v : Nat) (rs : List Nat) (fuel : Nat)
    (hr : Ring s (as ++ v :: rs)) (hal : SlotsAligned L s (as ++ v :: rs))
    (hdist : SlotsDistinct L s (as ++ v :: rs))
    (hacc : ∀ a ∈ as, accessed L s a) (hv : ¬ accessed L s v) (hfuel : as.length < fuel) :
    select_victim L fuel s =
      ⟨Outcome.ok (some v),
        { s with
          mem := clearAll L s.mem (as.map fun c => pteAddr L s.mem (s.pages c)),
          page_lru_head := some v },
        [Event.acquire Lock.lru] ++ (as ++ [v]).map Event.visit ++ [Event.release Lock.lru]⟩ := by
  obtain ⟨h, hh⟩ : ∃ h, s.page_lru_head = some h := by
    rw [hr.head]
    cases as with
    | nil => exact ⟨v, rfl⟩
    | cons a _ => exact ⟨a, rfl⟩
  obtain ⟨f, rfl⟩ : ∃ f, fuel = (f + 1) + as.length := ⟨fuel - as.length - 1, by omega⟩
  rw [select_victim_nonempty L _ s h hh,
    sv_scan_prefix L hL as (v :: rs) (f + 1) s _ hr hal hdist hacc]
  have hhead : (v :: rs ++ as).head? = some v := rfl
  rw [hhead]
  have hnd := hr.nodup
  have hvas : v ∉ as := by
    intro e
    rw [List.nodup_append] at hnd
    exact hnd.2.2 e (by simp)
  have hnacc : ¬ accessed L
      ({ s with
         mem := clearAll L s.mem (as.map fun c => pteAddr L s.mem (s.pages c)),
         page_lru_head := some v } : State) v := by
    unfold accessed
    show ¬ (read32 (clearAll L s.mem (as.map fun c => pteAddr L s.mem (s.pages c)))
      (pteAddr L (clearAll L s.mem (as.map fun c => pteAddr L s.mem (s.pages c)))
        (s.pages v)) &&& L.PTE_A ≠ 0)
    rw [pteAddr_clearAll L hL (s.pages v) (hal v (by simp)).1 _ _
        (slots_map_aligned L s _ as hal (fun a ha => by simp [ha])),
      clearAll_read_other L _ _ _ (hal v (by simp)).2
        (slots_map_aligned L s _ as hal (fun a ha => by simp [ha]))]
    · exact hv
    · intro hmem
      obtain ⟨c, hc, e⟩ := List.mem_map.mp hmem
      have : c = v := hdist c (by simp [hc]) v (by simp) e
      subst this
      exact hvas hc
  rw [sv_step_clear L f _ v _ hnacc]
  simp

/-- C6: on a well-formed ring whose traversal from the head is `as`, then `v`,
then `rs`, where the nodes map to pairwise distinct (aligned) page-table
entries, every node of `as` has its access bit set and `v` has it clear,
`select_victim()` returns `v`, the earliest node with a clear bit.  It visits
exactly `as` and then `v`; in the entry of each node of `as` it clears the
access bit and nothing else; the entries of `v` and of the nodes after it, and
every byte of memory outside the entries of `as`, are unchanged. -/
theorem select_victim_first_clear (L : Layout) (hL : L.AccessBitOK) (s : State)
    (as : List Nat) (v : Nat) (rs : List Nat) (fuel : Nat)
    (hr : Ring s (as ++ v :: rs)) (hal : SlotsAligned L s (as ++ v :: rs))
    (hdist : SlotsDistinct L s (as ++ v :: rs))
    (hacc : ∀ a ∈ as, accessed L s a) (hv : ¬ accessed L s v) (hfuel : as.length < fuel) :
    (select_victim L fuel s).out = Outcome.ok (some v) ∧
    (select_victim L fuel s).trace =
      [Event.acquire Lock.lru] ++ (as ++ [v]).map Event.visit ++ [Event.release Lock.lru] ∧
    (∀ c ∈ as ++ v :: rs,
      pteAddr L (select_victim L fuel s).s.mem ((select_victim L fuel s).s.pages c)
        = pteAddr L s.mem (s.pages c)) ∧
    (∀ a ∈ as,
      read32 (select_victim L fuel s).s.mem (pteAddr L s.mem (s.pages a))
        = read32 s.mem (pteAddr L s.mem (s.pages a)) &&& notA L ∧
      ¬ accessed L (select_victim L fuel s).s a) ∧
    (∀ c ∈ v :: rs,
      read32 (select_victim L fuel s).s.mem (pteAddr L s.mem (s.pages c))
        = read32 s.mem (pteAddr L s.mem (s.pages c)) ∧
      (accessed L (select_victim L fuel s).s c ↔ accessed L s c)) ∧
    (∀ x, ¬ slotBytes (as.map fun c => pteAddr L s.mem (s.pages c)) x →
      (select_victim L fuel s).s.mem x = s.mem x) ∧
    (select_victim L fuel s).s.pages = s.pages ∧
    (select_victim L fuel s).s.num_lru_pages = s.num_lru_pages := by
  rw [select_victim_run L hL s as v rs fuel hr hal hdist hacc hv hfuel]
  have hpsal := slots_map_aligned L s _ as hal (fun a ha => by simp [ha])
  have hnd := hr.nodup
  have hasnd : as.Nodup := (List.nodup_append.mp hnd).1
  have hpsnd := slots_map_nodup L s _ as hdist (fun a ha => by simp [ha]) hasnd
  have hstab : ∀ c ∈ as ++ v :: rs,
      pteAddr L (clearAll L s.mem (as.map fun c => pteAddr L s.mem (s.pages c))) (s.pages c)
        = pteAddr L s.mem (s.pages c) := fun c hc =>
    pteAddr_clearAll L hL (s.pages c) (hal c hc).1 _ _ hpsal
  have hrd : ∀ a ∈ as,
      read32 (clearAll L s.mem (as.map fun c => pteAddr L s.mem (s.pages c)))
          (pteAddr L s.mem (s.pages a))
        = read32 s.mem (pteAddr L s.mem (s.pages a)) &&& notA L := fun a ha =>
    clearAll_read_mem L _ _ _ hpsal hpsnd (List.mem_map.mpr ⟨a, ha, rfl⟩)
  have hro : ∀ c ∈ v :: rs,
      read32 (clearAll L s.mem (as.map fun c => pteAddr L s.mem (s.pages c)))
          (pteAddr L s.mem (s.pages c))
        = read32 s.mem (pteAddr L s.mem (s.pages c)) := by
    intro c hc
    refine clearAll_read_other L _ _ _ (hal c (by simp at hc ⊢; tauto)).2 hpsal ?_
    intro hmem
    obtain ⟨a, ha, e⟩ := List.mem_map.mp hmem
    have hac : a = c := hdist a (by simp [ha]) c (by simp at hc ⊢; tauto) e
    subst hac
    rw [List.nodup_append] at hnd
    exact hnd.2.2 ha hc
  refine ⟨rfl, rfl, hstab, ?_, ?_, ?_, rfl, rfl⟩
  · intro a ha
    refine ⟨hrd a ha, ?_⟩
    unfold accessed
    show ¬ (read32 (clearAll L s.mem (as.map fun c => pteAddr L s.mem (s.pages c)))
      (pteAddr L (clearAll L s.mem (as.map fun c => pteAddr L s.mem (s.pages c)))
        (s.pages a)) &&& L.PTE_A ≠ 0)
    rw [hstab a (by simp [ha]), hrd a ha, land_notA_A L hL.1]
    simp
  · intro c hc
    refine ⟨hro c hc, ?_⟩
    unfold accessed
    show (read32 (clearAll L s.mem (as.map fun c => pteAddr L s.mem (s.pages c)))
      (pteAddr L (clearAll L s.mem (as.map fun c => pteAddr L s.mem (s.pages c)))
        (s.pages c)) &&& L.PTE_A ≠ 0) ↔ _
    rw [hstab c (by simp at hc ⊢; tauto), hro c hc]
  · intro x hx
    refine clearAll_outside L _ _ x ?_
    intro p hp
    by_contra hcon
    exact hx ⟨p, hp, by omega, by omega⟩

/-- C7: on a well-formed non-empty ring (entries aligned), given one unit of
fuel more than the ring has nodes, `select_victim()` returns a node `v` of the
ring and removes nothing: every descriptor (links, owner, virtual address) and
the count are unchanged, the head is `v`, and if the traversal from the head
was `as`, `v`, `rs` before the call, it is `v`, `rs`, `as` after it, the
nodes passed over having moved to the tail in the order visited. -/
theorem select_victim_keeps_ring (L : Layout) (hL : L.AccessBitOK) (s : State)
    (l : List Nat) (fuel : Nat) (hr : Ring s l) (hne : l ≠ [])
    (hal : SlotsAligned L s l) (hfuel : l.length < fuel) :
    ∃ v, (select_victim L fuel s).out = Outcome.ok (some v) ∧ v ∈ l ∧
      (select_victim L fuel s).s.pages = s.pages ∧
      (select_victim L fuel s).s.num_lru_pages = s.num_lru_pages ∧
      (select_victim L fuel s).s.page_lru_head = some v ∧
      (∀ as rs, l = as ++ v :: rs →
        Ring (select_victim L fuel s).s (v :: rs ++ as) ∧
        v ∈ v :: rs ++ as ∧ (v :: rs ++ as).Perm l) ∧
      (select_victim L fuel s).s.freelist = s.freelist ∧
      (select_victim L fuel s).s.num_free_pages = s.num_free_pages := by
  obtain ⟨h, hh⟩ : ∃ h, s.page_lru_head = some h := by
    rw [hr.head]
    cases l with
    | nil => exact absurd rfl hne
    | cons a _ => exact ⟨a, rfl⟩
  obtain ⟨as, v, rs, m', tr', hsplit, hrun⟩ :=
    sv_loop_general L hL l [] fuel s [Event.acquire Lock.lru] hfuel (by simpa using hne)
      (by simpa using hr) (by simpa using hal) (by simp)
  rw [List.append_nil] at hsplit
  rw [select_victim_nonempty L fuel s h hh, hrun]
  refine ⟨v, rfl, by rw [hsplit]; simp, rfl, rfl, rfl, ?_, rfl, rfl⟩
  intro as' rs' hl
  have hu := split_unique as as' v rs rs' (by rw [← hsplit]; exact hr.nodup)
    (by rw [← hsplit]; exact hl)
  rw [← hu.1, ← hu.2]
  refine ⟨?_, by simp, ?_⟩
  · have := Ring.rotate s as (v :: rs) m' (by rw [← hsplit]; exact hr)
    exact this
  · rw [hsplit]
    exact List.perm_append_comm

/-- Witness for C6: on the three-node demo ring the head 1026 is accessed and
the next node 1025 is not, so 1025 is the victim. -/
theorem select_victim_first_clear_witness :
    (select_victim xv6Layout 2 demoState3).out = Outcome.ok (some 1025) ∧
    (select_victim xv6Layout 2 demoState3).trace =
      [Event.acquire Lock.lru] ++ ([1026] ++ [1025]).map Event.visit
        ++ [Event.release Lock.lru] :=
  have h := select_victim_first_clear xv6Layout xv6Layout_accessBitOK demoState3
    [1026] 1025 [1024] 2 ⟨by decide, by decide, by decide, by decide⟩
    (by decide) (by decide) (by decide) (by decide) (by decide)
  ⟨h.1, h.2.1⟩

/-- Witness for C7: the three-node demo ring keeps its three nodes. -/
theorem select_victim_keeps_ring_witness :
    ∃ v, (select_victim xv6Layout 4 demoState3).out = Outcome.ok (some v) ∧
      v ∈ [1026, 1025, 1024] ∧
      (select_victim xv6Layout 4 demoState3).s.pages = demoState3.pages ∧
      (select_victim xv6Layout 4 demoState3).s.num_lru_pages = demoState3.num_lru_pages ∧
      (select_victim xv6Layout 4 demoState3).s.page_lru_head = some v ∧
      (∀ as rs, [1026, 1025, 1024] = as ++ v :: rs →
        Ring (select_victim xv6Layout 4 demoState3).s (v :: rs ++ as) ∧
        v ∈ v :: rs ++ as ∧ (v :: rs ++ as).Perm [1026, 1025, 1024]) ∧
      (select_victim xv6Layout 4 demoState3).s.freelist = demoState3.freelist ∧
      (select_victim xv6Layout 4 demoState3).s.num_free_pages = demoState3.num_free_pages :=
  select_victim_keeps_ring xv6Layout xv6Layout_accessBitOK demoState3 [1026, 1025, 1024] 4
    ⟨by decide, by decide, by decide, by decide⟩ (by decide) (by decide) (by decide)

/-! ## Victim selection: single visits and fatal errors -/

theorem select_victim_head_clear_run (L : Layout) (fuel : Nat) (s : State) (h : Nat)
    (hh : s.page_lru_head = some h) (hc : ¬ accessed L s h) :
    select_victim L (fuel + 1) s =
      ⟨Outcome.ok (some h), s,
        [Event.acquire Lock.lru, Event.visit h, Event.release Lock.lru]⟩ := by
  rw [select_victim_nonempty L _ s h hh, hh, sv_step_clear L fuel s h _ hc]
  rfl

theorem select_victim_loop_no_panic (L : Layout) :
    ∀ (fuel : Nat) (s : State) (c : Option Nat) (tr : List Event) (msg : String),
      (select_victim_loop L fuel s c tr).out ≠ Outcome.panic msg
  | 0, s, c, tr, msg => by simp [select_victim_loop]
  | fuel + 1, s, none, tr, msg => by simp [select_victim_loop]
  | fuel + 1, s, some c, tr, msg => by
    simp only [select_victim_loop]
    split
    · split
      · exact select_victim_loop_no_panic L fuel _ _ _ msg
      · split
        · simp
        · exact select_victim_loop_no_panic L fuel _ _ _ msg
    · simp

theorem select_victim_no_panic (L : Layout) (fuel : Nat) (s : State) (msg : String) :
    (select_victim L fuel s).out ≠ Outcome.panic msg := by
  unfold select_victim
  split
  · simp
  · exact select_victim_loop_no_panic L fuel s _ _ msg

theorem ys_step_clear (L : Layout) (fuel : Nat) (s : State) (a : Nat) (tr : List Event)
    (hp : read32 s.mem (pdeAddr L (s.pages a)) &&& L.PTE_P ≠ 0) (hacc : ¬ accessed L s a) :
    ys.select_victim_loop L (fuel + 1) s (some a) tr =
      ⟨Outcome.ok (some a), s, tr ++ [Event.visit a] ++ [Event.release Lock.lru]⟩ := by
  unfold accessed at hacc
  simp only [ys.select_victim_loop, hacc, hp, if_false, if_true, ne_eq, not_false_eq_true]

theorem ys_step_panic (L : Layout) (fuel : Nat) (s : State) (a : Nat) (tr : List Event)
    (hp : read32 s.mem (pdeAddr L (s.pages a)) &&& L.PTE_P = 0) :
    ys.select_victim_loop L (fuel + 1) s (some a) tr =
      ⟨Outcome.panic "find_victim: pde must have PTE_P bits in lru_list", s,
        tr ++ [Event.visit a]⟩ := by
  simp only [ys.select_victim_loop, hp, ne_eq, not_true_eq_false, if_false]

theorem ys_loop_panic_only (L : Layout) :
    ∀ (fuel : Nat) (s : State) (c : Option Nat) (tr : List Event) (msg : String),
      (ys.select_victim_loop L fuel s c tr).out = Outcome.panic msg →
      ∃ a, read32 (ys.select_victim_loop L fuel s c tr).s.mem
            (pdeAddr L ((ys.select_victim_loop L fuel s c tr).s.pages a)) &&& L.PTE_P = 0 ∧
        (ys.select_victim_loop L fuel s c tr).trace.getLast? = some (Event.visit a)
  | 0, s, c, tr, msg, h => by simp [ys.select_victim_loop] at h
  | fuel + 1, s, none, tr, msg, h => by simp [ys.select_victim_loop] at h
  | fuel + 1, s, some c, tr, msg, h => by
    by_cases hp : read32 s.mem (pdeAddr L (s.pages c)) &&& L.PTE_P = 0
    · rw [ys_step_panic L fuel s c tr hp]
      exact ⟨c, hp, by simp⟩
    · by_cases ha : read32 s.mem (pteAddr L s.mem (s.pages c)) &&& L.PTE_A = 0
      · simp [ys.select_victim_loop, hp, ha] at h
      · by_cases hh : some c = s.page_lru_head
        · simp only [ys.select_victim_loop, hp, ha, hh, ne_eq, not_false_eq_true, if_true]
            at h ⊢
          exact ys_loop_panic_only L fuel _ _ _ msg h
        · cases hm : moveToTail
              { s with
                mem := write32 s.mem (pteAddr L s.mem (s.pages c))
                         (read32 s.mem (pteAddr L s.mem (s.pages c)) &&& notA L) } c with
          | none => simp [ys.select_victim_loop, hp, ha, hh, hm] at h
          | some s2 =>
            simp only [ys.select_victim_loop, hp, ha, hh, hm, ne_eq, not_false_eq_true,
              if_true, if_false] at h ⊢
            exact ys_loop_panic_only L fuel _ _ _ msg h

/-- C15: when the head of the ring has its access bit clear, `select_victim()`
returns the head after visiting exactly one node (the head) and modifies
nothing: the whole state, and so the head pointer, the count, every
descriptor and every page-table entry, is as before the call. -/
theorem select_victim_head_clear (L : Layout) (fuel : Nat) (s : State) (h : Nat)
    (l : List Nat) (hr : Ring s (h :: l)) (hc : ¬ accessed L s h) :
    (select_victim L (fuel + 1) s).out = Outcome.ok (some h) ∧
    (select_victim L (fuel + 1) s).trace =
      [Event.acquire Lock.lru, Event.visit h, Event.release Lock.lru] ∧
    (select_victim L (fuel + 1) s).s = s ∧
    (select_victim L (fuel + 1) s).s.page_lru_head = s.page_lru_head ∧
    (select_victim L (fuel + 1) s).s.num_lru_pages = s.num_lru_pages ∧
    (select_victim L (fuel + 1) s).s.pages = s.pages ∧
    (select_victim L (fuel + 1) s).s.mem = s.mem := by
  rw [select_victim_head_clear_run L fuel s h (Ring.head_eq s h l hr) hc]
  exact ⟨rfl, rfl, rfl, rfl, rfl, rfl, rfl⟩

/-- Witness for C15, the instance of the spec: a ring of one registered frame
whose access bit is clear. -/
theorem select_victim_head_clear_witness :
    (select_victim xv6Layout 1 demoClear1).out = Outcome.ok (some 1025) ∧
    (select_victim xv6Layout 1 demoClear1).trace =
      [Event.acquire Lock.lru, Event.visit 1025, Event.release Lock.lru] ∧
    (select_victim xv6Layout 1 demoClear1).s = demoClear1 :=
  have h := select_victim_head_clear xv6Layout 0 demoClear1 1025 []
    ⟨by decide, by decide, by decide, by decide⟩ (by decide)
  ⟨h.1, h.2.1, h.2.2.1⟩

/-- C16, refuted as stated: on the two-node demo ring the head 1025 has its
access bit clear, and both versions of `select_victim()` return it as the
victim instead of halting with a fatal error. -/
theorem select_victim_clear_bit_returns :
    Ring demoState2 [1025, 1024] ∧ ¬ accessed xv6Layout demoState2 1025 ∧
    (select_victim xv6Layout 1 demoState2).out = Outcome.ok (some 1025) ∧
    (ys.select_victim xv6Layout 1 demoState2).out = Outcome.ok (some 1025) ∧
    ¬ (∃ msg, (select_victim xv6Layout 1 demoState2).out = Outcome.panic msg) ∧
    ¬ (∃ msg, (ys.select_victim xv6Layout 1 demoState2).out = Outcome.panic msg) := by
  refine ⟨⟨by decide, by decide, by decide, by decide⟩, by decide, by decide, by decide, ?_, ?_⟩
  · rintro ⟨msg, h⟩
    have : (select_victim xv6Layout 1 demoState2).out = Outcome.ok (some 1025) := by decide
    rw [this] at h
    exact Outcome.noConfusion h
  · rintro ⟨msg, h⟩
    have : (ys.select_victim xv6Layout 1 demoState2).out = Outcome.ok (some 1025) := by decide
    rw [this] at h
    exact Outcome.noConfusion h

/-- C16, amended: a clear access bit is never a fatal error.  Whenever the loop
of `select_victim()` visits a node whose page-table entry has the access bit
clear it returns that node as the victim, leaving the state as it is;
`select_victim` of `kalloc.c` never panics; `select_victim` of `kalloc_ys.c`
returns the node likewise when the node's page directory entry is present,
and panics exactly on visiting a node whose page directory entry lacks
`PTE_P`. -/
theorem select_victim_clear_bit_is_victim (L : Layout) :
    (∀ (fuel : Nat) (s : State) (c : Nat) (tr : List Event), ¬ accessed L s c →
      (select_victim_loop L (fuel + 1) s (some c) tr).out = Outcome.ok (some c) ∧
      (select_victim_loop L (fuel + 1) s (some c) tr).s = s) ∧
    (∀ (fuel : Nat) (s : State) (msg : String),
      (select_victim L fuel s).out ≠ Outcome.panic msg) ∧
    (∀ (fuel : Nat) (s : State) (c : Nat) (tr : List Event),
      read32 s.mem (pdeAddr L (s.pages c)) &&& L.PTE_P ≠ 0 → ¬ accessed L s c →
      (ys.select_victim_loop L (fuel + 1) s (some c) tr).out = Outcome.ok (some c) ∧
      (ys.select_victim_loop L (fuel + 1) s (some c) tr).s = s) ∧
    (∀ (fuel : Nat) (s : State) (c : Nat) (tr : List Event),
      read32 s.mem (pdeAddr L (s.pages c)) &&& L.PTE_P = 0 →
      (ys.select_victim_loop L (fuel + 1) s (some c) tr).out =
        Outcome.panic "find_victim: pde must have PTE_P bits in lru_list") ∧
    (∀ (fuel : Nat) (s : State) (c : Option Nat) (tr : List Event) (msg : String),
      (ys.select_victim_loop L fuel s c tr).out = Outcome.panic msg →
      ∃ a, read32 (ys.select_victim_loop L fuel s c tr).s.mem
            (pdeAddr L ((ys.select_victim_loop L fuel s c tr).s.pages a)) &&& L.PTE_P = 0 ∧
        (ys.select_victim_loop L fuel s c tr).trace.getLast? = some (Event.visit a)) := by
  refine ⟨?_, select_victim_no_panic L, ?_, ?_, ys_loop_panic_only L⟩
  · intro fuel s c tr hc
    rw [sv_step_clear L fuel s c tr hc]
    exact ⟨rfl, rfl⟩
  · intro fuel s c tr hp hc
    rw [ys_step_clear L fuel s c tr hp hc]
    exact ⟨rfl, rfl⟩
  · intro fuel s c tr hp
    rw [ys_step_panic L fuel s c tr hp]

/-- Witness for the amended C16: the head of the two-node demo ring has a clear
access bit and is returned; the ring registered under an empty page directory
makes `kalloc_ys.c` panic. -/
theorem select_victim_clear_bit_is_victim_witness :
    ((select_victim_loop xv6Layout 1 demoState2 (some 1025) []).out = Outcome.ok (some 1025) ∧
      (select_victim_loop xv6Layout 1 demoState2 (some 1025) []).s = demoState2) ∧
    ((ys.select_victim_loop xv6Layout 1 demoState2 (some 1025) []).out
        = Outcome.ok (some 1025) ∧
      (ys.select_victim_loop xv6Layout 1 demoState2 (some 1025) []).s = demoState2) ∧
    (ys.select_victim_loop xv6Layout 1 demoNoPde (some 1025) []).out =
      Outcome.panic "find_victim: pde must have PTE_P bits in lru_list" :=
  ⟨(select_victim_clear_bit_is_victim xv6Layout).1 0 demoState2 1025 [] (by decide),
   (select_victim_clear_bit_is_victim xv6Layout).2.2.1 0 demoState2 1025 [] (by decide)
     (by decide),
   (select_victim_clear_bit_is_victim xv6Layout).2.2.2.1 0 demoNoPde 1025 [] (by decide)⟩

/-! ## Victim selection: bounds on the scan -/

/-- The run of the loop from the head of a well-formed ring with aligned slots:
it returns a member `v` whose access bit is then clear, having changed only
memory and the head pointer; the nodes it visits are an initial segment of the
traversal followed by the head once more. -/
theorem sv_loop_visits (L : Layout) (hL : L.AccessBitOK) :
    ∀ (todo done : List Nat) (fuel : Nat) (s : State) (tr : List Event),
      todo.length < fuel → todo ++ done ≠ [] → Ring s (todo ++ done) →
      SlotsAligned L s (todo ++ done) → (∀ d ∈ done, ¬ accessed L s d) →
      ∃ (vis : List Nat) (v : Nat) (m' : Mem),
        select_victim_loop L fuel s s.page_lru_head tr =
          ⟨Outcome.ok (some v), { s with mem := m', page_lru_head := some v },
            tr ++ (vis ++ [v]).map Event.visit ++ [Event.release Lock.lru]⟩ ∧
        (vis ++ [v]) <+: todo ++ (done ++ todo).take 1 ∧
        v ∈ todo ++ done ∧
        ¬ accessed L ({ s with mem := m', page_lru_head := some v } : State) v
  | [], done, fuel, s, tr, hfuel, hne, hr, _, hdone => by
    obtain ⟨f, rfl⟩ : ∃ f, fuel = f + 1 := ⟨fuel - 1, by simp at hfuel; omega⟩
    cases done with
    | nil => exact absurd rfl hne
    | cons v rs =>
      have hh : s.page_lru_head = some v := by simpa using hr.head
      refine ⟨[], v, s.mem, ?_, by simp, by simp, hdone v (by simp)⟩
      rw [hh, sv_step_clear L f s v tr (hdone v (by simp)), State.eta_mem_head s _ hh]
      simp
  | a :: todo, done, fuel, s, tr, hfuel, _, hr, hal, hdone => by
    obtain ⟨f, rfl⟩ : ∃ f, fuel = f + 1 := ⟨fuel - 1, by simp at hfuel; omega⟩
    have hh : s.page_lru_head = some a := by simpa using hr.head
    by_cases hacc : accessed L s a
    · have hp : pteAddr L s.mem (s.pages a) % 4 = 0 := (hal a (by simp)).2
      have hr1 : Ring (stepSet L s a) (todo ++ (done ++ [a])) := by
        have := Ring_stepSet L s a (todo ++ done) (by simpa using hr)
        simpa using this
      have hal1 : SlotsAligned L (stepSet L s a) (todo ++ (done ++ [a])) := by
        apply SlotsAligned_stepSet L hL s a _ hp
        intro c hc
        exact hal c (by simp at hc ⊢; tauto)
      have hdone1 : ∀ d ∈ done ++ [a], ¬ accessed L (stepSet L s a) d := by
        intro d hd
        have hdl : d ∈ a :: todo ++ done := by simp at hd ⊢; tauto
        rw [accessed_stepSet L hL s a d hp (hal d hdl).1 (hal d hdl).2]
        rcases List.mem_append.mp hd with h | h
        · exact fun hx => hdone d h hx.2
        · have : d = a := by simpa using h
          subst this
          exact fun hx => hx.1 rfl
      obtain ⟨vis, v, m', hrun, hpre, hv, hclr⟩ :=
        sv_loop_visits L hL todo (done ++ [a]) f (stepSet L s a) (tr ++ [Event.visit a])
          (by simp at hfuel ⊢; omega) (by simp) hr1 hal1 hdone1
      refine ⟨a :: vis, v, m', ?_, ?_, ?_, hclr⟩
      · rw [hh, sv_step_set L f s a tr hh hacc]
        have hnext : (s.pages a).next = (stepSet L s a).page_lru_head := rfl
        rw [hnext, hrun]
        simp [stepSet]
      · have e : (done ++ [a]) ++ todo = done ++ a :: todo := by simp
        rw [e] at hpre
        simpa [List.prefix_cons_inj] using hpre
      · simp at hv ⊢
        tauto
    · refine ⟨[], a, s.mem, ?_, by simp, by simp, hacc⟩
      rw [hh, sv_step_clear L f s a tr hacc, State.eta_mem_head s _ hh]
      simp

theorem visits_bound (l vis : List Nat) (hnd : l.Nodup) (hpre : vis <+: l ++ l.take 1) :
    vis.length ≤ l.length + 1 ∧ (∀ c, vis.count c ≤ 2) ∧ (∀ c ∈ vis, c ∈ l) := by
  refine ⟨?_, ?_, ?_⟩
  · have := hpre.length_le
    have h1 : (l.take 1).length ≤ 1 := by simp
    simp only [List.length_append] at this
    omega
  · intro c
    have h1 := hpre.sublist.count_le c
    have h2 : l.count c ≤ 1 := List.nodup_iff_count_le_one.mp hnd c
    have h3 : (l.take 1).count c ≤ 1 :=
      le_trans ((List.take_sublist 1 l).count_le c) h2
    rw [List.count_append] at h1
    omega
  · intro c hc
    have := hpre.subset hc
    rcases List.mem_append.mp this with h | h
    · exact h
    · exact List.mem_of_mem_take h

/-- The run of `select_victim` on a ring all of whose nodes are accessed: the
exact result. -/
theorem select_victim_all_set_run (L : Layout) (hL : L.AccessBitOK) (s : State)
    (h : Nat) (l : List Nat) (fuel : Nat)
    (hr : Ring s (h :: l)) (hal : SlotsAligned L s (h :: l))
    (hdist : SlotsDistinct L s (h :: l))
    (hacc : ∀ a ∈ h :: l, accessed L s a) (hfuel : (h :: l).length < fuel) :
    select_victim L fuel s =
      ⟨Outcome.ok (some h),
        { s with
          mem := clearAll L s.mem ((h :: l).map fun c => pteAddr L s.mem (s.pages c)),
          page_lru_head := some h },
        [Event.acquire Lock.lru] ++ ((h :: l) ++ [h]).map Event.visit
          ++ [Event.release Lock.lru]⟩ := by
  have hh : s.page_lru_head = some h := Ring.head_eq s h l hr
  obtain ⟨f, rfl⟩ : ∃ f, fuel = (f + 1) + (h :: l).length :=
    ⟨fuel - (h :: l).length - 1, by omega⟩
  rw [select_victim_nonempty L _ s h hh,
    sv_scan_prefix L hL (h :: l) [] (f + 1) s _ (by simpa using hr) (by simpa using hal)
      (by simpa using hdist) hacc]
  have hhead : ([] ++ h :: l).head? = some h := rfl
  rw [hhead]
  have hpsal := slots_map_aligned L s (h :: l) (h :: l) hal (fun a ha => ha)
  have hpsnd := slots_map_nodup L s (h :: l) (h :: l) hdist (fun a ha => ha) hr.nodup
  have hnacc : ¬ accessed L
      ({ s with
         mem := clearAll L s.mem ((h :: l).map fun c => pteAddr L s.mem (s.pages c)),
         page_lru_head := some h } : State) h := by
    unfold accessed
    show ¬ (read32 (clearAll L s.mem ((h :: l).map fun c => pteAddr L s.mem (s.pages c)))
      (pteAddr L (clearAll L s.mem ((h :: l).map fun c => pteAddr L s.mem (s.pages c)))
        (s.pages h)) &&& L.PTE_A ≠ 0)
    rw [pteAddr_clearAll L hL (s.pages h) (hal h (by simp)).1 _ _ hpsal,
      clearAll_read_mem L _ _ _ hpsal hpsnd (List.mem_map.mpr ⟨h, by simp, rfl⟩),
      land_notA_A L hL.1]
    simp
  rw [sv_step_clear L f _ h _ hnacc]
  simp

/-- C13: on a well-formed ring of `n ≥ 1` nodes (entries aligned; whatever the
access bits, and whether or not the entries are pairwise distinct), with fuel
for `n + 1` visits `select_victim()` terminates and returns a node of the
ring.  The nodes it examines, in order, are `vis`: at most `n + 1` of them,
hence at most `2n`, all in the ring, none examined more than twice. -/
theorem select_victim_terminates (L : Layout) (hL : L.AccessBitOK) (s : State)
    (l : List Nat) (fuel : Nat) (hr : Ring s l) (hne : l ≠ [])
    (hal : SlotsAligned L s l) (hfuel : l.length < fuel) :
    ∃ (v : Nat) (vis : List Nat),
      (select_victim L fuel s).out = Outcome.ok (some v) ∧ v ∈ l ∧
      (select_victim L fuel s).trace =
        [Event.acquire Lock.lru] ++ vis.map Event.visit ++ [Event.release Lock.lru] ∧
      vis.length ≤ l.length + 1 ∧ vis.length ≤ 2 * l.length ∧
      (∀ c, vis.count c ≤ 2) ∧ (∀ c ∈ vis, c ∈ l) := by
  obtain ⟨h, hh⟩ : ∃ h, s.page_lru_head = some h := by
    rw [hr.head]
    cases l with
    | nil => exact absurd rfl hne
    | cons a _ => exact ⟨a, rfl⟩
  obtain ⟨vis, v, m', hrun, hpre, hv, _⟩ :=
    sv_loop_visits L hL l [] fuel s [Event.acquire Lock.lru] hfuel (by simpa using hne)
      (by simpa using hr) (by simpa using hal) (by simp)
  rw [select_victim_nonempty L fuel s h hh, hrun]
  have hb := visits_bound l (vis ++ [v]) hr.nodup (by simpa using hpre)
  have hpos : 1 ≤ l.length := List.length_pos.mpr hne
  exact ⟨v, vis ++ [v], rfl, by simpa using hv, rfl, hb.1, by have := hb.1; omega,
    hb.2.1, hb.2.2⟩

/-- Witness for C13 on the three-node demo ring. -/
theorem select_victim_terminates_witness :
    ∃ (v : Nat) (vis : List Nat),
      (select_victim xv6Layout 4 demoState3).out = Outcome.ok (some v) ∧
      v ∈ [1026, 1025, 1024] ∧
      (select_victim xv6Layout 4 demoState3).trace =
        [Event.acquire Lock.lru] ++ vis.map Event.visit ++ [Event.release Lock.lru] ∧
      vis.length ≤ [1026, 1025, 1024].length + 1 ∧
      vis.length ≤ 2 * [1026, 1025, 1024].length ∧
      (∀ c, vis.count c ≤ 2) ∧ (∀ c ∈ vis, c ∈ [1026, 1025, 1024]) :=
  select_victim_terminates xv6Layout xv6Layout_accessBitOK demoState3 [1026, 1025, 1024] 4
    ⟨by decide, by decide, by decide, by decide⟩ (by decide) (by decide) (by decide)

/-- C14: on a well-formed ring of `n ≥ 1` nodes with pairwise distinct
(aligned) page-table entries whose access bits are all set, one call of
`select_victim()` visits the `n` nodes in traversal order, clears the access
bit (and nothing else) in each of the `n` entries, comes back to the node that
was the head when the call began and returns it; the ring is as before. -/
theorem select_victim_all_set (L : Layout) (hL : L.AccessBitOK) (s : State)
    (h : Nat) (l : List Nat) (fuel : Nat)
    (hr : Ring s (h :: l)) (hal : SlotsAligned L s (h :: l))
    (hdist : SlotsDistinct L s (h :: l))
    (hacc : ∀ a ∈ h :: l, accessed L s a) (hfuel : (h :: l).length < fuel) :
    s.page_lru_head = some h ∧
    (select_victim L fuel s).out = Outcome.ok (some h) ∧
    (∀ a ∈ h :: l, ¬ accessed L (select_victim L fuel s).s a) ∧
    (∀ a ∈ h :: l,
      read32 (select_victim L fuel s).s.mem (pteAddr L s.mem (s.pages a))
        = read32 s.mem (pteAddr L s.mem (s.pages a)) &&& notA L) ∧
    (select_victim L fuel s).trace =
      [Event.acquire Lock.lru] ++ ((h :: l) ++ [h]).map Event.visit
        ++ [Event.release Lock.lru] ∧
    Ring (select_victim L fuel s).s (h :: l) ∧
    (select_victim L fuel s).s.pages = s.pages := by
  rw [select_victim_all_set_run L hL s h l fuel hr hal hdist hacc hfuel]
  have hpsal := slots_map_aligned L s (h :: l) (h :: l) hal (fun a ha => ha)
  have hpsnd := slots_map_nodup L s (h :: l) (h :: l) hdist (fun a ha => ha) hr.nodup
  have hrd : ∀ a ∈ h :: l,
      read32 (clearAll L s.mem ((h :: l).map fun c => pteAddr L s.mem (s.pages c)))
          (pteAddr L s.mem (s.pages a))
        = read32 s.mem (pteAddr L s.mem (s.pages a)) &&& notA L := fun a ha =>
    clearAll_read_mem L _ _ _ hpsal hpsnd (List.mem_map.mpr ⟨a, ha, rfl⟩)
  refine ⟨Ring.head_eq s h l hr, rfl, ?_, hrd, rfl, ?_, rfl⟩
  · intro a ha
    unfold accessed
    show ¬ (read32 (clearAll L s.mem ((h :: l).map fun c => pteAddr L s.mem (s.pages c)))
      (pteAddr L (clearAll L s.mem ((h :: l).map fun c => pteAddr L s.mem (s.pages c)))
        (s.pages a)) &&& L.PTE_A ≠ 0)
    rw [pteAddr_clearAll L hL (s.pages a) (hal a ha).1 _ _ hpsal, hrd a ha,
      land_notA_A L hL.1]
    simp
  · have := Ring.rotate s (h :: l) []
      (clearAll L s.mem ((h :: l).map fun c => pteAddr L s.mem (s.pages c)))
      (by simpa using hr)
    simpa using this

/-- Witness for C14, the instance of the spec: three registered frames with
all access bits set; the call clears the three bits and returns 1026, the
head, which is the frame registered last. -/
theorem select_victim_all_set_witness :
    demoSet3.page_lru_head = some 1026 ∧
    (select_victim xv6Layout 4 demoSet3).out = Outcome.ok (some 1026) ∧
    (∀ a ∈ [1026, 1025, 1024], ¬ accessed xv6Layout (select_victim xv6Layout 4 demoSet3).s a) :=
  have h := select_victim_all_set xv6Layout xv6Layout_accessBitOK demoSet3 1026 [1025, 1024] 4
    ⟨by decide, by decide, by decide, by decide⟩ (by decide) (by decide) (by decide)
    (by decide)
  ⟨h.1, h.2.1, h.2.2.1⟩

/-- C18: `select_victim` is idempotent.  On a well-formed non-empty ring
(entries aligned, any access bits) a first call with enough fuel returns a
victim `v`; a second call made at once on the resulting state returns the same
`v` after visiting only `v` and leaves that state completely unchanged. -/
theorem select_victim_idempotent (L : Layout) (hL : L.AccessBitOK) (s : State)
    (l : List Nat) (fuel fuel2 : Nat) (hr : Ring s l) (hne : l ≠ [])
    (hal : SlotsAligned L s l) (hfuel : l.length < fuel) :
    ∃ v, (select_victim L fuel s).out = Outcome.ok (some v) ∧
      (select_victim L (fuel2 + 1) (select_victim L fuel s).s).out = Outcome.ok (some v) ∧
      (select_victim L (fuel2 + 1) (select_victim L fuel s).s).s = (select_victim L fuel s).s ∧
      (select_victim L (fuel2 + 1) (select_victim L fuel s).s).trace =
        [Event.acquire Lock.lru, Event.visit v, Event.release Lock.lru] := by
  obtain ⟨h, hh⟩ : ∃ h, s.page_lru_head = some h := by
    rw [hr.head]
    cases l with
    | nil => exact absurd rfl hne
    | cons a _ => exact ⟨a, rfl⟩
  obtain ⟨vis, v, m', hrun, _, _, hclr⟩ :=
    sv_loop_visits L hL l [] fuel s [Event.acquire Lock.lru] hfuel (by simpa using hne)
      (by simpa using hr) (by simpa using hal) (by simp)
  rw [select_victim_nonempty L fuel s h hh, hrun]
  refine ⟨v, rfl, ?_⟩
  rw [select_victim_head_clear_run L fuel2 _ v rfl hclr]
  exact ⟨rfl, rfl, rfl⟩

/-- Witness for C18 on the three-node demo ring. -/
theorem select_victim_idempotent_witness :
    ∃ v, (select_victim xv6Layout 4 demoState3).out = Outcome.ok (some v) ∧
      (select_victim xv6Layout 1 (select_victim xv6Layout 4 demoState3).s).out
        = Outcome.ok (some v) ∧
      (select_victim xv6Layout 1 (select_victim xv6Layout 4 demoState3).s).s
        = (select_victim xv6Layout 4 demoState3).s ∧
      (select_victim xv6Layout 1 (select_victim xv6Layout 4 demoState3).s).trace =
        [Event.acquire Lock.lru, Event.visit v, Event.release Lock.lru] :=
  select_victim_idempotent xv6Layout xv6Layout_accessBitOK demoState3 [1026, 1025, 1024] 4 0
    ⟨by decide, by decide, by decide, by decide⟩ (by decide) (by decide) (by decide)

/-! ## Lock discipline of `kalloc` -/

theorem kmemReplay_append : ∀ (t1 t2 : List Event) (b : Bool),
    kmemReplay b (t1 ++ t2) = (kmemReplay b t1).bind (fun b' => kmemReplay b' t2)
  | [], t2, b => by simp [kmemReplay]
  | e :: t1, t2, b => by
    cases e with
    | acquire l =>
      cases l <;> cases b <;> simp [kmemReplay, kmemReplay_append t1 t2]
    | release l =>
      cases l <;> cases b <;> simp [kmemReplay, kmemReplay_append t1 t2]
    | swap_out => cases b <;> simp [kmemReplay, kmemReplay_append t1 t2]
    | cprintf m => simp [kmemReplay, kmemReplay_append t1 t2]
    | visit c => simp [kmemReplay, kmemReplay_append t1 t2]

theorem kmemReplay_pass (s : State) :
    kmemReplay false (kmemAcquire s ++ kmemRelease s) = some false := by
  unfold kmemAcquire kmemRelease
  by_cases h : s.use_lock = 0 <;> simp [h, kmemReplay]

theorem kmem_pass_counts (s : State) :
    (kmemAcquire s ++ kmemRelease s).count (Event.acquire Lock.kmem) =
      (kmemAcquire s ++ kmemRelease s).count (Event.release Lock.kmem) ∧
    Event.acquire Lock.lru ∉ kmemAcquire s ++ kmemRelease s ∧
    Event.release Lock.lru ∉ kmemAcquire s ++ kmemRelease s := by
  unfold kmemAcquire kmemRelease
  by_cases h : s.use_lock = 0 <;> simp [h]

theorem kalloc_loop_locks (swap_out : State → Int × State) :
    ∀ (fuel : Nat) (s : State) (tr : List Event),
      kmemReplay false tr = some false →
      tr.count (Event.acquire Lock.kmem) = tr.count (Event.release Lock.kmem) →
      Event.acquire Lock.lru ∉ tr → Event.release Lock.lru ∉ tr →
      kmemReplay false (kalloc_loop swap_out fuel s tr).trace = some false ∧
      (kalloc_loop swap_out fuel s tr).trace.count (Event.acquire Lock.kmem) =
        (kalloc_loop swap_out fuel s tr).trace.count (Event.release Lock.kmem) ∧
      Event.acquire Lock.lru ∉ (kalloc_loop swap_out fuel s tr).trace ∧
      Event.release Lock.lru ∉ (kalloc_loop swap_out fuel s tr).trace
  | 0, s, tr, h1, h2, h3, h4 => by
    simp only [kalloc_loop]
    exact ⟨h1, h2, h3, h4⟩
  | fuel + 1, s, tr, h1, h2, h3, h4 => by
    have hp := kmemReplay_pass s
    obtain ⟨c1, c2, c3⟩ := kmem_pass_counts s
    have hr : kmemReplay false (tr ++ kmemAcquire s ++ kmemRelease s) = some false := by
      rw [List.append_assoc, kmemReplay_append, h1]
      simpa using hp
    have hc : (tr ++ kmemAcquire s ++ kmemRelease s).count (Event.acquire Lock.kmem) =
        (tr ++ kmemAcquire s ++ kmemRelease s).count (Event.release Lock.kmem) := by
      simp only [List.count_append] at c1 ⊢
      omega
    have hn1 : Event.acquire Lock.lru ∉ tr ++ kmemAcquire s ++ kmemRelease s := by
      rw [List.append_assoc, List.mem_append]
      exact fun h => h.elim h3 c2
    have hn2 : Event.release Lock.lru ∉ tr ++ kmemAcquire s ++ kmemRelease s := by
      rw [List.append_assoc, List.mem_append]
      exact fun h => h.elim h4 c3
    by_cases hf : s.freelist = 0
    · have hr' : kmemReplay false (tr ++ kmemAcquire s ++ kmemRelease s ++ [Event.swap_out])
          = some false := by
        rw [kmemReplay_append, hr]; rfl
      have hc' : (tr ++ kmemAcquire s ++ kmemRelease s ++ [Event.swap_out]).count
            (Event.acquire Lock.kmem) =
          (tr ++ kmemAcquire s ++ kmemRelease s ++ [Event.swap_out]).count
            (Event.release Lock.kmem) := by
        have e1 : [Event.swap_out].count (Event.acquire Lock.kmem) = 0 := by decide
        have e2 : [Event.swap_out].count (Event.release Lock.kmem) = 0 := by decide
        simp only [List.count_append, e1, e2] at hc ⊢
        omega
      have hn1' : Event.acquire Lock.lru ∉
          tr ++ kmemAcquire s ++ kmemRelease s ++ [Event.swap_out] := by
        rw [List.mem_append]
        exact fun h => h.elim hn1 (by simp)
      have hn2' : Event.release Lock.lru ∉
          tr ++ kmemAcquire s ++ kmemRelease s ++ [Event.swap_out] := by
        rw [List.mem_append]
        exact fun h => h.elim hn2 (by simp)
      by_cases h0 : (swap_out s).1 = 0
      · rw [kalloc_loop_oom swap_out fuel s tr hf h0]
        refine ⟨?_, ?_, ?_, ?_⟩
        · show kmemReplay false (_ ++ [Event.cprintf "kalloc: out of memory\n"]) = some false
          rw [kmemReplay_append, hr']; rfl
        · show (_ ++ [Event.cprintf "kalloc: out of memory\n"]).count _ =
            (_ ++ [Event.cprintf "kalloc: out of memory\n"]).count _
          have e1 : [Event.cprintf "kalloc: out of memory\n"].count (Event.acquire Lock.kmem) = 0 := by
            decide
          have e2 : [Event.cprintf "kalloc: out of memory\n"].count (Event.release Lock.kmem) = 0 := by
            decide
          simp only [List.count_append, e1, e2] at hc' ⊢
          omega
        · show Event.acquire Lock.lru ∉ _ ++ [Event.cprintf "kalloc: out of memory\n"]
          rw [List.mem_append]
          exact fun h => h.elim hn1' (by simp)
        · show Event.release Lock.lru ∉ _ ++ [Event.cprintf "kalloc: out of memory\n"]
          rw [List.mem_append]
          exact fun h => h.elim hn2' (by simp)
      · rw [kalloc_loop_retry swap_out fuel s tr hf h0]
        exact kalloc_loop_locks swap_out fuel _ _ hr' hc' hn1' hn2'
    · rw [kalloc_loop_pop swap_out fuel s tr hf]
      exact ⟨hr, hc, hn1, hn2⟩

theorem kalloc_loop_locked_shape (swap_out : State → Int × State)
    (hmode : ∀ x, x.use_lock ≠ 0 → (swap_out x).2.use_lock ≠ 0) :
    ∀ (fuel : Nat) (s : State) (tr : List Event), s.use_lock ≠ 0 →
      ∃ (k : Nat) (fin : List Event),
        (kalloc_loop swap_out fuel s tr).trace =
          tr ++ (List.replicate k lockedPass).flatten ++ fin ∧
        ((∃ r, r ≠ 0 ∧ (kalloc_loop swap_out fuel s tr).out = Outcome.ok r ∧
            fin = [Event.acquire Lock.kmem, Event.release Lock.kmem]) ∨
          ((kalloc_loop swap_out fuel s tr).out = Outcome.ok 0 ∧ 0 < k ∧
            fin = [Event.cprintf "kalloc: out of memory\n"]) ∨
          ((kalloc_loop swap_out fuel s tr).out = Outcome.timeout ∧ k = fuel ∧ fin = []))
  | 0, s, tr, _ => ⟨0, [], by simp [kalloc_loop], Or.inr (Or.inr ⟨rfl, rfl, rfl⟩)⟩
  | fuel + 1, s, tr, hs => by
    have ha : kmemAcquire s = [Event.acquire Lock.kmem] := by simp [kmemAcquire, hs]
    have hr : kmemRelease s = [Event.release Lock.kmem] := by simp [kmemRelease, hs]
    by_cases hf : s.freelist = 0
    · by_cases h0 : (swap_out s).1 = 0
      · refine ⟨1, [Event.cprintf "kalloc: out of memory\n"], ?_, Or.inr (Or.inl ⟨?_, by decide, rfl⟩)⟩
        · rw [kalloc_loop_oom swap_out fuel s tr hf h0, ha, hr]
          simp [lockedPass]
        · rw [kalloc_loop_oom swap_out fuel s tr hf h0]
      · obtain ⟨k, fin, h1, h2⟩ := kalloc_loop_locked_shape swap_out hmode fuel (swap_out s).2
          (tr ++ kmemAcquire s ++ kmemRelease s ++ [Event.swap_out]) (hmode s hs)
        rw [kalloc_loop_retry swap_out fuel s tr hf h0]
        refine ⟨k + 1, fin, ?_, ?_⟩
        · rw [h1, ha, hr]
          simp [lockedPass, List.replicate_succ]
        · rcases h2 with h | h | h
          · exact Or.inl h
          · exact Or.inr (Or.inl ⟨h.1, by omega, h.2.2⟩)
          · exact Or.inr (Or.inr ⟨h.1, by omega, h.2.2⟩)
    · refine ⟨0, [Event.acquire Lock.kmem, Event.release Lock.kmem], ?_,
        Or.inl ⟨s.freelist, hf, ?_, rfl⟩⟩
      · rw [kalloc_loop_pop swap_out fuel s tr hf, ha, hr]
        simp
      · rw [kalloc_loop_pop swap_out fuel s tr hf]

/-- C17: `kalloc()` never holds the free-list lock while `swap_out` runs.
Replaying the trace of any run (any mode, any fuel, any eviction) from "lock
not held" succeeds and ends with the lock not held: no `swap_out` call happens
with the lock held, acquires and releases alternate and are equal in number,
and the ring lock is never touched.  In locked mode (an eviction that keeps
`use_lock` set) the trace is a number of passes "acquire, release, `swap_out`"
followed by "acquire, release" when a frame is returned, by the out-of-memory
message when null is returned after a failed `swap_out`, and by nothing when
the fuel ran out. -/
theorem kalloc_lock_discipline (swap_out : State → Int × State) (fuel : Nat) (s : State) :
    kmemReplay false (kalloc swap_out fuel s).trace = some false ∧
    (kalloc swap_out fuel s).trace.count (Event.acquire Lock.kmem) =
      (kalloc swap_out fuel s).trace.count (Event.release Lock.kmem) ∧
    Event.acquire Lock.lru ∉ (kalloc swap_out fuel s).trace ∧
    Event.release Lock.lru ∉ (kalloc swap_out fuel s).trace ∧
    ((∀ x, x.use_lock ≠ 0 → (swap_out x).2.use_lock ≠ 0) → s.use_lock ≠ 0 →
      ∃ (k : Nat) (fin : List Event),
        (kalloc swap_out fuel s).trace = (List.replicate k lockedPass).flatten ++ fin ∧
        ((∃ r, r ≠ 0 ∧ (kalloc swap_out fuel s).out = Outcome.ok r ∧
            fin = [Event.acquire Lock.kmem, Event.release Lock.kmem]) ∨
          ((kalloc swap_out fuel s).out = Outcome.ok 0 ∧ 0 < k ∧
            fin = [Event.cprintf "kalloc: out of memory\n"]) ∨
          ((kalloc swap_out fuel s).out = Outcome.timeout ∧ k = fuel ∧ fin = []))) := by
  obtain ⟨h1, h2, h3, h4⟩ :=
    kalloc_loop_locks swap_out fuel s [] rfl rfl (by simp) (by simp)
  refine ⟨h1, h2, h3, h4, ?_⟩
  intro hmode hs
  obtain ⟨k, fin, e, h⟩ := kalloc_loop_locked_shape swap_out hmode fuel s [] hs
  exact ⟨k, fin, by simpa using e, h⟩

/-- Witness for C17: in locked mode on the empty allocator, three passes with an
eviction that reports success but frees nothing. -/
theorem kalloc_lock_discipline_witness :
    ∃ (k : Nat) (fin : List Event),
      (kalloc uselessEvict 3 lockedEmpty).trace = (List.replicate k lockedPass).flatten ++ fin ∧
      ((∃ r, r ≠ 0 ∧ (kalloc uselessEvict 3 lockedEmpty).out = Outcome.ok r ∧
          fin = [Event.acquire Lock.kmem, Event.release Lock.kmem]) ∨
        ((kalloc uselessEvict 3 lockedEmpty).out = Outcome.ok 0 ∧ 0 < k ∧
          fin = [Event.cprintf "kalloc: out of memory\n"]) ∨
        ((kalloc uselessEvict 3 lockedEmpty).out = Outcome.timeout ∧ k = 3 ∧ fin = [])) :=
  (kalloc_lock_discipline uselessEvict 3 lockedEmpty).2.2.2.2 (fun _ h => h) (by decide)

/-! ## Register and deregister -/

theorem Page.eq_of_fields (p q : Page) (h1 : p.next = q.next) (h2 : p.prev = q.prev)
    (h3 : p.pgdir = q.pgdir) (h4 : p.vaddr = q.vaddr) : p = q := by
  cases p
  cases q
  simp only at h1 h2 h3 h4
  subst h1 h2 h3 h4
  rfl

/-- The links of the members of a ring are determined by its traversal. -/
theorem LinkRing_links_eq (pg pg' : Nat → Page) (l : List Nat)
    (h : LinkRing pg l) (h' : LinkRing pg' l) :
    ∀ c ∈ l, (pg c).next = (pg' c).next ∧ (pg c).prev = (pg' c).prev := by
  intro c hc
  obtain ⟨pre, post, rfl⟩ := List.append_of_mem hc
  have r : Linked pg c (post ++ pre) c := by
    have := (LinkRing_rotate pg pre (c :: post)).mp h
    simpa [LinkRing] using this
  have r' : Linked pg' c (post ++ pre) c := by
    have := (LinkRing_rotate pg' pre (c :: post)).mp h'
    simpa [LinkRing] using this
  exact ⟨by rw [Linked_head_next _ _ _ _ r, Linked_head_next _ _ _ _ r'],
    by rw [Linked_last_prev _ _ _ _ r, Linked_last_prev _ _ _ _ r']⟩

/-- C19: register followed by deregister is a round trip on the ring.  For a
well-formed ring and a frame `f` not in it, `kalloc_to_lru_list(pgdir, f, va)`
followed by `kfree_from_lru_list(f)` ends normally and restores the head, the
count and the whole descriptor (links and owner fields) of every frame other
than `f`; the descriptor of `f` is left with null owner, address and links;
the ring has its old traversal and memory and the free list are untouched. -/
theorem lru_register_deregister (L : Layout) (s : State) (pgdir pa va : Nat)
    (l : List Nat) (hr : Ring s l) (hin : pageIndex L pa < NPAGES L)
    (hnot : pageIndex L pa ∉ l) :
    (kalloc_to_lru_list L s pgdir pa va).out = Outcome.ok () ∧
    (kfree_from_lru_list L (kalloc_to_lru_list L s pgdir pa va).s pa).out = Outcome.ok () ∧
    (kfree_from_lru_list L (kalloc_to_lru_list L s pgdir pa va).s pa).s.page_lru_head
      = s.page_lru_head ∧
    (kfree_from_lru_list L (kalloc_to_lru_list L s pgdir pa va).s pa).s.num_lru_pages
      = s.num_lru_pages ∧
    (∀ c, c ≠ pageIndex L pa →
      (kfree_from_lru_list L (kalloc_to_lru_list L s pgdir pa va).s pa).s.pages c
        = s.pages c) ∧
    (kfree_from_lru_list L (kalloc_to_lru_list L s pgdir pa va).s pa).s.pages (pageIndex L pa)
      = ⟨none, none, 0, 0⟩ ∧
    Ring (kfree_from_lru_list L (kalloc_to_lru_list L s pgdir pa va).s pa).s l ∧
    (kfree_from_lru_list L (kalloc_to_lru_list L s pgdir pa va).s pa).s.mem = s.mem ∧
    (kfree_from_lru_list L (kalloc_to_lru_list L s pgdir pa va).s pa).s.freelist
      = s.freelist ∧
    (kfree_from_lru_list L (kalloc_to_lru_list L s pgdir pa va).s pa).s.num_free_pages
      = s.num_free_pages := by
  obtain ⟨s1, a0, a1, a2, a3, _, a5, _, _, a8, a9⟩ :=
    kalloc_to_lru_list_ok L s pgdir pa va l hr hin hnot
  rw [a0]
  obtain ⟨s2, b0, b1, b2, _, _, _, _, b7, b8, _, b10, b11, b12⟩ :=
    kfree_from_lru_list_ok L s1 pa (pageIndex L pa :: l) a1 hin (by simp)
  show _ ∧ (kfree_from_lru_list L s1 pa).out = _ ∧ _
  rw [b0]
  rw [List.erase_cons_head] at b1
  have hlinks := LinkRing_links_eq s2.pages s.pages l b1.links hr.links
  refine ⟨rfl, rfl, ?_, ?_, ?_, b2, b1, ?_, ?_, ?_⟩
  · show s2.page_lru_head = s.page_lru_head
    rw [b1.head, hr.head]
  · show s2.num_lru_pages = s.num_lru_pages
    rw [b1.count, hr.count]
  · intro c hc
    show s2.pages c = s.pages c
    by_cases hcl : c ∈ l
    · exact Page.eq_of_fields _ _ (hlinks c hcl).1 (hlinks c hcl).2
        (by rw [(b11 c hc).1, (a8 c hc).1]) (by rw [(b11 c hc).2, (a8 c hc).2])
    · have hc' : c ∉ pageIndex L pa :: l := by
        simp only [List.mem_cons, not_or]
        exact ⟨hc, hcl⟩
      rw [b12 c hc', a9 c hc' hc]
  · show s2.mem = s.mem
    rw [b7, a2]
  · show s2.freelist = s.freelist
    rw [b8, a3]
  · show s2.num_free_pages = s.num_free_pages
    rw [b10, a5]

/-- Witness for C19: registering and deregistering the frame `0x80402000` on
the two-node demo ring. -/
theorem lru_register_deregister_witness :
    (kfree_from_lru_list xv6Layout
      (kalloc_to_lru_list xv6Layout demoState2 0x80500000 0x80402000 0x3000).s
      0x80402000).s.page_lru_head = demoState2.page_lru_head ∧
    Ring (kfree_from_lru_list xv6Layout
      (kalloc_to_lru_list xv6Layout demoState2 0x80500000 0x80402000 0x3000).s
      0x80402000).s [1025, 1024] :=
  have h := lru_register_deregister xv6Layout demoState2 0x80500000 0x80402000 0x3000
    [1025, 1024] ⟨by decide, by decide, by decide, by decide⟩ (by decide) (by decide)
  ⟨h.2.2.1, h.2.2.2.2.2.2.1⟩

/-! ## The two implementations of ring removal -/

/-- What a member `f` of a well-formed ring looks like: either it is alone and
linked to itself, or its neighbours are other nodes and the count is above 1. -/
theorem ring_member_facts (s : State) (f : Nat) (l : List Nat) (hr : Ring s l) (hf : f ∈ l) :
    (l = [f] ∧ (s.pages f).next = some f ∧ (s.pages f).prev = some f ∧
      s.page_lru_head = some f ∧ s.num_lru_pages = 1) ∨
    (∃ y z, (s.pages f).next = some y ∧ (s.pages f).prev = some z ∧ y ≠ f ∧ z ≠ f ∧
      1 < s.num_lru_pages) := by
  obtain ⟨pre, post, rfl⟩ := List.append_of_mem hf
  have hnd := hr.nodup
  have hcount := hr.count
  have hrot : LinkRing s.pages (f :: post ++ pre) :=
    (LinkRing_rotate s.pages pre (f :: post)).mp hr.links
  have hnd' : (f :: (post ++ pre)).Nodup := by
    have := List.nodup_append_comm.mp hnd
    simpa using this
  have hlk : Linked s.pages f (post ++ pre) f := by simpa [LinkRing] using hrot
  by_cases hm : post ++ pre = []
  · have hpost : post = [] := (List.append_eq_nil.mp hm).1
    have hpre : pre = [] := (List.append_eq_nil.mp hm).2
    subst hpost hpre
    left
    simp only [List.append_nil, Linked] at hlk
    refine ⟨rfl, hlk.1, hlk.2, by simpa using hr.head, by simpa using hcount⟩
  · right
    obtain ⟨y, hy⟩ : ∃ y, (post ++ pre).head? = some y := by
      cases h : post ++ pre with
      | nil => exact absurd h hm
      | cons y _ => exact ⟨y, rfl⟩
    obtain ⟨z, hz⟩ : ∃ z, (post ++ pre).getLast? = some z := by
      obtain ⟨mid, z, h⟩ := list_snoc_cases _ hm
      exact ⟨z, by rw [h, List.getLast?_concat]⟩
    have hfn : (s.pages f).next = some y := by
      rw [Linked_head_next _ _ _ _ hlk, List.head?_append, hy]; rfl
    have hfp : (s.pages f).prev = some z := by
      rw [Linked_last_prev _ _ _ _ hlk]
      cases h : post ++ pre with
      | nil => exact absurd h hm
      | cons a b => rw [List.getLast?_cons_cons, ← h, hz]
    have hym : y ∈ post ++ pre := List.mem_of_mem_head? hy
    have hzm : z ∈ post ++ pre := List.mem_of_mem_getLast? hz
    refine ⟨y, z, hfn, hfp, ?_, ?_, ?_⟩
    · rintro rfl; exact (List.nodup_cons.mp hnd').1 hym
    · rintro rfl; exact (List.nodup_cons.mp hnd').1 hzm
    · rw [hcount]
      have : 1 ≤ (post ++ pre).length := List.length_pos.mpr hm
      simp only [List.length_append, List.length_cons] at this ⊢
      push_cast
      omega

theorem State.ext_fields (a b : State) (h1 : a.mem = b.mem) (h2 : a.use_lock = b.use_lock)
    (h3 : a.freelist = b.freelist) (h4 : a.pages = b.pages)
    (h5 : a.page_lru_head = b.page_lru_head) (h6 : a.num_free_pages = b.num_free_pages)
    (h7 : a.num_lru_pages = b.num_lru_pages) : a = b := by
  cases a
  cases b
  simp only at h1 h2 h3 h4 h5 h6 h7
  subst h1 h2 h3 h4 h5 h6 h7
  rfl

theorem kfree_from_lru_list_agree (L : Layout) (s : State) (v : Nat) (l : List Nat)
    (hr : Ring s l) (hin : pageIndex L v < NPAGES L) (hmem : pageIndex L v ∈ l) :
    kfree_from_lru_list L s v = ys.kfree_from_lru_list L s v := by
  rcases ring_member_facts s _ l hr hmem with ⟨_, hfn, hfp, hh, hc⟩ | ⟨y, z, hfn, hfp, hyf, hzf, hc⟩
  · simp [kfree_from_lru_list, ys.kfree_from_lru_list, del_page_from_lru, not_le.mpr hin,
      hfn, hfp, hh, hc]
  · have hc1 : s.num_lru_pages ≠ 1 := by omega
    have hfy : pageIndex L v ≠ y := fun e => hyf e.symm
    have hfz : pageIndex L v ≠ z := fun e => hzf e.symm
    by_cases hh : s.page_lru_head = some (pageIndex L v)
    · simp only [kfree_from_lru_list, ys.kfree_from_lru_list, del_page_from_lru,
        not_le.mpr hin, if_false, setVaddr_head, setPgdir_head, hh, if_true, setVaddr_next,
        setPgdir_next, hfn, setVaddr_count, setPgdir_count, hc1, hc, setVaddr_prev,
        setPgdir_prev, hfp, setPrev_prev, setPrev_next, setNext_next, setNext_prev,
        Option.some.injEq, hyf, hzf, hfy, hfz, or_self, gt_iff_lt, Option.map_some']
      congr 1
      apply State.ext_fields <;> try rfl
      funext i
      apply Page.eq_of_fields <;> simp
    · have hh' : ¬ (some (pageIndex L v) = s.page_lru_head) := fun e => hh e.symm
      simp only [kfree_from_lru_list, ys.kfree_from_lru_list, del_page_from_lru,
        not_le.mpr hin, if_false, setVaddr_head, setPgdir_head, hh', setVaddr_next,
        setPgdir_next, hfn, setVaddr_count, setPgdir_count, hc1, hc, setVaddr_prev,
        setPgdir_prev, hfp, setPrev_prev, setPrev_next, setNext_next, setNext_prev,
        Option.some.injEq, hyf, hzf, hfy, hfz, or_self, gt_iff_lt, Option.map_some']
      congr 1
      apply State.ext_fields <;> try rfl
      funext i
      apply Page.eq_of_fields <;> simp

/-- C20: the two implementations of ring removal agree on well-formed states.
For a well-formed ring and a frame `f` in it, `kfree_from_lru_list` of
`kalloc.c` and of `kalloc_ys.c` both end normally and produce the same result:
the same state (head, count, every field of every descriptor, memory, free
list) and the same trace. -/
theorem lru_removals_agree (L : Layout) (s : State) (v : Nat) (l : List Nat)
    (hr : Ring s l) (hin : pageIndex L v < NPAGES L) (hmem : pageIndex L v ∈ l) :
    (kfree_from_lru_list L s v).out = Outcome.ok () ∧
    (ys.kfree_from_lru_list L s v).out = Outcome.ok () ∧
    kfree_from_lru_list L s v = ys.kfree_from_lru_list L s v ∧
    (kfree_from_lru_list L s v).s = (ys.kfree_from_lru_list L s v).s ∧
    (kfree_from_lru_list L s v).s.page_lru_head
      = (ys.kfree_from_lru_list L s v).s.page_lru_head ∧
    (kfree_from_lru_list L s v).s.num_lru_pages
      = (ys.kfree_from_lru_list L s v).s.num_lru_pages ∧
    (∀ c, (kfree_from_lru_list L s v).s.pages c = (ys.kfree_from_lru_list L s v).s.pages c) := by
  have h := kfree_from_lru_list_agree L s v l hr hin hmem
  obtain ⟨s', h0, _⟩ := kfree_from_lru_list_ok L s v l hr hin hmem
  rw [← h]
  rw [h0]
  exact ⟨rfl, rfl, rfl, rfl, rfl, rfl, fun _ => rfl⟩

/-- Witness for C20: removing the head, the middle node and the tail of the
three-node demo ring. -/
theorem lru_removals_agree_witness :
    kfree_from_lru_list xv6Layout demoState3 0x80402000
      = ys.kfree_from_lru_list xv6Layout demoState3 0x80402000 ∧
    kfree_from_lru_list xv6Layout demoState3 0x80401000
      = ys.kfree_from_lru_list xv6Layout demoState3 0x80401000 ∧
    kfree_from_lru_list xv6Layout demoClear1 0x80401000
      = ys.kfree_from_lru_list xv6Layout demoClear1 0x80401000 :=
  ⟨(lru_removals_agree xv6Layout demoState3 0x80402000 [1026, 1025, 1024]
      ⟨by decide, by decide, by decide, by decide⟩ (by decide) (by decide)).2.2.1,
   (lru_removals_agree xv6Layout demoState3 0x80401000 [1026, 1025, 1024]
      ⟨by decide, by decide, by decide, by decide⟩ (by decide) (by decide)).2.2.1,
   (lru_removals_agree xv6Layout demoClear1 0x80401000 [1025]
      ⟨by decide, by decide, by decide, by decide⟩ (by decide) (by decide)).2.2.1⟩

/-! ## Well-formedness: the list view and the words of the specification -/

theorem iterNext_succ (pg : Nat → Page) (k x y : Nat) (h : (pg x).next = some y) :
    iterNext pg (k + 1) x = iterNext pg k y := by
  simp [iterNext, h]

theorem iterNext_succ_right (pg : Nat → Page) :
    ∀ (k h x y : Nat), iterNext pg k h = some x → (pg x).next = some y →
      iterNext pg (k + 1) h = some y
  | 0, h, x, y, h1, h2 => by
    have : h = x := by simpa [iterNext] using h1
    subst this
    simp [iterNext, h2]
  | k + 1, h, x, y, h1, h2 => by
    cases hn : (pg h).next with
    | none => simp [iterNext, hn] at h1
    | some z =>
      rw [iterNext_succ pg k h z hn] at h1
      rw [iterNext_succ pg (k + 1) h z hn]
      exact iterNext_succ_right pg k z x y h1 h2

theorem Linked_iterNext (pg : Nat → Page) :
    ∀ (m : List Nat) (x y k : Nat), Linked pg x m y → k ≤ m.length + 1 →
      iterNext pg k x = (x :: (m ++ [y]))[k]?
  | [], x, y, k, h, hk => by
    simp only [Linked] at h
    cases k with
    | zero => simp [iterNext]
    | succ k =>
      have : k = 0 := by simpa using hk
      subst this
      simp [iterNext, h.1]
  | z :: m, x, y, k, h, hk => by
    simp only [Linked] at h
    cases k with
    | zero => simp [iterNext]
    | succ k =>
      rw [iterNext_succ pg k x z h.1,
        Linked_iterNext pg m z y k h.2.2 (by simpa using hk)]
      simp

/-- In a ring every member has a successor in the ring, of which it is the
`prev`. -/
theorem member_next (pg : Nat → Page) (l : List Nat) (h : LinkRing pg l) (u : Nat)
    (hu : u ∈ l) : ∃ v ∈ l, (pg u).next = some v ∧ (pg v).prev = some u := by
  obtain ⟨pre, post, rfl⟩ := List.append_of_mem hu
  have r : Linked pg u (post ++ pre) u := by
    have := (LinkRing_rotate pg pre (u :: post)).mp h
    simpa [LinkRing] using this
  obtain ⟨v, hv⟩ : ∃ v, ((post ++ pre) ++ [u]).head? = some v := by
    cases h : (post ++ pre) ++ [u] with
    | nil => simp at h
    | cons v _ => exact ⟨v, rfl⟩
  refine ⟨v, ?_, by rw [Linked_head_next _ _ _ _ r, hv], Linked_head_prev _ _ _ _ v r hv⟩
  have := List.mem_of_mem_head? hv
  simp at this ⊢
  tauto

/-- In a ring every member has a predecessor in the ring, of which it is the
`next`. -/
theorem member_prev (pg : Nat → Page) (l : List Nat) (h : LinkRing pg l) (u : Nat)
    (hu : u ∈ l) : ∃ w ∈ l, (pg u).prev = some w ∧ (pg w).next = some u := by
  obtain ⟨pre, post, rfl⟩ := List.append_of_mem hu
  have r : Linked pg u (post ++ pre) u := by
    have := (LinkRing_rotate pg pre (u :: post)).mp h
    simpa [LinkRing] using this
  obtain ⟨w, hw⟩ : ∃ w, (u :: (post ++ pre)).getLast? = some w := by
    obtain ⟨mid, w, e⟩ := list_snoc_cases (u :: (post ++ pre)) (by simp)
    exact ⟨w, by rw [e, List.getLast?_concat]⟩
  refine ⟨w, ?_, by rw [Linked_last_prev _ _ _ _ r, hw], Linked_last_next _ _ _ _ w r hw⟩
  have := List.mem_of_mem_getLast? hw
  simp at this ⊢
  tauto

theorem iterNext_mem (pg : Nat → Page) (l : List Nat) (h : LinkRing pg l) :
    ∀ (k u x : Nat), u ∈ l → iterNext pg k u = some x → x ∈ l
  | 0, u, x, hu, hx => by
    have : u = x := by simpa [iterNext] using hx
    rw [← this]; exact hu
  | k + 1, u, x, hu, hx => by
    obtain ⟨v, hv, hn, _⟩ := member_next pg l h u hu
    rw [iterNext_succ pg k u v hn] at hx
    exact iterNext_mem pg l h k v x hv hx

theorem Ring.iterNext_head (s : State) (h : Nat) (rest : List Nat) (hr : Ring s (h :: rest))
    (i : Nat) (hi : i < (h :: rest).length) :
    iterNext s.pages i h = (h :: rest)[i]? := by
  have hl : Linked s.pages h rest h := hr.links
  rw [Linked_iterNext s.pages rest h h i hl (by simp at hi ⊢; omega)]
  rw [← List.cons_append, List.getElem?_append_left hi]

/-- The members of a well-formed ring are exactly the nodes of its traversal. -/
theorem Ring.inRing_iff (s : State) (l : List Nat) (hr : Ring s l) (x : Nat) :
    InRing s x ↔ x ∈ l := by
  constructor
  · rintro ⟨h, k, hh, hk⟩
    have hhl : h ∈ l := by
      rw [hr.head] at hh
      exact List.mem_of_mem_head? hh
    exact iterNext_mem s.pages l hr.links k h x hhl hk
  · intro hx
    cases l with
    | nil => simp at hx
    | cons h rest =>
      obtain ⟨i, hi⟩ := List.mem_iff_getElem?.mp hx
      have hil : i < (h :: rest).length := by
        by_contra hc
        rw [List.getElem?_eq_none (by omega)] at hi
        simp at hi
      exact ⟨h, i, Ring.head_eq s h rest hr, by rw [Ring.iterNext_head s h rest hr i hil, hi]⟩

theorem Ring.toSpec (s : State) (l : List Nat) (hr : Ring s l) : WellFormedSpec s := by
  have hcount := hr.count
  have htoNat : s.num_lru_pages.toNat = l.length := by rw [hcount]; simp
  refine ⟨by rw [hcount]; simp, ?_, ?_, ?_, ?_, ?_, ?_⟩
  · intro h0
    have : l = [] := by
      apply List.eq_nil_of_length_eq_zero
      rw [hcount] at h0
      exact_mod_cast h0
    rw [hr.head, this]; rfl
  · intro h1
    have hlen : l.length = 1 := by
      rw [hcount] at h1
      exact_mod_cast h1
    obtain ⟨a, rfl⟩ := List.length_eq_one.mp hlen
    have := hr.links
    simp only [LinkRing, Linked] at this
    exact ⟨a, Ring.head_eq s a [] hr, this.1, this.2⟩
  · intro h2
    cases l with
    | nil => rw [hcount] at h2; simp at h2
    | cons h rest => exact ⟨h, Ring.head_eq s h rest hr⟩
  · intro _ x hx
    have hxl : x ∈ l := (Ring.inRing_iff s l hr x).mp hx
    obtain ⟨pre, post, rfl⟩ := List.append_of_mem hxl
    have r : Linked s.pages x (post ++ pre) x := by
      have := (LinkRing_rotate s.pages pre (x :: post)).mp hr.links
      simpa [LinkRing] using this
    have hnd : (x :: (post ++ pre)).Nodup := by
      have := List.nodup_append_comm.mp hr.nodup
      simpa using this
    have hn : s.num_lru_pages.toNat = (post ++ pre).length + 1 := by
      rw [htoNat]; simp only [List.length_append, List.length_cons]; omega
    rw [hn]
    refine ⟨?_, ?_⟩
    · rw [Linked_iterNext s.pages _ x x _ r (le_refl _), List.getElem?_cons_succ,
        List.getElem?_concat_length]
    · intro k hk0 hk
      obtain ⟨j, rfl⟩ : ∃ j, k = j + 1 := ⟨k - 1, by omega⟩
      rw [Linked_iterNext s.pages _ x x _ r (by omega), List.getElem?_cons_succ,
        List.getElem?_append_left (by omega)]
      intro e
      have : x ∈ post ++ pre := List.mem_iff_getElem?.mpr ⟨j, e⟩
      exact (List.nodup_cons.mp hnd).1 this
  · intro _ x y hx hy
    have hxl : x ∈ l := (Ring.inRing_iff s l hr x).mp hx
    have hyl : y ∈ l := (Ring.inRing_iff s l hr y).mp hy
    constructor
    · intro hn
      obtain ⟨v, _, h1, h2⟩ := member_next s.pages l hr.links x hxl
      rw [hn] at h1
      rw [Option.some.inj h1]
      exact h2
    · intro hp
      obtain ⟨w, _, h1, h2⟩ := member_prev s.pages l hr.links y hyl
      rw [hp] at h1
      rw [Option.some.inj h1]
      exact h2
  · intro h hh i j hij hj
    rw [htoNat] at hj
    cases l with
    | nil => simp at hj
    | cons h' rest =>
      have : h = h' := by
        have := Ring.head_eq s h' rest hr
        rw [hh] at this
        exact Option.some.inj this
      subst this
      rw [Ring.iterNext_head s h rest hr i (by omega), Ring.iterNext_head s h rest hr j hj]
      exact List.nodup_iff_getElem?_ne_getElem?.mp hr.nodup i j hij hj

theorem InRing.next (s : State) (x y : Nat) (hx : InRing s x)
    (hn : (s.pages x).next = some y) : InRing s y := by
  obtain ⟨h, k, hh, hk⟩ := hx
  exact ⟨h, k + 1, hh, iterNext_succ_right s.pages k h x y hk hn⟩

/-- A `next` path of `k + 1` steps inside a set of nodes closed under `next`,
on which `prev` inverts `next`, is a doubly linked path. -/
theorem path_of_iter (pg : Nat → Page) (P : Nat → Prop)
    (hclosed : ∀ x y, P x → (pg x).next = some y → P y ∧ (pg y).prev = some x) :
    ∀ (k x y : Nat), P x → iterNext pg (k + 1) x = some y →
      ∃ m : List Nat, m.length = k ∧ Linked pg x m y ∧
        ∀ i, i < k → m[i]? = iterNext pg (i + 1) x
  | 0, x, y, hx, h => by
    cases hn : (pg x).next with
    | none => simp [iterNext, hn] at h
    | some z =>
      rw [iterNext_succ pg 0 x z hn] at h
      have : z = y := by simpa [iterNext] using h
      subst this
      exact ⟨[], rfl, ⟨hn, (hclosed x z hx hn).2⟩, by intro i hi; omega⟩
  | k + 1, x, y, hx, h => by
    cases hn : (pg x).next with
    | none => simp [iterNext, hn] at h
    | some z =>
      rw [iterNext_succ pg (k + 1) x z hn] at h
      obtain ⟨m, hm1, hm2, hm3⟩ := path_of_iter pg P hclosed k z y (hclosed x z hx hn).1 h
      refine ⟨z :: m, by simp [hm1], ⟨hn, (hclosed x z hx hn).2, hm2⟩, ?_⟩
      intro i hi
      cases i with
      | zero => simp [iterNext, hn]
      | succ i =>
        rw [List.getElem?_cons_succ, hm3 i (by omega), iterNext_succ pg (i + 1) x z hn]

theorem WellFormedSpec.toRing (s : State) (hw : WellFormedSpec s) : ∃ l, Ring s l := by
  obtain ⟨n, hn⟩ : ∃ n : Nat, s.num_lru_pages = n :=
    ⟨s.num_lru_pages.toNat, (Int.toNat_of_nonneg hw.nonneg).symm⟩
  have htoNat : s.num_lru_pages.toNat = n := by rw [hn]; simp
  rcases Nat.lt_or_ge n 2 with hlt | hge
  · rcases Nat.eq_zero_or_pos n with h0 | hpos
    · subst h0
      exact ⟨[], ⟨by rw [hw.empty (by simpa using hn)]; rfl, by simpa using hn, by simp,
        trivial⟩⟩
    · have h1 : n = 1 := by omega
      subst h1
      obtain ⟨a, ha, han, hap⟩ := hw.single (by simpa using hn)
      exact ⟨[a], ⟨by rw [ha]; rfl, by simpa using hn, by simp, ⟨han, hap⟩⟩⟩
  · have h2 : 2 ≤ s.num_lru_pages := by rw [hn]; exact_mod_cast hge
    obtain ⟨h, hh⟩ := hw.headed h2
    have hin : InRing s h := ⟨h, 0, hh, rfl⟩
    have hcyc := (hw.cycle h2 h hin).1
    rw [htoNat] at hcyc
    obtain ⟨k, rfl⟩ : ∃ k, n = k + 1 := ⟨n - 1, by omega⟩
    have hclosed : ∀ x y, InRing s x → (s.pages x).next = some y →
        InRing s y ∧ (s.pages y).prev = some x := by
      intro x y hx hxy
      have hy := InRing.next s x y hx hxy
      exact ⟨hy, (hw.inverse h2 x y hx hy).mp hxy⟩
    obtain ⟨m, hm1, hm2, hm3⟩ := path_of_iter s.pages (InRing s) hclosed k h h hin hcyc
    refine ⟨h :: m, ⟨by rw [hh]; rfl, by rw [hn]; simp [hm1], ?_, hm2⟩⟩
    rw [List.nodup_iff_getElem?_ne_getElem?]
    intro i j hij hj
    have hj' : j < k + 1 := by simpa [hm1] using hj
    have key : ∀ t, t < k + 1 → (h :: m)[t]? = iterNext s.pages t h := by
      intro t ht
      cases t with
      | zero => simp [iterNext]
      | succ t => rw [List.getElem?_cons_succ, hm3 t (by omega)]
    rw [key i (by omega), key j hj']
    exact hw.once h hh i j hij (by rw [htoNat]; exact hj')

/-- The list view of well-formedness and the wording of the specification
describe the same states. -/
theorem wellFormed_iff_spec (s : State) : WellFormed s ↔ WellFormedSpec s :=
  ⟨fun ⟨l, hr⟩ => Ring.toSpec s l hr, WellFormedSpec.toRing s⟩

/-- Every state the loop of `select_victim` can end in, whatever the fuel and
the memory, holds the same ring rotated: the scan only moves the head. -/
theorem sv_loop_ring (L : Layout) :
    ∀ (fuel : Nat) (s : State) (l : List Nat) (tr : List Event),
      Ring s l → l ≠ [] →
      ∃ l', Ring (select_victim_loop L fuel s s.page_lru_head tr).s l' ∧ l'.Perm l ∧
        (select_victim_loop L fuel s s.page_lru_head tr).s.pages = s.pages ∧
        (select_victim_loop L fuel s s.page_lru_head tr).s.freelist = s.freelist ∧
        (select_victim_loop L fuel s s.page_lru_head tr).s.num_free_pages = s.num_free_pages ∧
        (select_victim_loop L fuel s s.page_lru_head tr).s.use_lock = s.use_lock
  | 0, s, l, tr, hr, _ => ⟨l, by simpa [select_victim_loop] using hr, List.Perm.refl l,
      by simp [select_victim_loop], by simp [select_victim_loop],
      by simp [select_victim_loop], by simp [select_victim_loop]⟩
  | fuel + 1, s, l, tr, hr, hne => by
    cases l with
    | nil => exact absurd rfl hne
    | cons a rest =>
      have hh : s.page_lru_head = some a := Ring.head_eq s a rest hr
      by_cases hacc : accessed L s a
      · rw [hh, sv_step_set L fuel s a tr hh hacc]
        have hr1 := Ring_stepSet L s a rest hr
        obtain ⟨l', h1, h2, h3, h4, h5, h6⟩ :=
          sv_loop_ring L fuel (stepSet L s a) (rest ++ [a]) (tr ++ [Event.visit a]) hr1
            (by simp)
        have hnext : (s.pages a).next = (stepSet L s a).page_lru_head := rfl
        rw [hnext]
        exact ⟨l', h1, h2.trans (List.perm_append_comm.trans (List.Perm.refl _)), h3, h4, h5, h6⟩
      · rw [hh, sv_step_clear L fuel s a tr hacc]
        exact ⟨a :: rest, hr, List.Perm.refl _, rfl, rfl, rfl, rfl⟩

theorem select_victim_ring (L : Layout) (fuel : Nat) (s : State) (l : List Nat)
    (hr : Ring s l) :
    ∃ l', Ring (select_victim L fuel s).s l' ∧ l'.Perm l ∧
      (select_victim L fuel s).s.pages = s.pages ∧
      (select_victim L fuel s).s.freelist = s.freelist ∧
      (select_victim L fuel s).s.num_free_pages = s.num_free_pages ∧
      (select_victim L fuel s).s.use_lock = s.use_lock := by
  cases l with
  | nil =>
    have hh : s.page_lru_head = none := by simpa using hr.head
    refine ⟨[], ?_, List.Perm.refl _, ?_, ?_, ?_, ?_⟩ <;> simp [select_victim, hh, hr]
  | cons a rest =>
    rw [select_victim_nonempty L fuel s a (Ring.head_eq s a rest hr)]
    exact sv_loop_ring L fuel s (a :: rest) _ hr (by simp)

/-- C11: ring well-formedness, in the words of the specification
(`WellFormedSpec`), is an invariant of the LRU operations.  It holds of every
state with a null head and count 0 (the initial state); it is preserved by
`kalloc_to_lru_list` of a frame not in the ring and by `kfree_from_lru_list`
of a frame in the ring, both of which end normally, and by `select_victim`
whatever the fuel and the access bits.  A state is well formed in this sense
exactly when its ring has a traversal list (`WellFormed`). -/
theorem ring_wellformed_invariant (L : Layout) :
    (∀ s : State, s.page_lru_head = none → s.num_lru_pages = 0 → WellFormedSpec s) ∧
    (∀ (s : State) (pgdir pa va : Nat), WellFormedSpec s → pageIndex L pa < NPAGES L →
      ¬ InRing s (pageIndex L pa) →
      (kalloc_to_lru_list L s pgdir pa va).out = Outcome.ok () ∧
      WellFormedSpec (kalloc_to_lru_list L s pgdir pa va).s) ∧
    (∀ (s : State) (v : Nat), WellFormedSpec s → pageIndex L v < NPAGES L →
      InRing s (pageIndex L v) →
      (kfree_from_lru_list L s v).out = Outcome.ok () ∧
      WellFormedSpec (kfree_from_lru_list L s v).s) ∧
    (∀ (s : State) (fuel : Nat), WellFormedSpec s →
      WellFormedSpec (select_victim L fuel s).s) ∧
    (∀ s : State, WellFormedSpec s ↔ WellFormed s) := by
  refine ⟨?_, ?_, ?_, ?_, fun s => (wellFormed_iff_spec s).symm⟩
  · intro s hh hc
    exact Ring.toSpec s [] ⟨by rw [hh]; rfl, by rw [hc]; rfl, by simp, trivial⟩
  · intro s pgdir pa va hw hin hnot
    obtain ⟨l, hr⟩ := WellFormedSpec.toRing s hw
    have hnl : pageIndex L pa ∉ l := fun h => hnot ((Ring.inRing_iff s l hr _).mpr h)
    obtain ⟨s', h0, h1, _⟩ := kalloc_to_lru_list_ok L s pgdir pa va l hr hin hnl
    rw [h0]
    exact ⟨rfl, Ring.toSpec s' _ h1⟩
  · intro s v hw hin hmem
    obtain ⟨l, hr⟩ := WellFormedSpec.toRing s hw
    have hml : pageIndex L v ∈ l := (Ring.inRing_iff s l hr _).mp hmem
    obtain ⟨s', h0, h1, _⟩ := kfree_from_lru_list_ok L s v l hr hin hml
    rw [h0]
    exact ⟨rfl, Ring.toSpec s' _ h1⟩
  · intro s fuel hw
    obtain ⟨l, hr⟩ := WellFormedSpec.toRing s hw
    obtain ⟨l', h1, _⟩ := select_victim_ring L fuel s l hr
    exact Ring.toSpec _ l' h1

/-- Witness for C11: the empty allocator is well formed; registering a third
frame on the two-node demo ring, deregistering the middle frame of the
three-node demo ring, and a victim search on it keep the ring well formed. -/
theorem ring_wellformed_invariant_witness :
    WellFormedSpec emptyState ∧
    WellFormedSpec (kalloc_to_lru_list xv6Layout demoState2 0x80500000 0x80402000 0x3000).s ∧
    WellFormedSpec (kfree_from_lru_list xv6Layout demoState3 0x80401000).s ∧
    WellFormedSpec (select_victim xv6Layout 4 demoState3).s :=
  have r2 : Ring demoState2 [1025, 1024] := ⟨by decide, by decide, by decide, by decide⟩
  have r3 : Ring demoState3 [1026, 1025, 1024] := ⟨by decide, by decide, by decide, by decide⟩
  ⟨(ring_wellformed_invariant xv6Layout).1 emptyState rfl rfl,
   ((ring_wellformed_invariant xv6Layout).2.1 demoState2 0x80500000 0x80402000 0x3000
      (Ring.toSpec _ _ r2) (by decide)
      (fun h => absurd ((Ring.inRing_iff _ _ r2 _).mp h) (by decide))).2,
   ((ring_wellformed_invariant xv6Layout).2.2.1 demoState3 0x80401000
      (Ring.toSpec _ _ r3) (by decide)
      ((Ring.inRing_iff _ _ r3 _).mpr (by decide))).2,
   (ring_wellformed_invariant xv6Layout).2.2.2.1 demoState3 4 (Ring.toSpec _ _ r3)⟩

/-! ## Counter consistency -/

theorem FreeList_head_lt (m : Mem) (h : Nat) (fl : List Nat) (hl : FreeList m h fl)
    (hfr : ∀ a ∈ fl, 4096 ∣ a ∧ a < WORD) : 4096 ∣ h ∧ h < WORD := by
  cases fl with
  | nil =>
    have : h = 0 := by simpa [FreeList] using hl
    subst this
    exact ⟨dvd_zero _, by decide⟩
  | cons a rest =>
    have : h = a := hl.1
    subst this
    exact hfr h (by simp)

theorem FreeList_link_aligned (m : Mem) :
    ∀ (fl : List Nat) (h : Nat), FreeList m h fl → (∀ a ∈ fl, 4096 ∣ a ∧ a < WORD) →
      ∀ b ∈ fl, 4096 ∣ read32 m b
  | [], _, _, _, b, hb => by simp at hb
  | a :: rest, h, hl, hfr, b, hb => by
    have hrest : FreeList m (read32 m a) rest := hl.2.2
    have hfr' : ∀ c ∈ rest, 4096 ∣ c ∧ c < WORD := fun c hc => hfr c (by simp [hc])
    rcases List.mem_cons.mp hb with e | e
    · rw [e]
      exact (FreeList_head_lt m _ rest hrest hfr').1
    · exact FreeList_link_aligned m rest _ hrest hfr' b e

theorem Ring_of_eq (s s' : State) (l : List Nat) (hr : Ring s l)
    (hp : s'.pages = s.pages) (hh : s'.page_lru_head = s.page_lru_head)
    (hc : s'.num_lru_pages = s.num_lru_pages) : Ring s' l :=
  ⟨by rw [hh]; exact hr.head, by rw [hc]; exact hr.count, hr.nodup, by rw [hp]; exact hr.links⟩

theorem FreeFrames_of_eq (s s' : State) (fl : List Nat) (hf : FreeFrames s fl)
    (hm : s'.mem = s.mem) (hfl : s'.freelist = s.freelist)
    (hc : s'.num_free_pages = s.num_free_pages) : FreeFrames s' fl :=
  ⟨by rw [hm, hfl]; exact hf.list, by rw [hc]; exact hf.count, hf.frames⟩

/-- `kfree` of a valid 32-bit frame that is not on the free list pushes it. -/
theorem kfree_FreeFrames (L : Layout) (hend : 0 < L.kend) (s : State) (v : Nat)
    (fl : List Nat) (hf : FreeFrames s fl) (hv : v < WORD) (hb : ¬ kfreeBad L v)
    (hnot : v ∉ fl) : FreeFrames (kfree L s v).s (v :: fl) := by
  have hval := (kfreeBad_iff L v).not.mp hb
  have hdvd : 4096 ∣ v := by omega
  have hv0 : v ≠ 0 := by omega
  obtain ⟨hh1, hh2⟩ := FreeList_head_lt s.mem s.freelist fl hf.list hf.frames
  rw [kfree_ok L s v hb]
  refine ⟨?_, ?_, ?_⟩
  · show FreeList (write32 (memset s.mem v 1 PGSIZE) v s.freelist) v (v :: fl)
    refine ⟨rfl, hv0, ?_⟩
    rw [read32_write32_same, Nat.mod_eq_of_lt hh2]
    refine FreeList_congr s.mem _ fl _ ?_ hf.list
    intro a ha
    have hne : a ≠ v := fun e => hnot (e ▸ ha)
    have hda := (hf.frames a ha).1
    apply read32_congr
    intro x hx1 hx2
    have hsep : a + 4096 ≤ v ∨ v + 4096 ≤ a := by omega
    rw [write32_outside _ _ _ _ (by omega),
      memset_outside _ _ _ _ _ (by unfold PGSIZE; omega)]
  · show s.num_free_pages + 1 = ((v :: fl).length : Int)
    rw [hf.count]; simp
  · intro a ha
    rcases List.mem_cons.mp ha with e | e
    · rw [e]; exact ⟨hdvd, hv⟩
    · exact hf.frames a e

theorem kfree_ring_fields (L : Layout) (s : State) (v : Nat) :
    (kfree L s v).s.pages = s.pages ∧ (kfree L s v).s.page_lru_head = s.page_lru_head ∧
    (kfree L s v).s.num_lru_pages = s.num_lru_pages := by
  by_cases hb : kfreeBad L v
  · rw [kfree_panic L s v hb]
    exact ⟨rfl, rfl, rfl⟩
  · rw [kfree_ok L s v hb]
    exact ⟨rfl, rfl, rfl⟩

theorem freerange_loop_step (L : Layout) (fuel : Nat) (s : State) (p vend : Nat)
    (tr : List Event) (hc : (p + PGSIZE) % WORD ≤ vend) (hb : ¬ kfreeBad L p) :
    freerange_loop L (fuel + 1) s p vend tr =
      freerange_loop L fuel (kfree L s p).s ((p + PGSIZE) % WORD) vend
        (tr ++ (kmemAcquire s ++ kmemRelease s)) := by
  simp only [freerange_loop, hc, if_true]
  rw [kfree_ok L s p hb]

theorem freerange_loop_bad (L : Layout) (fuel : Nat) (s : State) (p vend : Nat)
    (tr : List Event) (hc : (p + PGSIZE) % WORD ≤ vend) (hb : kfreeBad L p) :
    (freerange_loop L (fuel + 1) s p vend tr).out = Outcome.panic "kfree" := by
  simp [freerange_loop, hc, kfree_panic L s p hb]

theorem freerange_loop_exit (L : Layout) (fuel : Nat) (s : State) (p vend : Nat)
    (tr : List Event) (hc : ¬ (p + PGSIZE) % WORD ≤ vend) :
    freerange_loop L (fuel + 1) s p vend tr = ⟨Outcome.ok (), s, tr⟩ := by
  simp only [freerange_loop, hc, if_false]

/-- The loop of `freerange` runs out of fuel exactly when at each of its passes
the loop test holds and `kfree` accepts the page: whether it goes on depends
on the pointer alone. -/
theorem freerange_loop_timeout_iff (L : Layout) (vend : Nat) :
    ∀ (fuel : Nat) (s : State) (p : Nat) (tr : List Event), p < WORD →
      ((freerange_loop L fuel s p vend tr).out = Outcome.timeout ↔
        ∀ i, i < fuel → (p + (i + 1) * PGSIZE) % WORD ≤ vend ∧
          ¬ kfreeBad L ((p + i * PGSIZE) % WORD))
  | 0, s, p, tr, _ => by simp [freerange_loop]
  | fuel + 1, s, p, tr, hp => by
    by_cases hc : (p + PGSIZE) % WORD ≤ vend
    · by_cases hb : kfreeBad L p
      · rw [freerange_loop_bad L fuel s p vend tr hc hb]
        constructor
        · intro h
          simp at h
        · intro h
          have := (h 0 (by omega)).2
          rw [Nat.zero_mul, Nat.add_zero, Nat.mod_eq_of_lt hp] at this
          exact absurd hb this
      · rw [freerange_loop_step L fuel s p vend tr hc hb,
          freerange_loop_timeout_iff L vend fuel _ _ _ (Nat.mod_lt _ (by decide))]
        have e1 : ∀ i, ((p + PGSIZE) % WORD + (i + 1) * PGSIZE) % WORD
            = (p + (i + 1 + 1) * PGSIZE) % WORD := by
          intro i
          rw [Nat.mod_add_mod]
          congr 1
          ring
        have e2 : ∀ i, ((p + PGSIZE) % WORD + i * PGSIZE) % WORD
            = (p + (i + 1) * PGSIZE) % WORD := by
          intro i
          rw [Nat.mod_add_mod]
          congr 1
          ring
        constructor
        · intro h i hi
          cases i with
          | zero =>
            refine ⟨by simpa using hc, ?_⟩
            rw [Nat.zero_mul, Nat.add_zero, Nat.mod_eq_of_lt hp]
            exact hb
          | succ i =>
            have := h i (by omega)
            rw [e1, e2] at this
            exact this
        · intro h i hi
          rw [e1, e2]
          exact h (i + 1) (by omega)
    · rw [freerange_loop_exit L fuel s p vend tr hc]
      constructor
      · intro h
        simp at h
      · intro h
        exact absurd (by simpa using (h 0 (by omega)).1) hc

/-- The fuel of `freerange` is enough: when the loop has not ended with it, it
does not end with any fuel. -/
theorem freerange_timeout_forever (L : Layout) (s : State) (vstart vend : Nat)
    (h : (freerange L s vstart vend).out = Outcome.timeout) (fuel : Nat) (s' : State)
    (tr : List Event) :
    (freerange_loop L fuel s' (L.PGROUNDUP (vstart % WORD) % WORD) (vend % WORD) tr).out
      = Outcome.timeout := by
  have hp : L.PGROUNDUP (vstart % WORD) % WORD < WORD := Nat.mod_lt _ (by decide)
  have hfr : freerange L s vstart vend =
      freerange_loop L (WORD / PGSIZE + 1) s (L.PGROUNDUP (vstart % WORD) % WORD)
        (vend % WORD) [] := by
    unfold freerange
    rfl
  rw [hfr, freerange_loop_timeout_iff L _ _ _ _ _ hp] at h
  rw [freerange_loop_timeout_iff L _ _ _ _ _ hp]
  intro i _
  have hi := h (i % 1048576) (by unfold WORD PGSIZE; omega)
  have e1 : (L.PGROUNDUP (vstart % WORD) % WORD + (i + 1) * PGSIZE) % WORD =
      (L.PGROUNDUP (vstart % WORD) % WORD + (i % 1048576 + 1) * PGSIZE) % WORD := by
    unfold WORD PGSIZE
    omega
  have e2 : (L.PGROUNDUP (vstart % WORD) % WORD + i * PGSIZE) % WORD =
      (L.PGROUNDUP (vstart % WORD) % WORD + i % 1048576 * PGSIZE) % WORD := by
    unfold WORD PGSIZE
    omega
  rw [e1, e2]
  exact hi

/-- A run of the loop of `freerange` that ends normally keeps the allocator
invariant when none of the pages it frees is on the free list.  The pages
freed so far in the run (`new`) lie below `p`; a pointer sum that wraps leads
to `kfree(0)`, which panics, unless the loop ends right after the wrap. -/
theorem freerange_loop_inv (L : Layout) (hend : 0 < L.kend) (vend : Nat) :
    ∀ (fuel : Nat) (s : State) (p : Nat) (tr : List Event) (new fl : List Nat),
      p < WORD → FreeFrames s (new ++ fl) → (∀ a ∈ new, a < p) →
      (freerange_loop L fuel s p vend tr).out = Outcome.ok () →
      (∀ i, (∀ j, j ≤ i → (p + (j + 1) * PGSIZE) % WORD ≤ vend) →
        (p + i * PGSIZE) % WORD ∉ fl) →
      (∃ fl', FreeFrames (freerange_loop L fuel s p vend tr).s fl') ∧
      (freerange_loop L fuel s p vend tr).s.pages = s.pages ∧
      (freerange_loop L fuel s p vend tr).s.page_lru_head = s.page_lru_head ∧
      (freerange_loop L fuel s p vend tr).s.num_lru_pages = s.num_lru_pages
  | 0, s, p, tr, new, fl, _, _, _, hout, _ => by simp [freerange_loop] at hout
  | fuel + 1, s, p, tr, new, fl, hp, hf, hnew, hout, hnot => by
    by_cases hc : (p + PGSIZE) % WORD ≤ vend
    · by_cases hb : kfreeBad L p
      · rw [freerange_loop_bad L fuel s p vend tr hc hb] at hout
        simp at hout
      · have hval := (kfreeBad_iff L p).not.mp hb
        have hpn : p ∉ new ++ fl := by
          intro hm
          rcases List.mem_append.mp hm with e | e
          · exact absurd (hnew p e) (lt_irrefl p)
          · have h0 := hnot 0 (by
              intro j hj
              have : j = 0 := by omega
              subst this
              simpa using hc)
            rw [Nat.zero_mul, Nat.add_zero, Nat.mod_eq_of_lt hp] at h0
            exact h0 e
        have hf1 := kfree_FreeFrames L hend s p (new ++ fl) hf hp hb hpn
        obtain ⟨k1, k2, k3⟩ := kfree_ring_fields L s p
        rw [freerange_loop_step L fuel s p vend tr hc hb] at hout ⊢
        by_cases hw : p + PGSIZE < WORD
        · have hm : (p + PGSIZE) % WORD = p + PGSIZE := Nat.mod_eq_of_lt hw
          rw [hm] at hout ⊢
          obtain ⟨h1, h2, h3, h4⟩ := freerange_loop_inv L hend vend fuel (kfree L s p).s
            (p + PGSIZE) _ (p :: new) fl hw hf1 (by
              intro a ha
              rcases List.mem_cons.mp ha with e | e
              · rw [e]; unfold PGSIZE; omega
              · have := hnew a e; omega) hout (by
              intro i hi
              have e2 : p + PGSIZE + i * PGSIZE = p + (i + 1) * PGSIZE := by ring
              rw [e2]
              apply hnot (i + 1)
              intro j hj
              cases j with
              | zero => simpa using hc
              | succ j =>
                have := hi j (by omega)
                have e1 : p + PGSIZE + (j + 1) * PGSIZE = p + (j + 1 + 1) * PGSIZE := by ring
                rwa [e1] at this)
          exact ⟨h1, h2.trans k1, h3.trans k2, h4.trans k3⟩
        · have hm : (p + PGSIZE) % WORD = 0 := by
            unfold WORD PGSIZE at *
            omega
          rw [hm] at hout ⊢
          cases fuel with
          | zero => simp [freerange_loop] at hout
          | succ f =>
            by_cases hc2 : (0 + PGSIZE) % WORD ≤ vend
            · have hb0 : kfreeBad L 0 := by
                rw [kfreeBad_iff]
                right; left; exact hend
              rw [freerange_loop_bad L f _ 0 vend _ hc2 hb0] at hout
              simp at hout
            · rw [freerange_loop_exit L f _ 0 vend _ hc2]
              exact ⟨⟨_, hf1⟩, k1, k2, k3⟩
    · rw [freerange_loop_exit L fuel s p vend tr hc]
      exact ⟨⟨_, hf⟩, rfl, rfl, rfl⟩

theorem kalloc_loop_inv (L : Layout) (swap_out : State → Int × State)
    (hswap : ∀ s, AllocInv L s → s.freelist = 0 → AllocInv L (swap_out s).2) :
    ∀ (fuel : Nat) (s : State) (tr : List Event), AllocInv L s →
      AllocInv L (kalloc_loop swap_out fuel s tr).s
  | 0, s, tr, h => by simpa [kalloc_loop] using h
  | fuel + 1, s, tr, h => by
    by_cases hf : s.freelist = 0
    · by_cases h0 : (swap_out s).1 = 0
      · rw [kalloc_loop_oom swap_out fuel s tr hf h0]
        exact hswap s h hf
      · rw [kalloc_loop_retry swap_out fuel s tr hf h0]
        exact kalloc_loop_inv L swap_out hswap fuel _ _ (hswap s h hf)
    · rw [kalloc_loop_pop swap_out fuel s tr hf]
      obtain ⟨⟨fl, hfl⟩, ⟨l, hr, hbd⟩⟩ := h
      refine ⟨?_, ⟨l, Ring_of_eq s _ l hr rfl rfl rfl, hbd⟩⟩
      cases fl with
      | nil => exact absurd (by simpa [FreeList] using hfl.list) hf
      | cons a rest =>
        have ha : s.freelist = a := hfl.list.1
        refine ⟨rest, ⟨?_, ?_, fun c hc => hfl.frames c (by simp [hc])⟩⟩
        · show FreeList s.mem (read32 s.mem s.freelist) rest
          rw [ha]; exact hfl.list.2.2
        · show s.num_free_pages - 1 = (rest.length : Int)
          rw [hfl.count]; simp

/-- The scan of `select_victim` never writes to a link word of the free list:
such a word is a page-aligned address, whose access flag is clear. -/
theorem sv_loop_free (L : Layout) (hE : L.EntriesOK) :
    ∀ (fuel : Nat) (s : State) (l : List Nat) (tr : List Event) (fl : List Nat),
      Ring s l → l ≠ [] → FreeFrames s fl →
      FreeFrames (select_victim_loop L fuel s s.page_lru_head tr).s fl
  | 0, s, l, tr, fl, _, _, hf => by simpa [select_victim_loop] using hf
  | fuel + 1, s, l, tr, fl, hr, hne, hf => by
    cases l with
    | nil => exact absurd rfl hne
    | cons a rest =>
      have hh : s.page_lru_head = some a := Ring.head_eq s a rest hr
      by_cases hacc : accessed L s a
      · rw [hh, sv_step_set L fuel s a tr hh hacc]
        have hr1 := Ring_stepSet L s a rest hr
        have hf1 : FreeFrames (stepSet L s a) fl := by
          refine ⟨?_, hf.count, hf.frames⟩
          show FreeList (clearA L s.mem (pteAddr L s.mem (s.pages a))) s.freelist fl
          refine FreeList_congr s.mem _ fl _ ?_ hf.list
          intro b hb
          have hb4 : b % 4 = 0 := by
            have := (hf.frames b hb).1
            omega
          refine clearA_other L s.mem _ b (hE.1 _ _) hb4 ?_
          intro e
          have hlink := FreeList_link_aligned s.mem fl _ hf.list hf.frames b hb
          have := hE.2 _ hlink
          unfold accessed at hacc
          rw [e] at hacc
          exact hacc this
        have hnext : (s.pages a).next = (stepSet L s a).page_lru_head := rfl
        rw [hnext]
        exact sv_loop_free L hE fuel (stepSet L s a) (rest ++ [a]) _ fl hr1 (by simp) hf1
      · rw [hh, sv_step_clear L fuel s a tr hacc]
        exact hf

theorem select_victim_free (L : Layout) (hE : L.EntriesOK) (fuel : Nat) (s : State)
    (l : List Nat) (fl : List Nat) (hr : Ring s l) (hf : FreeFrames s fl) :
    FreeFrames (select_victim L fuel s).s fl := by
  cases l with
  | nil =>
    have hh : s.page_lru_head = none := by simpa using hr.head
    simpa [select_victim, hh] using hf
  | cons a rest =>
    rw [select_victim_nonempty L fuel s a (Ring.head_eq s a rest hr)]
    exact sv_loop_free L hE fuel s (a :: rest) _ fl hr (by simp) hf

theorem FreeList_unique (m : Mem) :
    ∀ (fl fl' : List Nat) (h : Nat), FreeList m h fl → FreeList m h fl' → fl = fl'
  | [], [], _, _, _ => rfl
  | [], a :: _, h, h1, h2 => by
    have : h = 0 := by simpa [FreeList] using h1
    exact absurd (h2.1 ▸ this) h2.2.1
  | a :: _, [], h, h1, h2 => by
    have : h = 0 := by simpa [FreeList] using h2
    exact absurd (h1.1 ▸ this) h1.2.1
  | a :: rest, b :: rest', h, h1, h2 => by
    have e : a = b := h1.1.symm.trans h2.1
    subst e
    rw [FreeList_unique m rest rest' _ h1.2.2 h2.2.2]

/-- Every reachable state satisfies the allocator invariant. -/
theorem Reach.inv (L : Layout) (swap_out : State → Int × State) (hend : 0 < L.kend)
    (hE : L.EntriesOK)
    (hswap : ∀ s, AllocInv L s → s.freelist = 0 → AllocInv L (swap_out s).2) :
    ∀ s, Reach L swap_out s → AllocInv L s := by
  intro s hs
  induction hs with
  | init s h1 h2 h3 h4 =>
    exact ⟨⟨[], ⟨by simpa [FreeList] using h1, by simpa using h2, by simp⟩⟩,
      ⟨[], ⟨by rw [h3]; rfl, by simpa using h4, by simp, trivial⟩, by simp⟩⟩
  | kfree s v _ hv hval hnot ih =>
    obtain ⟨⟨fl, hf⟩, ⟨l, hr, hbd⟩⟩ := ih
    have hb : ¬ kfreeBad L v := by rw [kfreeBad_iff]; omega
    obtain ⟨k1, k2, k3⟩ := kfree_ring_fields L s v
    exact ⟨⟨v :: fl, kfree_FreeFrames L hend s v fl hf hv hb (hnot fl hf.list)⟩,
      ⟨l, Ring_of_eq s _ l hr k1 k2 k3, hbd⟩⟩
  | freerange s vstart vend _ hout hnot ih =>
    obtain ⟨⟨fl, hf⟩, ⟨l, hr, hbd⟩⟩ := ih
    have hfr : Kalloc.freerange L s vstart vend =
        freerange_loop L (WORD / PGSIZE + 1) s (L.PGROUNDUP (vstart % WORD) % WORD)
          (vend % WORD) [] := by
      unfold Kalloc.freerange
      rfl
    rw [hfr] at hout ⊢
    obtain ⟨h1, h2, h3, h4⟩ := freerange_loop_inv L hend (vend % WORD) (WORD / PGSIZE + 1) s
      (L.PGROUNDUP (vstart % WORD) % WORD) [] [] fl (Nat.mod_lt _ (by decide)) hf (by simp)
      hout (fun i hi hm => hnot fl hf.list _ hm ⟨i, rfl, hi⟩)
    exact ⟨h1, ⟨l, Ring_of_eq s _ l hr h2 h3 h4, hbd⟩⟩
  | kalloc s fuel _ _ ih => exact kalloc_loop_inv L swap_out hswap fuel s [] ih
  | register s pgdir pa va _ hin hnot ih =>
    obtain ⟨⟨fl, hf⟩, ⟨l, hr, hbd⟩⟩ := ih
    have hnl : pageIndex L pa ∉ l := fun h => hnot ((Ring.inRing_iff s l hr _).mpr h)
    obtain ⟨s', h0, h1, h2, h3, _, h5, _⟩ := kalloc_to_lru_list_ok L s pgdir pa va l hr hin hnl
    rw [h0]
    refine ⟨⟨fl, FreeFrames_of_eq s s' fl hf h2 h3 h5⟩, ⟨_, h1, ?_⟩⟩
    intro x hx
    rcases List.mem_cons.mp hx with e | e
    · rw [e]; exact hin
    · exact hbd x e
  | deregister s v _ hin hmem ih =>
    obtain ⟨⟨fl, hf⟩, ⟨l, hr, hbd⟩⟩ := ih
    have hml : pageIndex L v ∈ l := (Ring.inRing_iff s l hr _).mp hmem
    obtain ⟨s', h0, h1, _, _, _, _, _, h7, h8, _, h10, _⟩ :=
      kfree_from_lru_list_ok L s v l hr hin hml
    rw [h0]
    exact ⟨⟨fl, FreeFrames_of_eq s s' fl hf h7 h8 h10⟩,
      ⟨_, h1, fun x hx => hbd x (List.mem_of_mem_erase hx)⟩⟩
  | select_victim s fuel _ _ ih =>
    obtain ⟨⟨fl, hf⟩, ⟨l, hr, hbd⟩⟩ := ih
    obtain ⟨l', h1, hperm, _⟩ := select_victim_ring L fuel s l hr
    exact ⟨⟨fl, select_victim_free L hE fuel s l fl hr hf⟩,
      ⟨l', h1, fun x hx => hbd x (hperm.subset hx)⟩⟩

/-- The victim that the scan returns is a node of the ring. -/
theorem sv_loop_victim (L : Layout) :
    ∀ (fuel : Nat) (s : State) (l : List Nat) (tr : List Event) (v : Nat),
      Ring s l → l ≠ [] →
      (select_victim_loop L fuel s s.page_lru_head tr).out = Outcome.ok (some v) → v ∈ l
  | 0, s, l, tr, v, _, _, h => by simp [select_victim_loop] at h
  | fuel + 1, s, l, tr, v, hr, hne, h => by
    cases l with
    | nil => exact absurd rfl hne
    | cons a rest =>
      have hh : s.page_lru_head = some a := Ring.head_eq s a rest hr
      by_cases hacc : accessed L s a
      · rw [hh, sv_step_set L fuel s a tr hh hacc] at h
        have hr1 := Ring_stepSet L s a rest hr
        have hnext : (s.pages a).next = (stepSet L s a).page_lru_head := rfl
        rw [hnext] at h
        have := sv_loop_victim L fuel (stepSet L s a) (rest ++ [a]) _ v hr1 (by simp) h
        rcases List.mem_append.mp this with e | e
        · exact List.mem_cons_of_mem _ e
        · rw [List.mem_singleton.mp e]
          exact List.mem_cons_self _ _
      · rw [hh, sv_step_clear L fuel s a tr hacc] at h
        have e : a = v := by simpa using h
        rw [← e]
        exact List.mem_cons_self _ _

theorem select_victim_victim (L : Layout) (fuel : Nat) (s : State) (l : List Nat) (v : Nat)
    (hr : Ring s l) (h : (select_victim L fuel s).out = Outcome.ok (some v)) : v ∈ l := by
  cases l with
  | nil =>
    have hh : s.page_lru_head = none := by simpa using hr.head
    simp [select_victim, hh] at h
  | cons a rest =>
    rw [select_victim_nonempty L fuel s a (Ring.head_eq s a rest hr)] at h
    exact sv_loop_victim L fuel s (a :: rest) _ v hr (by simp) h

/-- Evicting a node of the ring while the free list is empty keeps the
allocator invariant: the node leaves the ring and its frame becomes the one
free frame. -/
theorem evictFrame_inv (L : Layout) (hend : 0 < L.kend) (hF : L.FramesOK) (s : State)
    (v : Nat) (l : List Nat) (hf : FreeFrames s []) (hr : Ring s l)
    (hbd : ∀ x ∈ l, x < NPAGES L) (hv : v ∈ l) :
    AllocInv L (evictFrame L s v).2 := by
  unfold evictFrame
  have hn : v < NPAGES L := hbd v hv
  obtain ⟨hpi, hlt⟩ := hF v hn
  obtain ⟨s', h0, h1, _, _, _, _, _, h7, h8, _, h10, _⟩ :=
    kfree_from_lru_list_ok L s (L.P2V (v * PGSIZE)) l hr (by rw [hpi]; exact hn)
      (by rw [hpi]; exact hv)
  have hf' : FreeFrames s' [] := FreeFrames_of_eq s s' [] hf h7 h8 h10
  have hbd' : ∀ x ∈ l.erase (pageIndex L (L.P2V (v * PGSIZE))), x < NPAGES L :=
    fun x hx => hbd x (List.mem_of_mem_erase hx)
  simp only [h0]
  by_cases hb : kfreeBad L (L.P2V (v * PGSIZE))
  · rw [kfree_panic L s' _ hb]
    exact ⟨⟨[], hf'⟩, ⟨_, h1, hbd'⟩⟩
  · have hf2 := kfree_FreeFrames L hend s' _ [] hf' hlt hb (by simp)
    obtain ⟨k1, k2, k3⟩ := kfree_ring_fields L s' (L.P2V (v * PGSIZE))
    rw [kfree_ok L s' _ hb] at hf2 k1 k2 k3 ⊢
    exact ⟨⟨_, hf2⟩, ⟨_, Ring_of_eq s' _ _ h1 k1 k2 k3, hbd'⟩⟩

/-- The eviction modelled from the spec keeps the allocator invariant in the
states where `kalloc` calls it, those with an empty free list. -/
theorem evict_inv (L : Layout) (hend : 0 < L.kend) (hE : L.EntriesOK) (hF : L.FramesOK)
    (fuel : Nat) (s : State) (h : AllocInv L s) (h0 : s.freelist = 0) :
    AllocInv L (evict L fuel s).2 := by
  obtain ⟨⟨fl, hf⟩, ⟨l, hr, hbd⟩⟩ := h
  have hfl : fl = [] := by
    cases fl with
    | nil => rfl
    | cons a rest => exact absurd (hf.list.1.symm.trans h0) hf.list.2.1
  subst hfl
  obtain ⟨l', hr1, hperm, _⟩ := select_victim_ring L fuel s l hr
  have hf1 := select_victim_free L hE fuel s l [] hr hf
  have hbd1 : ∀ x ∈ l', x < NPAGES L := fun x hx => hbd x (hperm.subset hx)
  have hv : ∀ v, (select_victim L fuel s).out = Outcome.ok (some v) → v ∈ l' :=
    fun v hv => hperm.symm.subset (select_victim_victim L fuel s l v hr hv)
  unfold evict
  generalize select_victim L fuel s = res at hr1 hf1 hv
  obtain ⟨out, s1, t⟩ := res
  cases out with
  | ok o =>
    cases o with
    | none => exact ⟨⟨[], hf1⟩, ⟨l', hr1, hbd1⟩⟩
    | some v => exact evictFrame_inv L hend hF s1 v l' hf1 hr1 hbd1 (hv v rfl)
  | panic m => exact ⟨⟨[], hf1⟩, ⟨l', hr1, hbd1⟩⟩
  | fault => exact ⟨⟨[], hf1⟩, ⟨l', hr1, hbd1⟩⟩
  | timeout => exact ⟨⟨[], hf1⟩, ⟨l', hr1, hbd1⟩⟩

theorem xv6Layout_framesOK : xv6Layout.FramesOK := by
  intro v hv
  have hv' : v < 57344 := hv
  constructor
  · show ((v * PGSIZE + 0x80000000) % WORD % WORD + WORD - 0x80000000) % WORD / PGSIZE = v
    unfold WORD PGSIZE
    omega
  · show (v * PGSIZE + 0x80000000) % WORD < WORD
    exact Nat.mod_lt _ (by decide)

theorem AllocInv.consistent (L : Layout) (s : State) (h : AllocInv L s) :
    CounterConsistent s ∧ 0 ≤ s.num_free_pages ∧ 0 ≤ s.num_lru_pages := by
  obtain ⟨⟨fl, hf⟩, ⟨l, hr, _⟩⟩ := h
  exact ⟨⟨fl, l, hf.list, hf.count, hr, Ring.inRing_iff s l hr, hr.count⟩,
    by rw [hf.count]; simp, by rw [hr.count]; simp⟩

theorem xv6Layout_entriesOK : xv6Layout.EntriesOK := by
  constructor
  · intro m pg
    show (((read32 m (pdeAddr xv6Layout pg) &&& 0xFFFFF000) + 0x80000000) % WORD
        + 4 * ((pg.vaddr >>> 12) &&& 0x3FF)) % WORD % 4 = 0
    have h3 : (read32 m (pdeAddr xv6Layout pg) &&& 0xFFFFF000) % 4 = 0 := by
      have e : (read32 m (pdeAddr xv6Layout pg) &&& 0xFFFFF000) % 2 ^ 2
          = (read32 m (pdeAddr xv6Layout pg) &&& 0xFFFFF000) &&& (2 ^ 2 - 1) :=
        (Nat.and_pow_two_sub_one_eq_mod _ 2).symm
      have e2 : (read32 m (pdeAddr xv6Layout pg) &&& 0xFFFFF000) &&& (2 ^ 2 - 1) = 0 := by
        rw [Nat.land_assoc]
        have : (0xFFFFF000 : Nat) &&& (2 ^ 2 - 1) = 0 := by decide
        rw [this]; simp
      rw [e2] at e
      simpa using e
    unfold WORD
    omega
  · intro w hw
    show w &&& 0x020 = 0
    have e : w % 2 ^ 12 = w &&& (2 ^ 12 - 1) := (Nat.and_pow_two_sub_one_eq_mod _ 12).symm
    have h0 : w &&& (2 ^ 12 - 1) = 0 := by
      rw [← e]
      have : w % 4096 = 0 := Nat.mod_eq_zero_of_dvd hw
      simpa using this
    have : w &&& 0x020 = (w &&& (2 ^ 12 - 1)) &&& 0x020 := by
      rw [Nat.land_assoc]
      have : ((2 : Nat) ^ 12 - 1) &&& 0x020 = 0x020 := by decide
      rw [this]
    rw [this, h0]
    simp

theorem FreeList_self_loop (m : Mem) (p : Nat) (hp : p ≠ 0) (h : read32 m p = p) :
    ∀ fl, ¬ FreeList m p fl
  | [], hl => hp (by simpa [FreeList] using hl)
  | a :: rest, hl => by
    have e : p = a := hl.1
    have hr : FreeList m (read32 m a) rest := hl.2.2
    rw [← e, h] at hr
    exact FreeList_self_loop m p hp h rest hr

/-- C12, refuted as stated: from the empty allocator, `freerange` over the one
page at `0x80400000` completes, and so does a second `freerange` over the same
page.  Afterwards `num_free_pages` is 2, while the free list holds the single
frame `0x80400000` linked to itself: no list of frames is the free list, and
the state is not counter consistent. -/
theorem freerange_twice_inconsistent :
    (emptyState.freelist = 0 ∧ emptyState.num_free_pages = 0 ∧
      emptyState.page_lru_head = none ∧ emptyState.num_lru_pages = 0) ∧
    (freerange xv6Layout emptyState 0x80400000 0x80401000).out = Outcome.ok () ∧
    (freerange xv6Layout (freerange xv6Layout emptyState 0x80400000 0x80401000).s
      0x80400000 0x80401000).out = Outcome.ok () ∧
    doubleFreeState.num_free_pages = 2 ∧
    doubleFreeState.freelist = 0x80400000 ∧
    read32 doubleFreeState.mem 0x80400000 = 0x80400000 ∧
    (∀ fl, ¬ FreeList doubleFreeState.mem doubleFreeState.freelist fl) ∧
    ¬ CounterConsistent doubleFreeState := by
  have hfl : doubleFreeState.freelist = 0x80400000 := by decide
  have hrd : read32 doubleFreeState.mem 0x80400000 = 0x80400000 := by decide
  have hno : ∀ fl, ¬ FreeList doubleFreeState.mem doubleFreeState.freelist fl := by
    rw [hfl]
    exact FreeList_self_loop _ _ (by decide) hrd
  refine ⟨⟨rfl, rfl, rfl, rfl⟩, by decide, by decide, by decide, hfl, hrd, hno, ?_⟩
  rintro ⟨fl, _, h, _⟩
  exact hno fl h

/-- In the history that leads to `historyState` the second allocation finds
the free list empty, calls the eviction once, which reports success, and
returns the frame the eviction freed; the history ends with one free frame and
one node in the ring. -/
theorem history_evicts :
    history2.freelist = 0 ∧
    (evict xv6Layout 4 history2).1 = 1 ∧
    (kalloc (evict xv6Layout 4) 2 history2).out = Outcome.ok 0x80401000 ∧
    (kalloc (evict xv6Layout 4) 2 history2).trace = [Event.swap_out] ∧
    historyState.num_free_pages = 1 ∧ historyState.num_lru_pages = 1 := by
  decide

/-- C12, amended: counter consistency is an invariant of the reachable states,
where `freerange`, like `kfree`, frees no page that is already on the free
list.  For a kernel image with non-null `end`, paging macros with word-aligned
entries and the access flag below the page-frame bits, and an external
`swap_out` that keeps the allocator invariant (the free list a list of frames
counted by `num_free_pages`, the ring well formed and made of descriptors of
`pages[]`) where `kalloc` calls it, that is with the free list empty, in every
state reached from an initial state by completed operations `num_free_pages`
is the number of frames on the free list (the length of its one list of
frames), `num_lru_pages` is the number of nodes reachable from the ring head,
and neither counter is negative. -/
theorem counters_consistent (L : Layout) (swap_out : State → Int × State)
    (hend : 0 < L.kend) (hE : L.EntriesOK)
    (hswap : ∀ s, AllocInv L s → s.freelist = 0 → AllocInv L (swap_out s).2)
    (s : State) (hs : Reach L swap_out s) :
    CounterConsistent s ∧
    (∀ fl, FreeList s.mem s.freelist fl → s.num_free_pages = fl.length) ∧
    (∀ l, Ring s l → (∀ x, InRing s x ↔ x ∈ l) ∧ s.num_lru_pages = l.length) ∧
    0 ≤ s.num_free_pages ∧ 0 ≤ s.num_lru_pages := by
  have hinv := Reach.inv L swap_out hend hE hswap s hs
  obtain ⟨hc, h1, h2⟩ := AllocInv.consistent L s hinv
  refine ⟨hc, ?_, ?_, h1, h2⟩
  · intro fl hfl
    obtain ⟨⟨fl', hf'⟩, _⟩ := hinv
    rw [FreeList_unique s.mem fl fl' _ hfl hf'.list]
    exact hf'.count
  · intro l hr
    exact ⟨Ring.inRing_iff s l hr, hr.count⟩

/-- Witness for the amended C12, with the eviction modelled from the spec as
`swap_out`: seed one page with `freerange` and allocate it, register two
frames, allocate again with the free list empty (the eviction frees the frame
of the node whose access bit is clear and `kalloc` retries), search a victim
and free another frame. -/
theorem counters_consistent_witness :
    CounterConsistent historyState ∧
    (∀ fl, FreeList historyState.mem historyState.freelist fl →
      historyState.num_free_pages = fl.length) ∧
    (∀ l, Ring historyState l →
      (∀ x, InRing historyState x ↔ x ∈ l) ∧ historyState.num_lru_pages = l.length) ∧
    0 ≤ historyState.num_free_pages ∧ 0 ≤ historyState.num_lru_pages :=
  have nil_of_null : ∀ (s : State), s.freelist = 0 → ∀ fl, FreeList s.mem s.freelist fl →
      fl = [] := fun s h0 fl h => by
    cases fl with
    | nil => rfl
    | cons a rest => exact absurd (h.1.symm.trans h0) h.2.1
  have r1 : Ring (kalloc_to_lru_list xv6Layout history1 0x80500000 0x80401000 0x2000).s
      [1025] := ⟨by decide, by decide, by decide, by decide⟩
  counters_consistent xv6Layout (evict xv6Layout 4) (by decide) xv6Layout_entriesOK
    (evict_inv xv6Layout (by decide) xv6Layout_entriesOK xv6Layout_framesOK 4)
    historyState
    (Reach.kfree _ 0x80402000
      (Reach.select_victim _ 4
        (Reach.kalloc _ 2
          (Reach.register _ 0x80500000 0x80400000 0x1000
            (Reach.register _ 0x80500000 0x80401000 0x2000
              (Reach.kalloc _ 1
                (Reach.freerange demoState0 0x80401000 0x80402000
                  (Reach.init demoState0 rfl rfl rfl rfl)
                  (by decide)
                  (fun fl h a ha => by
                    rw [nil_of_null demoState0 rfl fl h] at ha
                    simp at ha))
                ⟨0x80401000, by decide⟩)
              (by decide)
              (fun h => by
                obtain ⟨x, k, hh, _⟩ := h
                have e : history1.page_lru_head = none := by decide
                rw [e] at hh
                exact Option.noConfusion hh))
            (by decide)
            (fun h => absurd ((Ring.inRing_iff _ _ r1 _).mp h) (by decide)))
          ⟨0x80401000, by decide⟩)
        ⟨some 1024, by decide⟩)
      (by decide) (by decide)
      (fun fl h => by
        rw [nil_of_null _ (by decide) fl h]
        simp))

end Kalloc
